import Mathlib

/-!
# Verification development for the core of `rai/node/node.cpp`

Shallow embedding of the peer table, the reserved-address filter, the gap cache
and the election engine, followed by the theorems about them.

Conventions of the embedding.
* Time points are natural numbers (ticks of the system clock); every operation that
  reads `std::chrono::system_clock::now ()` takes the reading as the argument `now`.
* A 128-bit IPv6 address is the big-endian value of its sixteen bytes, so that the
  byte-wise `memcmp` order of `boost::asio::ip::address_v6` is the order of `Nat`.
* Observer calls and work posted to the executor are returned as values.
-/

namespace rai

/-! ## Addresses and endpoints -/

/-- An address_v6 of boost asio: the sixteen bytes as one big-endian number, and the scope id. -/
structure address_v6 where
  bytes : Nat
  scope_id : Nat
deriving DecidableEq, Repr

/-- The `operator<` of address_v6: `memcmp` on the bytes first, the scope id second. -/
def address_v6.lt (a1 a2 : address_v6) : Bool :=
  if a1.bytes < a2.bytes then true
  else if a1.bytes > a2.bytes then false
  else decide (a1.scope_id < a2.scope_id)

/-- The `operator<=` of address_v6, defined by the library as `!(a2 < a1)`. -/
def address_v6.le (a1 a2 : address_v6) : Bool := !(a2.lt a1)

/-- The `operator>=` of address_v6, defined by the library as `!(a1 < a2)`. -/
def address_v6.ge (a1 a2 : address_v6) : Bool := !(a1.lt a2)

/-- The address `::ffff:a.b.c.d` built by `address_v6::v4_mapped`; the argument is the
IPv4 address as a 32-bit number in host order. -/
def address_v6.v4_mapped (v4 : Nat) : address_v6 :=
  { bytes := 0xffff00000000 + v4, scope_id := 0 }

/-- The test `address_v6::is_unspecified`: all sixteen bytes are zero. -/
def address_v6.is_unspecified (a : address_v6) : Bool := a.bytes == 0

/-- The test `address_v6::is_v4_mapped`: bytes 0..9 are zero and bytes 10, 11 are 0xff. -/
def address_v6.is_v4_mapped (a : address_v6) : Bool := a.bytes / 2 ^ 32 == 0xffff

/-- The low four bytes of an address, the IPv4 address a mapped address stands for. -/
def address_v6.to_v4 (a : address_v6) : Nat := a.bytes % 2 ^ 32

/-- An address of boost asio: either an IPv4 address (32-bit number) or an IPv6 address. -/
inductive address where
  | v4 (a : Nat)
  | v6 (a : address_v6)
deriving DecidableEq, Repr

/-- The test `address::is_v4`. -/
def address.is_v4 : address → Bool
  | .v4 _ => true
  | .v6 _ => false

/-- The test `address::is_v6`. -/
def address.is_v6 : address → Bool
  | .v4 _ => false
  | .v6 _ => true

/-- The conversion `address::to_v6`, which throws for an IPv4 address (`none`). -/
def address.to_v6 : address → Option address_v6
  | .v4 _ => none
  | .v6 a => some a

/-- An endpoint (`boost::asio::ip::udp::endpoint`): address and port. -/
structure endpoint where
  address : address
  port : Nat
deriving DecidableEq, Repr

/-- The helper `mapped_from_v4_bytes` of node.cpp. -/
def mapped_from_v4_bytes (address_a : Nat) : address_v6 :=
  address_v6.v4_mapped address_a

/-- The body of `rai::reserved_address` once the address is known to be IPv6. -/
def reserved_bytes (bytes : address_v6) : Bool :=
  if bytes.ge (mapped_from_v4_bytes 0x00000000) && bytes.le (mapped_from_v4_bytes 0x00ffffff) then true
  else if bytes.ge (mapped_from_v4_bytes 0xc0000200) && bytes.le (mapped_from_v4_bytes 0xc00002ff) then true
  else if bytes.ge (mapped_from_v4_bytes 0xc6336400) && bytes.le (mapped_from_v4_bytes 0xc63364ff) then true
  else if bytes.ge (mapped_from_v4_bytes 0xcb007100) && bytes.le (mapped_from_v4_bytes 0xcb0071ff) then true
  else if bytes.ge (mapped_from_v4_bytes 0xe9fc0000) && bytes.le (mapped_from_v4_bytes 0xe9fc00ff) then true
  else if bytes.ge (mapped_from_v4_bytes 0xf0000000) then true
  else false

/-- The function `rai::reserved_address`; `none` when the endpoint is not IPv6
(the assertion fails and `to_v6` throws). -/
def reserved_address (endpoint_a : endpoint) : Option Bool :=
  match endpoint_a.address.to_v6 with
  | none => none
  | some bytes => some (reserved_bytes bytes)

/-- The reserved ranges as the specification lists them, for an IPv4 address:
0.0.0.0/8, 192.0.2.0/24, 198.51.100.0/24, 203.0.113.0/24, 233.252.0.0/24, 240.0.0.0/4. -/
def reserved_v4_spec (v4 : Nat) : Bool :=
  v4 / 2 ^ 24 == 0 || v4 / 2 ^ 8 == 0xc00002 || v4 / 2 ^ 8 == 0xc63364 ||
  v4 / 2 ^ 8 == 0xcb0071 || v4 / 2 ^ 8 == 0xe9fc00 || v4 / 2 ^ 28 == 0xf

/-- The reserved predicate as the specification words it: the address is the
IPv4-mapped form of an IPv4 address in one of the listed ranges. -/
def reserved_spec (a : address_v6) : Bool :=
  a.is_v4_mapped && reserved_v4_spec a.to_v4

/-- The global unicast address 2001:4860:4860::8888. -/
def addr_2001_4860_4860_8888 : address_v6 :=
  { bytes := 0x20014860486000000000000000008888, scope_id := 0 }

/-! ## Peer table -/

/-- The record `rai::peer_information`; `most_recent` is a block hash. -/
structure peer_information where
  endpoint : endpoint
  last_contact : Nat
  last_attempt : Nat
  last_bootstrap_failure : Nat
  most_recent : Nat
deriving DecidableEq, Repr

/-- Modelled from the spec: the multi-index declaration of `peer_container::peers` is in
node.hpp. The container is indexed by endpoint (unique, index 0) and by `last_contact`
(ordered, index 1). `peers` lists the records in the iteration order of index 0, new
records going to the end; `self` is the node's own endpoint. -/
structure peer_container where
  self : endpoint
  peers : List peer_information
deriving DecidableEq, Repr

/-- The constructor `peer_container (self_a)`: an empty table. -/
def peer_container.new (self_a : endpoint) : peer_container :=
  { self := self_a, peers := [] }

/-- The lookup `peers.find (endpoint_a)` on index 0. -/
def peer_container.find (p : peer_container) (endpoint_a : endpoint) : Option peer_information :=
  p.peers.find? (fun i => i.endpoint == endpoint_a)

/-- The call `peers.modify (existing, f)` for the record found under `endpoint_a`:
the first record with that endpoint is replaced by `f` of it. -/
def modify_endpoint (endpoint_a : endpoint) (f : peer_information → peer_information) :
    List peer_information → List peer_information
  | [] => []
  | i :: rest =>
    if i.endpoint == endpoint_a then f i :: rest
    else i :: modify_endpoint endpoint_a f rest

/-- Index 1 of the table: the records in ascending order of `last_contact`
(records with equal keys keep their relative order). -/
def by_last_contact (l : List peer_information) : List peer_information :=
  l.insertionSort (fun a b => a.last_contact ≤ b.last_contact)

/-- The method `peer_container::list`: a copy of the records in index 0 order. -/
def peer_container.list (p : peer_container) : List peer_information := p.peers

/-- The method `peer_container::not_a_peer`; `none` when `to_v6` throws. -/
def peer_container.not_a_peer (p : peer_container) (endpoint_a : endpoint) : Option Bool :=
  match endpoint_a.address.to_v6 with
  | none => none
  | some a =>
    if a.is_unspecified then some true
    else
      match reserved_address endpoint_a with
      | none => none
      | some true => some true
      | some false => if endpoint_a == p.self then some true else some false

/-- What one call of `peer_container::insert` yields: the returned flag, the endpoint
handed to `peer_observer` (if any) and the table afterwards. -/
structure insert_outcome where
  result : Bool
  observed : Option endpoint
  table : peer_container
deriving DecidableEq, Repr

/-- The method `peer_container::insert (endpoint_a, hash_a)`; `none` when `not_a_peer`
throws, which happens before the table is touched. -/
def peer_container.insert (p : peer_container) (endpoint_a : endpoint) (hash_a : Nat)
    (now : Nat) : Option insert_outcome :=
  match p.not_a_peer endpoint_a with
  | none => none
  | some true => some { result := true, observed := none, table := p }
  | some false =>
    match p.find endpoint_a with
    | some _ =>
      let modified := modify_endpoint endpoint_a
        (fun info => { info with last_contact := now, most_recent := hash_a }) p.peers
      some { result := true, observed := none, table := { p with peers := modified } }
    | none =>
      let inserted : peer_information :=
        { endpoint := endpoint_a, last_contact := now, last_attempt := now,
          last_bootstrap_failure := 0, most_recent := hash_a }
      some { result := false, observed := some endpoint_a,
             table := { p with peers := p.peers ++ [inserted] } }

/-- The method `peer_container::contacted`: an IPv4 endpoint is replaced by its mapped
IPv6 form, then `insert (endpoint_l)` with hash 0. -/
def peer_container.contacted (p : peer_container) (endpoint_a : endpoint) (now : Nat) :
    Option insert_outcome :=
  let endpoint_l : endpoint :=
    match endpoint_a.address with
    | .v4 a => { address := .v6 (address_v6.v4_mapped a), port := endpoint_a.port }
    | .v6 _ => endpoint_a
  p.insert endpoint_l 0 now

/-- The method `peer_container::bootstrap_failed`. -/
def peer_container.bootstrap_failed (p : peer_container) (endpoint_a : endpoint) (now : Nat) :
    peer_container :=
  match p.find endpoint_a with
  | some _ =>
    let modified := modify_endpoint endpoint_a
      (fun info_a => { info_a with last_bootstrap_failure := now }) p.peers
    { p with peers := modified }
  | none => p

/-- What one call of `peer_container::purge_list` yields: the returned vector, whether
`disconnect_observer` was called, and the table afterwards. -/
structure purge_outcome where
  result : List peer_information
  disconnected : Bool
  table : peer_container
deriving DecidableEq, Repr

/-- The method `peer_container::purge_list (cutoff)`. `pivot` is the lower bound of
`cutoff` in index 1, the first record whose `last_contact` is not below `cutoff`:
the range from `pivot` to the end is copied into `result`, the range before `pivot`
is erased from the container, and every record left gets `last_attempt = now`. -/
def peer_container.purge_list (p : peer_container) (cutoff now : Nat) : purge_outcome :=
  let index1 := by_last_contact p.peers
  let before_pivot := index1.takeWhile (fun i => decide (i.last_contact < cutoff))
  let result := index1.dropWhile (fun i => decide (i.last_contact < cutoff))
  let left := p.peers.filter (fun i => !(before_pivot.contains i))
  { result := result,
    disconnected := result.isEmpty,
    table := { p with peers := left.map (fun info => { info with last_attempt := now }) } }

/-- The unspecified IPv6 endpoint `rai::endpoint (address_v6 {}, 0)`. -/
def unspecified_endpoint : endpoint :=
  { address := .v6 { bytes := 0, scope_id := 0 }, port := 0 }

/-- The statement `if (index != peers.size () - 1) peers [index] = peers [peers.size () - 1]`
of `random_fill`, on the local vector `peers`. -/
def overwrite_with_last (peers : List peer_information) (index : Nat) : List peer_information :=
  if index ≠ peers.length - 1 then
    match peers.getLast? with
    | some last => peers.set index last
    | none => peers
  else peers

/-- The while loop of `peer_container::random_fill`: as long as more than `target_size`
records are left, draw an index, overwrite that slot with the last record unless it is
the last slot, and pop the last record. `GenerateWord32 k max` is the value the `k`-th
call `random_pool.GenerateWord32 (0, max)` returns; `none` when the assertion
`index < peers.size ()` fails, or when the loop has not ended after `fuel` rounds
(`peers.length` rounds are always enough). -/
def random_fill_loop (GenerateWord32 : Nat → Nat → Nat) (target_size : Nat) :
    Nat → Nat → List peer_information → Option (List peer_information)
  | 0, _, peers => if peers.length > target_size then none else some peers
  | fuel + 1, k, peers =>
    if peers.length > target_size then
      let index := GenerateWord32 k (peers.length - 1)
      if index < peers.length then
        random_fill_loop GenerateWord32 target_size fuel (k + 1)
          (overwrite_with_last peers index).dropLast
      else none
    else some peers

/-- The final loop of `random_fill`: the endpoints of `peers` overwrite the slots of the
target from the front; `none` when one of the two assertions in the loop fails (the
endpoint is not IPv6, or the target has no slot left). -/
def write_front : List peer_information → List endpoint → Option (List endpoint)
  | [], target => some target
  | _ :: _, [] => none
  | i :: peers, _ :: target =>
    if i.endpoint.address.is_v6 then
      match write_front peers target with
      | some written => some (i.endpoint :: written)
      | none => none
    else none

/-- The method `peer_container::random_fill`: the contents of the 8-slot array afterwards,
`none` when an assertion fails. -/
def peer_container.random_fill (p : peer_container) (GenerateWord32 : Nat → Nat → Nat) :
    Option (List endpoint) :=
  match random_fill_loop GenerateWord32 8 p.list.length 0 p.list with
  | none => none
  | some peers =>
    if peers.length ≤ 8 then write_front peers (List.replicate 8 unspecified_endpoint)
    else none

/-- One call on the peer table, with its arguments and the clock reading. -/
inductive peer_call where
  | insert (endpoint_a : endpoint) (hash_a : Nat) (now : Nat)
  | contacted (endpoint_a : endpoint) (now : Nat)
  | purge_list (cutoff : Nat) (now : Nat)
  | bootstrap_failed (endpoint_a : endpoint) (now : Nat)
deriving DecidableEq, Repr

/-- The table after one call; a call that throws leaves the table as it was. -/
def peer_container.after (p : peer_container) : peer_call → peer_container
  | .insert e h now =>
    match p.insert e h now with
    | some o => o.table
    | none => p
  | .contacted e now =>
    match p.contacted e now with
    | some o => o.table
    | none => p
  | .purge_list cutoff now => (p.purge_list cutoff now).table
  | .bootstrap_failed e now => p.bootstrap_failed e now

/-- The table after a sequence of calls. -/
def peer_container.after_all (p : peer_container) (calls : List peer_call) : peer_container :=
  calls.foldl peer_container.after p

/-- An endpoint the table may hold: IPv6, not unspecified, not reserved, not `self`. -/
def acceptable (self : endpoint) (e : endpoint) : Prop :=
  ∃ a, e.address = .v6 a ∧ a.is_unspecified = false ∧ reserved_address e = some false ∧ e ≠ self

/-- The endpoints stored in the table, in index 0 order. -/
def endpoints (p : peer_container) : List endpoint := p.peers.map (fun i => i.endpoint)

/-- The invariant of the peer table: every stored endpoint is acceptable and no endpoint
is stored twice. -/
def peer_invariant (p : peer_container) : Prop :=
  (∀ e ∈ endpoints p, acceptable p.self e) ∧ (endpoints p).Nodup

/-- The peer ::ffff:10.0.0.1 port 7075, last heard from at time 5. -/
def peer_early : peer_information :=
  { endpoint := { address := .v6 (address_v6.v4_mapped 0x0a000001), port := 7075 },
    last_contact := 5, last_attempt := 5, last_bootstrap_failure := 0, most_recent := 0 }

/-- The peer ::ffff:10.0.0.2 port 7075, last heard from at time 20. -/
def peer_late : peer_information :=
  { endpoint := { address := .v6 (address_v6.v4_mapped 0x0a000002), port := 7075 },
    last_contact := 20, last_attempt := 20, last_bootstrap_failure := 0, most_recent := 0 }

/-- The endpoint ::1 port 7075, the form `network::endpoint ()` gives the node itself. -/
def loopback_endpoint : endpoint :=
  { address := .v6 { bytes := 1, scope_id := 0 }, port := 7075 }

/-- A table of the node ::1 port 7075 holding `peer_early` and `peer_late`. -/
def two_peer_table : peer_container :=
  { self := loopback_endpoint, peers := [peer_early, peer_late] }

/-- The peer ::ffff:10.0.0.n port 7075, for the examples. -/
def sample_peer (n : Nat) : peer_information :=
  { endpoint := { address := .v6 (address_v6.v4_mapped (0x0a000000 + n)), port := 7075 },
    last_contact := 100 + n, last_attempt := 100 + n, last_bootstrap_failure := 0,
    most_recent := 0 }

/-- A table of the node ::1 port 7075 with the ten peers ::ffff:10.0.0.1 to ::ffff:10.0.0.10. -/
def ten_peer_table : peer_container :=
  { self := loopback_endpoint, peers := (List.range 10).map (fun n => sample_peer (n + 1)) }

/-! ## Blocks, votes and the collaborators outside node.cpp -/

/-- A block, as far as node.cpp looks at it: `hash ()`, `root ()`, `previous ()`,
`source ()` and the proof of work; `operator==` compares the whole content. -/
structure block where
  hash : Nat
  root : Nat
  previous : Nat
  source : Nat
  work : Nat
deriving DecidableEq, Repr

/-- A vote (`rai::vote`): signer account, signature, sequence number and block. -/
structure vote where
  account : Nat
  signature : Nat
  sequence : Nat
  block : block
deriving DecidableEq, Repr

/-- The state of a `rai::votes` object: the root it is about (`id`), the sequence number
and the recorded vote (sequence, block) of each account. -/
structure votes where
  id : Nat
  sequence : Nat
  rep_votes : List (Nat × Nat × block)
deriving DecidableEq, Repr

/-- The functions node.cpp calls that are defined outside it, over a ledger state of
type `Ledger`: the constructor `rai::votes::votes (block)`, `rai::votes::vote` (the flag
says whether the tally changed), and of the ledger `tally` (weight and block, heaviest
first), `winner`, `supply`, `rollback` and `process`. -/
structure collaborators (Ledger : Type) where
  votes_new : block → votes
  votes_vote : votes → vote → Bool × votes
  tally : Ledger → votes → List (Nat × block)
  winner : Ledger → votes → Nat × block
  supply : Ledger → Nat
  rollback : Ledger → Nat → Ledger
  process : Ledger → block → Ledger

/-! ## Gap cache -/

/-- The record `rai::gap_information`. -/
structure gap_information where
  arrival : Nat
  required : Nat
  hash : Nat
  votes : votes
  block : block
deriving DecidableEq, Repr

/-- Modelled from the spec: the multi-index declaration of `gap_cache::blocks` and the
constant `max` are in node.hpp. The container is indexed by `required` (non-unique,
index 0), by `arrival` (ordered, index 1) and by `hash` (unique, index 2); `max` is 256.
`blocks` lists the records in the order they were inserted. -/
structure gap_cache where
  blocks : List gap_information
  max : Nat
deriving DecidableEq, Repr

/-- The constructor `gap_cache (node_a)`: an empty cache with `max = 256`. -/
def gap_cache.new : gap_cache := { blocks := [], max := 256 }

/-- Index 0 of the cache. Its order is the library's choice, with records of equal
`required` next to each other; the order taken here is ascending in `required`. -/
def by_required (l : List gap_information) : List gap_information :=
  l.insertionSort (fun a b => a.required ≤ b.required)

/-- Index 1 of the cache: ascending order of `arrival`. -/
def by_arrival (l : List gap_information) : List gap_information :=
  l.insertionSort (fun a b => a.arrival ≤ b.arrival)

/-- The lookup `blocks.get <2> ().find (hash)`. -/
def gap_cache.find_hash (g : gap_cache) (hash : Nat) : Option gap_information :=
  g.blocks.find? (fun i => i.hash == hash)

/-- The call `modify (existing, f)` for the record found under `hash` in index 2. -/
def modify_hash (hash : Nat) (f : gap_information → gap_information) :
    List gap_information → List gap_information
  | [] => []
  | i :: rest =>
    if i.hash == hash then f i :: rest
    else i :: modify_hash hash f rest

/-- The statement `blocks.get <1> ().erase (blocks.get <1> ().begin ())`: the first
record of index 1 leaves the container. -/
def erase_oldest (l : List gap_information) : List gap_information :=
  match by_arrival l with
  | [] => l
  | oldest :: _ => l.erase oldest

/-- The method `gap_cache::add (block_a, needed_a)`. -/
def gap_cache.add {Ledger : Type} (x : collaborators Ledger) (g : gap_cache)
    (block_a : block) (needed_a : Nat) (now : Nat) : gap_cache :=
  let hash := block_a.hash
  match g.find_hash hash with
  | some _ =>
    { g with blocks := modify_hash hash (fun info => { info with arrival := now }) g.blocks }
  | none =>
    let inserted : gap_information :=
      { arrival := now, required := needed_a, hash := hash,
        votes := x.votes_new block_a, block := block_a }
    let blocks := g.blocks ++ [inserted]
    if blocks.length > g.max then { g with blocks := erase_oldest blocks }
    else { g with blocks := blocks }

/-- The method `gap_cache::get (hash_a)`: the returned blocks and the cache afterwards.
The loop starts at `blocks.find (hash_a)` in index 0 and runs while `required == hash_a`,
moving each block into the result; `blocks.erase (hash_a)` then removes every record
with that key (the records whose block was moved out among them). -/
def gap_cache.get (g : gap_cache) (hash_a : Nat) : List block × gap_cache :=
  let index0 := by_required g.blocks
  let found := index0.dropWhile (fun i => i.required != hash_a)
  let visited := found.takeWhile (fun i => i.required == hash_a)
  (visited.map (fun info => info.block),
   { g with blocks := g.blocks.filter (fun i => i.required != hash_a) })

/-- The method `gap_cache::bootstrap_threshold`, in unsigned 128-bit arithmetic. -/
def bootstrap_threshold {Ledger : Type} (x : collaborators Ledger) (ledger : Ledger)
    (bootstrap_fraction_numerator : Nat) : Nat :=
  ((x.supply ledger / 256) * bootstrap_fraction_numerator) % 2 ^ 128

/-- The method `gap_cache::vote`: the cache afterwards and, when the delayed bootstrap
check is scheduled with `alarm.add`, its wakeup time and the block hash it will look
for. Clock ticks are milliseconds; `test_network` says whether `rai_network` is the
test network. -/
def gap_cache.vote {Ledger : Type} (x : collaborators Ledger) (g : gap_cache)
    (ledger : Ledger) (bootstrap_fraction_numerator : Nat) (test_network : Bool)
    (vote_a : vote) (now : Nat) : gap_cache × Option (Nat × Nat) :=
  let hash := vote_a.block.hash
  match g.find_hash hash with
  | none => (g, none)
  | some existing =>
    let voted := x.votes_vote existing.votes vote_a
    let g1 : gap_cache :=
      { g with blocks := modify_hash hash (fun info => { info with votes := voted.2 }) g.blocks }
    if voted.1 then
      let winner := x.winner ledger voted.2
      if winner.1 > bootstrap_threshold x ledger bootstrap_fraction_numerator then
        (g1, some (if test_network then now + 10 else now + 5000, hash))
      else (g1, none)
    else (g1, none)

/-- One call on the gap cache, with its arguments and the clock reading. -/
inductive gap_call (Ledger : Type) where
  | add (block_a : block) (needed_a : Nat) (now : Nat)
  | get (hash_a : Nat)
  | vote (ledger : Ledger) (bootstrap_fraction_numerator : Nat) (test_network : Bool)
      (vote_a : vote) (now : Nat)

/-- The cache after one call. -/
def gap_cache.after {Ledger : Type} (x : collaborators Ledger) (g : gap_cache) :
    gap_call Ledger → gap_cache
  | .add block_a needed_a now => g.add x block_a needed_a now
  | .get hash_a => (g.get hash_a).2
  | .vote ledger numerator test_network vote_a now =>
    (g.vote x ledger numerator test_network vote_a now).1

/-- The cache after a sequence of calls. -/
def gap_cache.after_all {Ledger : Type} (x : collaborators Ledger) (g : gap_cache)
    (calls : List (gap_call Ledger)) : gap_cache :=
  calls.foldl (gap_cache.after x) g

/-- The invariant of the gap cache: at most `max` records, no block hash twice. -/
def gap_invariant (g : gap_cache) : Prop :=
  g.blocks.length ≤ g.max ∧ (g.blocks.map (fun i => i.hash)).Nodup

/-! ## Elections and the table of active transactions -/

/-- The state of a `rai::election`. The callback `confirmation_action` is named by a
number; `confirmed` is the atomic flag, cleared by the constructor. -/
structure election where
  confirmation_action : Nat
  votes : votes
  last_vote : Nat
  last_winner : block
  confirmed : Bool
deriving DecidableEq, Repr

/-- Work handed to `node.background`: a call of the confirmation action `action` with
the block `winner`, or `broadcast_winner` of the election stored under `root`. -/
inductive background where
  | confirmation (action : Nat) (winner : block)
  | broadcast_winner (root : Nat)
deriving DecidableEq, Repr

/-- The constructor `election (node_a, block_a, confirmation_action_a)`. -/
def election.new {Ledger : Type} (x : collaborators Ledger) (block_a : block)
    (confirmation_action_a : Nat) (now : Nat) : election :=
  { confirmation_action := confirmation_action_a, votes := x.votes_new block_a,
    last_vote := now, last_winner := block_a, confirmed := false }

/-- The method `election::quorum_threshold`. -/
def quorum_threshold {Ledger : Type} (x : collaborators Ledger) (ledger_a : Ledger) : Nat :=
  x.supply ledger_a / 2

/-- The method `election::confirm_once`: the flag is tested and set; when it was clear,
the confirmation action is posted with the current `last_winner`. -/
def election.confirm_once (e : election) : election × List background :=
  let confirmed_l := e.confirmed
  let e1 : election := { e with confirmed := true }
  if !confirmed_l then (e1, [background.confirmation e.confirmation_action e.last_winner])
  else (e1, [])

/-- The method `election::recalculate_winner`: the returned flag, the election and the
ledger afterwards; `none` when the assertion `tally_l.size () > 0` fails. -/
def election.recalculate_winner {Ledger : Type} (x : collaborators Ledger) (e : election)
    (ledger : Ledger) : Option (Bool × election × Ledger) :=
  let tally_l := x.tally ledger e.votes
  match tally_l with
  | [] => none
  | winner :: _ =>
    let quorum_threshold_l := quorum_threshold x ledger
    let replaced : election × Ledger :=
      if !(winner.2 == e.last_winner) && decide (winner.1 > quorum_threshold_l) then
        ({ e with last_winner := winner.2 },
         x.process (x.rollback ledger e.last_winner.hash) winner.2)
      else (e, ledger)
    let result :=
      if tally_l.length == 1 then
        if winner.1 > quorum_threshold x replaced.2 then true else false
      else false
    some (result, replaced.1, replaced.2)

/-- The method `election::confirm_if_quarum`. -/
def election.confirm_if_quarum {Ledger : Type} (x : collaborators Ledger) (e : election)
    (ledger : Ledger) : Option (election × Ledger × List background) :=
  match e.recalculate_winner x ledger with
  | none => none
  | some (quarum, e1, ledger1) =>
    if quarum then some ((e1.confirm_once).1, ledger1, (e1.confirm_once).2)
    else some (e1, ledger1, [])

/-- The method `election::confirm_cutoff`. -/
def election.confirm_cutoff (e : election) : election × List background :=
  e.confirm_once

/-- The method `election::vote`. -/
def election.vote {Ledger : Type} (x : collaborators Ledger) (e : election)
    (ledger : Ledger) (vote_a : vote) : Option (election × Ledger × List background) :=
  let tally_changed := x.votes_vote e.votes vote_a
  let e1 : election := { e with votes := tally_changed.2 }
  if tally_changed.1 then e1.confirm_if_quarum x ledger
  else some (e1, ledger, [])

/-- One call on an election. -/
inductive election_call where
  | vote (vote_a : vote)
  | confirm_if_quarum
  | confirm_cutoff
  | confirm_once
deriving DecidableEq, Repr

/-- The election, the ledger and the work posted by one call; `none` when the call
fails an assertion. -/
def election.call {Ledger : Type} (x : collaborators Ledger) (e : election)
    (ledger : Ledger) : election_call → Option (election × Ledger × List background)
  | .vote vote_a => e.vote x ledger vote_a
  | .confirm_if_quarum => e.confirm_if_quarum x ledger
  | .confirm_cutoff => some ((e.confirm_cutoff).1, ledger, (e.confirm_cutoff).2)
  | .confirm_once => some ((e.confirm_once).1, ledger, (e.confirm_once).2)

/-- The election, the ledger and all the work posted, in order, by a sequence of calls;
a call that fails an assertion leaves election and ledger as they were and posts nothing. -/
def election.run {Ledger : Type} (x : collaborators Ledger) (e : election)
    (ledger : Ledger) : List election_call → election × Ledger × List background
  | [] => (e, ledger, [])
  | c :: rest =>
    match e.call x ledger c with
    | none => election.run x e ledger rest
    | some (e1, ledger1, posted) =>
      let r := election.run x e1 ledger1 rest
      (r.1, r.2.1, posted ++ r.2.2)

/-- The record `rai::conflict_info`; the election it points to is held by value. -/
structure conflict_info where
  root : Nat
  election : election
  announcements : Nat
deriving DecidableEq, Repr

/-- Modelled from the spec: the multi-index declaration of `active_transactions::roots`
is in node.hpp. The container is indexed by `root` (unique, ordered); `roots` lists the
records in ascending order of `root`. -/
structure active_transactions where
  roots : List conflict_info
deriving DecidableEq, Repr

/-- Modelled from the spec: the constant `announcements_per_interval` of node.hpp, 16. -/
def announcements_per_interval : Nat := 16

/-- Modelled from the spec: the constant `contigious_announcements` of node.hpp, 8. -/
def contigious_announcements : Nat := 8

/-- The constructor `active_transactions (node_a)`: an empty table. -/
def active_transactions.new : active_transactions := { roots := [] }

/-- The lookup `roots.find (root)`. -/
def active_transactions.find (a : active_transactions) (root : Nat) : Option conflict_info :=
  a.roots.find? (fun i => i.root == root)

/-- The method `active_transactions::start`. -/
def active_transactions.start {Ledger : Type} (x : collaborators Ledger)
    (a : active_transactions) (block_a : block) (confirmation_action_a : Nat) (now : Nat) :
    active_transactions :=
  let root := block_a.root
  match a.find root with
  | some _ => a
  | none =>
    let election := election.new x block_a confirmation_action_a now
    { roots := a.roots.orderedInsert (fun i j => i.root ≤ j.root)
        { root := root, election := election, announcements := 0 } }

/-- The two loops of `announce_votes` over `roots`, from the record the iterator is at.
`announcements` is the local counter of the method: the first loop runs while it is
below `announcements_per_interval`, and no statement of the loop changes it. The result
is the records afterwards, the roots pushed to `inactive` and the work posted. -/
def announce_walk (announcements : Nat) :
    List conflict_info → List conflict_info × List Nat × List background
  | [] => ([], [], [])
  | i :: rest =>
    if announcements < announcements_per_interval then
      if i.announcements ≥ contigious_announcements - 1 then
        let cut := i.election.confirm_cutoff
        let root_l := cut.1.votes.id
        let r := announce_walk announcements rest
        ({ i with election := cut.1 } :: r.1, root_l :: r.2.1,
         background.broadcast_winner i.root :: cut.2 ++ r.2.2)
      else
        let r := announce_walk announcements rest
        ({ i with announcements := i.announcements + 1 } :: r.1, r.2.1,
         background.broadcast_winner i.root :: r.2.2)
    else
      ((i :: rest).map (fun info_a => { info_a with announcements := 0 }), [], [])

/-- The last loop of `announce_votes`: every root in `inactive` is erased; `none` when
the assertion `roots.find (*i) != roots.end ()` fails. -/
def erase_inactive : List Nat → List conflict_info → Option (List conflict_info)
  | [], roots => some roots
  | r :: rest, roots =>
    if roots.any (fun i => i.root == r) then
      erase_inactive rest (roots.filter (fun i => i.root != r))
    else none

/-- What one call of `announce_votes` yields: the table afterwards, the work posted and
the wakeup time of the next call handed to `alarm.add`. -/
structure announce_outcome where
  table : active_transactions
  posted : List background
  wakeup : Nat
deriving DecidableEq, Repr

/-- The method `active_transactions::announce_votes`. Clock ticks are milliseconds. -/
def active_transactions.announce_votes (a : active_transactions) (test_network : Bool)
    (now : Nat) : Option announce_outcome :=
  let walked := announce_walk 0 a.roots
  match erase_inactive walked.2.1 walked.1 with
  | none => none
  | some roots =>
    some { table := { roots := roots }, posted := walked.2.2,
           wakeup := if test_network then now + 10 else now + 16000 }

/-- One call on the table of active transactions. -/
inductive active_call where
  | start (block_a : block) (confirmation_action_a : Nat) (now : Nat)
  | announce_votes (test_network : Bool) (now : Nat)
deriving DecidableEq, Repr

/-- The table after one call; a call that fails an assertion leaves it as it was. -/
def active_transactions.after {Ledger : Type} (x : collaborators Ledger)
    (a : active_transactions) : active_call → active_transactions
  | .start block_a confirmation_action_a now => a.start x block_a confirmation_action_a now
  | .announce_votes test_network now =>
    match a.announce_votes test_network now with
    | some o => o.table
    | none => a

/-- The table after a sequence of calls. -/
def active_transactions.after_all {Ledger : Type} (x : collaborators Ledger)
    (a : active_transactions) (calls : List active_call) : active_transactions :=
  calls.foldl (active_transactions.after x) a

/-- What one call on an election may do to the flag and post: the confirmation action
stays the same; a set flag stays set and nothing is posted; a clear flag either stays
clear with nothing posted, or is set with exactly one confirmation posted, carrying the
`last_winner` the election has after the call. -/
def call_effect (e e1 : election) (posted : List background) : Prop :=
  e1.confirmation_action = e.confirmation_action ∧
  (e.confirmed = true → e1.confirmed = true ∧ posted = []) ∧
  (e.confirmed = false →
    (e1.confirmed = false ∧ posted = []) ∨
    (e1.confirmed = true ∧
      posted = [background.confirmation e.confirmation_action e1.last_winner]))


/-- A toy instance of the collaborators, for the examples: the ledger is a counter of
processed blocks, the supply is 100, every vote changes the tally and gives the block
voted for last the weight 60. -/
def toy_collaborators : collaborators Nat :=
  { votes_new := fun b => { id := b.root, sequence := 1, rep_votes := [(0, 0, b)] },
    votes_vote := fun v vote_a =>
      (true, { v with rep_votes := (vote_a.account, vote_a.sequence, vote_a.block) :: v.rep_votes }),
    tally := fun _ v => v.rep_votes.take 1 |>.map (fun r => (60, r.2.2)),
    winner := fun _ v => ((v.rep_votes.take 1 |>.map (fun r => (60, r.2.2))).headD (0, ⟨0, 0, 0, 0, 0⟩)),
    supply := fun _ => 100,
    rollback := fun l _ => l,
    process := fun l _ => l + 1 }

/-- A send block with hash 11 on root 1. -/
def block_f1 : block := { hash := 11, root := 1, previous := 1, source := 0, work := 0 }

/-- A conflicting send block with hash 12 on the same root 1. -/
def block_f2 : block := { hash := 12, root := 1, previous := 1, source := 0, work := 0 }

/-- A block with hash `h` whose predecessor is `needed`, for the examples. -/
def sample_block (h needed : Nat) : block :=
  { hash := h, root := needed, previous := needed, source := 0, work := 0 }

/-- An election on `block_f1` whose votes hold one vote, by account 5 for `block_f2`. -/
def election_f1_voted_f2 : election :=
  { confirmation_action := 7,
    votes := { id := 1, sequence := 1, rep_votes := [(5, 1, block_f2)] },
    last_vote := 0, last_winner := block_f1, confirmed := false }

/-- Whether the first loop of `announce_votes` takes the cutoff branch for a record:
`announcements >= contigious_announcements - 1`. -/
def announce_due (i : conflict_info) : Bool :=
  decide (i.announcements ≥ contigious_announcements - 1)

/-- The record after the body of the first loop of `announce_votes` ran for it. -/
def announce_update (i : conflict_info) : conflict_info :=
  if announce_due i then { i with election := (i.election.confirm_cutoff).1 }
  else { i with announcements := i.announcements + 1 }

/-- The work the body of the first loop of `announce_votes` posts for one record. -/
def announce_posted (i : conflict_info) : List background :=
  background.broadcast_winner i.root ::
    (if announce_due i then (i.election.confirm_cutoff).2 else [])

/-- A table of seventeen conflicts on the roots 1 to 17, each with 3 announcements. -/
def seventeen_conflicts : active_transactions :=
  { roots := (List.range 17).map (fun n =>
      { root := n + 1,
        election := election.new toy_collaborators (sample_block (100 + n) (n + 1)) 7 0,
        announcements := 3 }) }

/-- The invariant of the table of active transactions: every election's votes are about
the root the record is stored under (`votes.id` is what `announce_votes` erases by), and
no root occurs twice. -/
def active_invariant (a : active_transactions) : Prop :=
  (∀ j ∈ a.roots, j.election.votes.id = j.root) ∧ (a.roots.map (fun i => i.root)).Nodup

/-- The call `modify (existing, f)` for the record found under `root` in `roots`; here it
stands for a change made through the shared pointer to the election. -/
def modify_root (root : Nat) (f : conflict_info → conflict_info) :
    List conflict_info → List conflict_info
  | [] => []
  | i :: rest =>
    if i.root == root then f i :: rest
    else i :: modify_root root f rest

/-- The method `active_transactions::vote`: the vote goes to the election stored under
the root of the vote's block, if there is one; `none` when `election::vote` fails its
assertion. -/
def active_transactions.vote {Ledger : Type} (x : collaborators Ledger)
    (a : active_transactions) (ledger : Ledger) (vote_a : vote) :
    Option (active_transactions × Ledger × List background) :=
  let root := vote_a.block.root
  match a.find root with
  | none => some (a, ledger, [])
  | some existing =>
    match existing.election.vote x ledger vote_a with
    | none => none
    | some (e1, ledger1, posted) =>
      some ({ roots := modify_root root (fun i => { i with election := e1 }) a.roots },
            ledger1, posted)

/-- One event of the announcement rounds: the periodic `announce_votes`, or a vote that
arrives in between. -/
inductive round_call where
  | announce_votes (test_network : Bool) (now : Nat)
  | vote (vote_a : vote)
deriving DecidableEq, Repr

/-- Whether the event is a call of `announce_votes`. -/
def round_call.is_announce : round_call → Bool
  | .announce_votes _ _ => true
  | .vote _ => false

/-- The number of `announce_votes` calls among the events. -/
def announce_count (calls : List round_call) : Nat :=
  (calls.filter round_call.is_announce).length

/-- The table, the ledger and the work posted by one event; an event that fails an
assertion leaves table and ledger as they were and posts nothing. -/
def active_transactions.round {Ledger : Type} (x : collaborators Ledger)
    (a : active_transactions) (ledger : Ledger) :
    round_call → active_transactions × Ledger × List background
  | .announce_votes test_network now =>
    match a.announce_votes test_network now with
    | some o => (o.table, ledger, o.posted)
    | none => (a, ledger, [])
  | .vote vote_a =>
    match a.vote x ledger vote_a with
    | some r => r
    | none => (a, ledger, [])

/-- The table, the ledger and all the work posted, in order, by a sequence of events. -/
def active_transactions.rounds {Ledger : Type} (x : collaborators Ledger)
    (a : active_transactions) (ledger : Ledger) :
    List round_call → active_transactions × Ledger × List background
  | [] => (a, ledger, [])
  | c :: rest =>
    let s := a.round x ledger c
    let r := active_transactions.rounds x s.1 s.2.1 rest
    (r.1, r.2.1, s.2.2 ++ r.2.2)

/-- Whether a piece of posted work is a call of a confirmation action. -/
def is_confirmation : background → Bool
  | .confirmation _ _ => true
  | .broadcast_winner _ => false

/-- The work one event posts for the election stored under root `r`: in a round of
`announce_votes` what the body of the first loop posts for the record with that root,
and for a vote, which is handed to the election stored under the root of its block,
what `election::vote` posts when that root is `r`. -/
def active_transactions.round_posted {Ledger : Type} (x : collaborators Ledger)
    (a : active_transactions) (ledger : Ledger) (r : Nat) : round_call → List background
  | .announce_votes test_network now =>
    match a.announce_votes test_network now with
    | some _ => (a.roots.filter (fun i => i.root == r)).flatMap announce_posted
    | none => []
  | .vote vote_a =>
    if vote_a.block.root == r then (a.round x ledger (.vote vote_a)).2.2 else []

/-- All the work a sequence of events posts, in order, for the election stored under
root `r`. -/
def active_transactions.rounds_posted {Ledger : Type} (x : collaborators Ledger)
    (a : active_transactions) (ledger : Ledger) (r : Nat) :
    List round_call → List background
  | [] => []
  | c :: rest =>
    a.round_posted x ledger r c ++
      active_transactions.rounds_posted x (a.round x ledger c).1 (a.round x ledger c).2.1 r rest

/-- The election under root `r` with confirmation action `action` is in the table, not
confirmed, with `m` announcements. -/
def tracked (a : active_transactions) (r action m : Nat) : Prop :=
  active_invariant a ∧
  ∃ j ∈ a.roots, j.root = r ∧ j.announcements = m ∧ j.election.confirmed = false ∧
    j.election.confirmation_action = action

/-- No election of the table is stored under root `r`. -/
def gone (a : active_transactions) (r : Nat) : Prop :=
  active_invariant a ∧ ∀ j ∈ a.roots, j.root ≠ r

/-- No vote among the events confirms the election under root `r`: right after every
vote event, the election stored under `r`, if any, is not confirmed. -/
def no_confirming_vote {Ledger : Type} (x : collaborators Ledger) (a : active_transactions)
    (ledger : Ledger) (r : Nat) (calls : List round_call) : Prop :=
  ∀ pre vote_a post, calls = pre ++ round_call.vote vote_a :: post →
    ∀ j ∈ (a.rounds x ledger (pre ++ [round_call.vote vote_a])).1.roots, j.root = r →
      j.election.confirmed = false

/-- A table holding one conflict, started on `block_f1` with confirmation action 7. -/
def table_f1 : active_transactions :=
  active_transactions.new.start toy_collaborators block_f1 7 0

/-- Eight calls of `announce_votes`, 16 seconds apart. -/
def eight_rounds : List round_call :=
  (List.range 8).map (fun n => round_call.announce_votes false (16000 * n))

/-! ## Votes and tally, from the specification -/

/-- What the ledger is asked to do during an election, in order. -/
inductive ledger_event where
  | rollback (hash : Nat)
  | process (block_a : block)
deriving DecidableEq, Repr

/-- Modelled from the spec: the constructor `rai::votes::votes (block)`, defined outside
node.cpp. "A new Votes object is constructed for the block, seeded by observation": the
votes are about the root of the block and hold one entry for the block itself, recorded
under the account `observer` with sequence 0. -/
def spec_votes_new (observer : Nat) (block_a : block) : votes :=
  { id := block_a.root, sequence := 0, rep_votes := [(observer, 0, block_a)] }

/-- Modelled from the spec: the method `rai::votes::vote`, defined outside node.cpp.
"Mapping account → (sequence, block). A new vote overrides an existing entry for the
same account only if its sequence is strictly greater. Changed/unchanged status is the
signal returned to callers." -/
def spec_votes_vote (v : votes) (vote_a : vote) : Bool × votes :=
  match v.rep_votes.find? (fun r => r.1 == vote_a.account) with
  | none =>
    (true, { v with rep_votes := v.rep_votes ++ [(vote_a.account, vote_a.sequence, vote_a.block)] })
  | some existing =>
    if existing.2.1 < vote_a.sequence then
      (true, { v with rep_votes := v.rep_votes.map (fun r =>
        if r.1 == vote_a.account then (vote_a.account, vote_a.sequence, vote_a.block) else r) })
    else (false, v)

/-- The weight behind a block in the votes: the sum of the weights of the accounts whose
entry is for that block. -/
def block_weight (weight : Nat → Nat) (v : votes) (b : block) : Nat :=
  ((v.rep_votes.filter (fun r => r.2.2 == b)).map (fun r => weight r.1)).sum

/-- Modelled from the spec: the ledger's `tally`, defined outside node.cpp. The engine
"tallies weighted votes": every block that has an entry in the votes is listed with the
total weight of the accounts voting for it, heaviest first. -/
def spec_tally (weight : Nat → Nat) (v : votes) : List (Nat × block) :=
  ((v.rep_votes.map (fun r => r.2.2)).dedup.map (fun b => (block_weight weight v b, b))).insertionSort
    (fun p q => p.1 ≥ q.1)

/-- Modelled from the spec: the collaborators of node.cpp as the specification words
them, for representatives with the weights `weight` and a ledger with supply `supply`,
both unchanged while the election runs. The ledger state is the list of what it was
asked to do; `winner` is the first entry of `tally`. -/
def spec_collaborators (weight : Nat → Nat) (supply : Nat) (observer : Nat) :
    collaborators (List ledger_event) :=
  { votes_new := spec_votes_new observer,
    votes_vote := spec_votes_vote,
    tally := fun _ v => spec_tally weight v,
    winner := fun _ v => (spec_tally weight v).headD (0, ⟨0, 0, 0, 0, 0⟩),
    supply := fun _ => supply,
    rollback := fun l h => l ++ [ledger_event.rollback h],
    process := fun l b => l ++ [ledger_event.process b] }

/-- Three representatives, the accounts 1, 2 and 3, with weight 20 each. -/
def three_reps_weight (account : Nat) : Nat :=
  if account = 1 ∨ account = 2 ∨ account = 3 then 20 else 0

/-- The votes of the accounts 1, 2, 3 for `block_f2`, with sequence 1. -/
def three_votes_f2 : List vote :=
  [1, 2, 3].map (fun a => { account := a, signature := 0, sequence := 1, block := block_f2 })
/-- A check that implies `no_confirming_vote`: after every vote event the election under
root `r`, if there is one, is not confirmed. -/
def quiet_check {Ledger : Type} (x : collaborators Ledger) (r : Nat) :
    active_transactions → Ledger → List round_call → Bool
  | _, _, [] => true
  | a, ledger, c :: rest =>
    (c.is_announce ||
      (a.round x ledger c).1.roots.all (fun j => !(j.root == r) || !j.election.confirmed)) &&
    quiet_check x r (a.round x ledger c).1 (a.round x ledger c).2.1 rest

/-- The table holding two conflicts, started on `block_f1` (root 1) and on a block of
root 2, both with the confirmation action 7, with the votes and the tally as the
specification words them. -/
def spec_table_two : active_transactions :=
  (active_transactions.new.start (spec_collaborators three_reps_weight 100 0) block_f1 7 0).start
    (spec_collaborators three_reps_weight 100 0) (sample_block 21 2) 7 0

/-- Three rounds of `announce_votes`, then the votes of the three representatives for
`block_f2`, then five more rounds. -/
def rounds_with_votes : List round_call :=
  (List.range 3).map (fun n => round_call.announce_votes false (16000 * n)) ++
  three_votes_f2.map round_call.vote ++
  (List.range 5).map (fun n => round_call.announce_votes false (16000 * (n + 3)))

/-! ## Alarm -/

/-- The record `rai::operation`: the wakeup time and the task, which is named by a number;
`none` is the null task. -/
structure operation where
  wakeup : Nat
  function : Option Nat
deriving DecidableEq, Repr

/-- The comparison `rai::operation::operator >`. -/
def operation.gt (a other_a : operation) : Bool := decide (a.wakeup > other_a.wakeup)

/-- Modelled from the spec: the declaration of `alarm::operations` is in node.hpp; it is a
"min-heap of (wakeup_time, task)", a priority queue ordered by `operator >`. The list
holds the queued operations in the order they were added; `done` says that the worker
has left its loop. -/
structure alarm where
  operations : List operation
  done : Bool
deriving DecidableEq, Repr

/-- The call `operations.top ()`: a queued operation that is `>` than no other one (the
one added first among those). -/
def alarm_top : List operation → Option operation
  | [] => none
  | o :: rest =>
    match alarm_top rest with
    | none => some o
    | some t => if o.gt t then some t else some o

/-- The method `alarm::add`. -/
def alarm.add (a : alarm) (wakeup_a : Nat) (operation : Option Nat) : alarm :=
  { a with operations := a.operations ++ [{ wakeup := wakeup_a, function := operation }] }

/-- A task handed to `service.post`: the clock reading of that loop round, the operation,
and the operations queued at that moment (the posted one among them). -/
structure posting where
  now : Nat
  queued : List operation
  operation : operation
deriving DecidableEq, Repr

/-- One round of the loop of `alarm::run`, with the clock reading `now`: if the queue is
not empty and the top operation has a task, the task is posted and popped when
`wakeup <= now`, and the worker waits otherwise; a null task ends the loop; on an empty
queue the worker waits. -/
def alarm.run_round (a : alarm) (now : Nat) : alarm × List posting :=
  if a.done then (a, [])
  else
    match alarm_top a.operations with
    | none => (a, [])
    | some operation =>
      match operation.function with
      | some _ =>
        if operation.wakeup ≤ now then
          ({ a with operations := a.operations.erase operation },
           [{ now := now, operation := operation, queued := a.operations }])
        else (a, [])
      | none => ({ a with done := true }, [])

/-- What happens to the alarm: a call of `add` from any thread, or one round of the
worker's loop (the mutex makes each of them one step). -/
inductive alarm_event where
  | add (wakeup_a : Nat) (operation : Option Nat)
  | run (now : Nat)
deriving DecidableEq, Repr

/-- The alarm after one event, and what the worker posted in it. -/
def alarm.event (a : alarm) : alarm_event → alarm × List posting
  | .add wakeup_a operation => (a.add wakeup_a operation, [])
  | .run now => a.run_round now

/-- The alarm after a sequence of events, and what the worker posted, in order. -/
def alarm.events (a : alarm) : List alarm_event → alarm × List posting
  | [] => (a, [])
  | e :: rest =>
    ((alarm.events (a.event e).1 rest).1, (a.event e).2 ++ (alarm.events (a.event e).1 rest).2)

/-- The alarm right after its constructor: nothing queued, the worker running. -/
def alarm.new : alarm := { operations := [], done := false }

/-- The events "all of `tasks` are added, then the worker runs a round at each of the
clock readings `nows`". -/
def batch_events (tasks : List operation) (nows : List Nat) : List alarm_event :=
  tasks.map (fun t => alarm_event.add t.wakeup t.function) ++ nows.map alarm_event.run

/-! ## Network: receiving -/

/-- The state of `rai::network` that `receive_action` reads and writes: the port the
socket is bound to, the flag `on` (here `is_on`) and the counters. -/
structure network where
  local_port : Nat
  is_on : Bool
  bad_sender_count : Nat
  keepalive_count : Nat
  publish_count : Nat
  confirm_req_count : Nat
  confirm_ack_count : Nat
  insufficient_work_count : Nat
  error_count : Nat
deriving DecidableEq, Repr

/-- The method `network::endpoint`: the IPv6 loopback address with the local port. -/
def network.endpoint (n : network) : endpoint :=
  { address := .v6 { bytes := 1, scope_id := 0 }, port := n.local_port }

/-- The node as far as receiving a datagram can change it: the network state, the peer
table, and everything else the message visitor reaches (`rest`). -/
structure node_view (Rest : Type) where
  network : network
  peers : peer_container
  rest : Rest

/-- What `receive_action` does last: it calls `receive ()` again, or it asks the alarm to
call `receive ()` at the given time. -/
inductive receive_next where
  | receive
  | retry (wakeup : Nat)
deriving DecidableEq, Repr

/-- What one call of `receive_action` yields: the node afterwards, whether the parser was
run on the buffer (it dispatches to the message visitor), and what was done last. -/
structure receive_outcome (Rest : Type) where
  node : node_view Rest
  parsed : Bool
  next : receive_next

/-- The method `network::receive_action` for the datagram in `buffer` from `remote`.
`deserialize_buffer` stands for `message_parser::deserialize_buffer` with the message
visitor, defined outside node.cpp: it yields the node after the dispatch and the flags
`error` and `insufficient_work` of the parser. Clock ticks are milliseconds. The result
is `none` when `reserved_address` fails its assertion. -/
def receive_action {Rest : Type}
    (deserialize_buffer : node_view Rest → endpoint → List Nat → node_view Rest × Bool × Bool)
    (n : node_view Rest) (remote : endpoint) (buffer : List Nat) (error : Bool) (now : Nat) :
    Option (receive_outcome Rest) :=
  if !error && n.network.is_on then
    match reserved_address remote with
    | none => none
    | some reserved =>
      if !reserved && remote != n.network.endpoint then
        let parser := deserialize_buffer n remote buffer
        let n1 := parser.1
        let counted : network :=
          if parser.2.1 then { n1.network with error_count := n1.network.error_count + 1 }
          else if parser.2.2 then
            { n1.network with insufficient_work_count := n1.network.insufficient_work_count + 1 }
          else n1.network
        some { node := { n1 with network := counted }, parsed := true, next := .receive }
      else
        let counted : network :=
          { n.network with bad_sender_count := n.network.bad_sender_count + 1 }
        some { node := { n with network := counted }, parsed := false, next := .receive }
  else some { node := n, parsed := false, next := .retry (now + 5000) }

/-- The endpoint ::ffff:192.0.2.5 port 12345. -/
def test_net_sender : endpoint :=
  { address := .v6 (address_v6.v4_mapped 0xc0000205), port := 12345 }

/-- A node listening on port 7075 with all counters at 0 and the two-peer table. -/
def sample_node : node_view Unit :=
  { network := { local_port := 7075, is_on := true, bad_sender_count := 0, keepalive_count := 0,
                 publish_count := 0, confirm_req_count := 0, confirm_ack_count := 0,
                 insufficient_work_count := 0, error_count := 0 },
    peers := two_peer_table, rest := () }

/-! ## Block processor -/

/-- The codes of `rai::process_result` that `process_receive_one` distinguishes. -/
inductive process_result where
  | progress
  | bad_signature
  | old
  | overspend
  | fork
  | unreceivable
  | gap_previous
  | gap_source
  | not_receive_from_send
  | account_mismatch
deriving DecidableEq, Repr

/-- The value `rai::process_return` of `ledger.process`: the code, the account and the
amount. -/
structure process_return where
  code : process_result
  account : Nat
  amount : Nat
deriving DecidableEq, Repr

/-- The functions the block processor calls that are defined outside node.cpp, on top of
those of `collaborators`: what `ledger.process` returns (`process` is what it does to the
ledger), `ledger.successor` (on a fork the ledger holds a successor of the root),
`store.block_get`, `store.block_put`, `work.work_value`, and the number that names the
callback `process_confirmed` handed to `active.start`. -/
structure node_collaborators (Ledger : Type) extends collaborators Ledger where
  process_return : Ledger → block → process_return
  successor : Ledger → Nat → block
  block_get : Ledger → Nat → Option block
  block_put : Ledger → Nat → block → Ledger
  work_value : Nat → Nat → Nat
  process_confirmed : Nat

/-- The node as far as the block processor changes it: the ledger (with the store), the
gap cache and the table of active transactions. -/
structure processor (Ledger : Type) where
  ledger : Ledger
  gap_cache : gap_cache
  active : active_transactions

/-- The method `node::process_receive_one`: what `ledger.process` returned, and the node
afterwards. -/
def process_receive_one {Ledger : Type} (y : node_collaborators Ledger)
    (s : processor Ledger) (block_a : block) (now : Nat) :
    process_return × processor Ledger :=
  let result := y.process_return s.ledger block_a
  let s1 : processor Ledger := { s with ledger := y.process s.ledger block_a }
  match result.code with
  | .progress => (result, s1)
  | .gap_previous =>
    let previous := block_a.previous
    (result, { s1 with gap_cache := s1.gap_cache.add y.tocollaborators block_a previous now })
  | .gap_source =>
    let source := block_a.source
    (result, { s1 with gap_cache := s1.gap_cache.add y.tocollaborators block_a source now })
  | .old =>
    let root := block_a.root
    let hash := block_a.hash
    match y.block_get s1.ledger hash with
    | some existing =>
      if y.work_value root block_a.work > y.work_value root existing.work then
        (result, { s1 with ledger := y.block_put s1.ledger hash block_a })
      else (result, s1)
    | none => (result, s1)
  | .bad_signature => (result, s1)
  | .overspend => (result, s1)
  | .unreceivable => (result, s1)
  | .not_receive_from_send => (result, s1)
  | .fork =>
    let root := y.successor s1.ledger block_a.root
    let started := s1.active.start y.tocollaborators root y.process_confirmed now
    (result, { s1 with active := started })
  | .account_mismatch => (result, s1)

/-- The loop of `node::process_receive_many`, for at most `fuel` rounds, on the work stack
`blocks` (the back of the vector is the end of the list): the calls of `completed_a` in
order, the blocks left on the stack, and the node afterwards. A round takes the block at
the back, processes it, hands the result to `completed_a`, and appends the blocks
`gap_cache.get (hash)` returns. The loop has ended when the stack left is empty. -/
def process_receive_many_rounds {Ledger : Type} (y : node_collaborators Ledger) (now : Nat) :
    Nat → List block → processor Ledger →
      List (process_return × block) × List block × processor Ledger
  | 0, blocks, s => ([], blocks, s)
  | fuel + 1, blocks, s =>
    match blocks.getLast? with
    | none => ([], [], s)
    | some block =>
      let process_result := process_receive_one y s block now
      let cached := process_result.2.gap_cache.get block.hash
      let s2 : processor Ledger := { process_result.2 with gap_cache := cached.2 }
      let r := process_receive_many_rounds y now fuel (blocks.dropLast ++ cached.1) s2
      ((process_result.1, block) :: r.1, r.2.1, r.2.2)

/-- The method `node::process_receive_many` for `block_a`, run for at most `fuel` rounds. -/
def process_receive_many {Ledger : Type} (y : node_collaborators Ledger) (now : Nat)
    (fuel : Nat) (s : processor Ledger) (block_a : block) :
    List (process_return × block) × List block × processor Ledger :=
  process_receive_many_rounds y now fuel [block_a] s

/-- The callback `process_receive_republish` hands to `process_receive_many`: the blocks
it passes to `network.republish_block` for one processed block, the block itself on
`progress` and nothing otherwise. -/
def republished (result_a : process_return) (block_a : block) : List block :=
  match result_a.code with
  | .progress => [block_a]
  | _ => []

/-- The method `node::process` (used for blocks the node creates itself): `ledger.process`
alone, without touching the gap cache. -/
def node_process {Ledger : Type} (y : node_collaborators Ledger) (s : processor Ledger)
    (block_a : block) : process_return × processor Ledger :=
  (y.process_return s.ledger block_a, { s with ledger := y.process s.ledger block_a })

/-- A toy ledger for the examples: the list of the hashes of the blocks it holds. A block
is `old` if its hash is held, has a gap if its source (when not 0) or its previous is not
held, and is accepted otherwise. -/
def toy_process_code (l : List Nat) (b : block) : process_result :=
  if b.hash ∈ l then .old
  else if b.source ≠ 0 ∧ b.source ∉ l then .gap_source
  else if b.previous ∉ l then .gap_previous
  else .progress

/-- The collaborators of the block processor over the toy ledger. -/
def toy_node_collaborators : node_collaborators (List Nat) :=
  { votes_new := fun b => { id := b.root, sequence := 1, rep_votes := [(0, 0, b)] },
    votes_vote := fun v _ => (false, v),
    tally := fun _ _ => [],
    winner := fun _ _ => (0, ⟨0, 0, 0, 0, 0⟩),
    supply := fun _ => 100,
    rollback := fun l h => l.erase h,
    process := fun l b => if toy_process_code l b = .progress then l ++ [b.hash] else l,
    process_return := fun l b => { code := toy_process_code l b, account := 0, amount := 0 },
    successor := fun _ r => ⟨r, r, r, 0, 0⟩,
    block_get := fun _ _ => none,
    block_put := fun l _ _ => l,
    work_value := fun _ w => w,
    process_confirmed := 0 }

/-- The toy node with only the block of hash 1 in the ledger and nothing cached. -/
def toy_processor : processor (List Nat) :=
  { ledger := [1], gap_cache := gap_cache.new, active := active_transactions.new }

/-- The blocks `gap_cache.get (hash)` hands back in the round of the loop of
`process_receive_many` that processes `b` in the node `s`. -/
def round_released {Ledger : Type} (y : node_collaborators Ledger) (now : Nat)
    (s : processor Ledger) (b : block) : List block :=
  ((process_receive_one y s b now).2.gap_cache.get b.hash).1

/-- The node at the end of the round of the loop of `process_receive_many` that processes
`b` in the node `s`. -/
def round_node {Ledger : Type} (y : node_collaborators Ledger) (now : Nat)
    (s : processor Ledger) (b : block) : processor Ledger :=
  { (process_receive_one y s b now).2 with
    gap_cache := ((process_receive_one y s b now).2.gap_cache.get b.hash).2 }

/-- The block of hash `hash` on top of `previous` in the toy ledger (a send: no source). -/
def toy_block (hash previous : Nat) : block :=
  { hash := hash, root := previous, previous := previous, source := 0, work := 0 }

/-- The toy node after the blocks 4 (on top of 3), 3 (on top of 2) and 5 (on top of 2)
arrived, in this order, while the ledger holds only block 1: all three are parked. -/
def toy_parked : processor (List Nat) :=
  (process_receive_one toy_node_collaborators
    (process_receive_one toy_node_collaborators
      (process_receive_one toy_node_collaborators toy_processor (toy_block 4 3) 1).2
      (toy_block 3 2) 2).2
    (toy_block 5 2) 3).2

/-- The key under which `process_receive_one` parks `b` in the gap cache, by the code
`ledger.process` returned: `previous` on `gap_previous`, `source` on `gap_source`, and no
parking otherwise. -/
def gap_key (result : process_return) (b : block) : Option Nat :=
  match result.code with
  | .gap_previous => some b.previous
  | .gap_source => some b.source
  | _ => none

/-- The toy node after the blocks 3 and 5, both on top of block 2, arrived in this order
while the ledger holds only block 1. -/
def toy_two_waiting : processor (List Nat) :=
  (process_receive_one toy_node_collaborators
    (process_receive_one toy_node_collaborators toy_processor (toy_block 3 2) 1).2
    (toy_block 5 2) 2).2

/-! ## Republication -/

/-- The method `peer_container::knows_about`. -/
def peer_container.knows_about (p : peer_container) (endpoint_a : endpoint) (hash_a : Nat) :
    Bool :=
  match p.find endpoint_a with
  | some existing => existing.most_recent == hash_a
  | none => false

/-- The message serialized into the bytes handed to `send_buffer`: a `confirm_ack` built
from a representative's keys, a sequence number and the block, or a `publish` of the
block. -/
inductive packet where
  | confirm_ack (pub prv sequence : Nat) (block : block)
  | publish (block : block)
deriving DecidableEq, Repr

/-- One call of `send_buffer` made by the republication code: the message, the endpoint it
goes to and the rebroadcast count. -/
structure send_call where
  data : packet
  endpoint : endpoint
  rebroadcast : Nat
deriving DecidableEq, Repr

/-- The method `network::confirm_block`: the call of `send_buffer` it makes. The count it
hands to `send_buffer` is 0, whatever `rebroadcast_a` is. -/
def confirm_block (prv pub : Nat) (block_a : block) (sequence_a : Nat) (endpoint_a : endpoint)
    (_rebroadcast_a : Nat) : send_call :=
  { data := .confirm_ack pub prv sequence_a block_a, endpoint := endpoint_a, rebroadcast := 0 }

/-- The method `network::confirm_broadcast`: the flag it returns and the calls of
`send_buffer` it makes, in order. `representatives` lists the key pairs `(pub, prv)` that
`wallets.foreach_representative` (outside node.cpp) hands to the callback, in order. -/
def confirm_broadcast (p : peer_container) (representatives : List (Nat × Nat))
    (list_a : List peer_information) (block_a : block) (sequence_a rebroadcast_a : Nat) :
    Bool × List send_call :=
  representatives.foldl
    (fun state key =>
      let hash := block_a.hash
      list_a.foldl
        (fun state j =>
          if !p.knows_about j.endpoint hash then
            (true, state.2 ++
              [confirm_block key.2 key.1 block_a sequence_a j.endpoint rebroadcast_a])
          else state)
        state)
    (false, [])

/-- The method `network::republish_block`: the calls of `send_buffer` it makes, in order. -/
def republish_block (p : peer_container) (representatives : List (Nat × Nat)) (block : block)
    (rebroadcast_a : Nat) : List send_call :=
  let hash := block.hash
  let list := p.list
  let confirmed := confirm_broadcast p representatives list block 0 rebroadcast_a
  if !confirmed.1 then
    list.foldl
      (fun sent i =>
        if !p.knows_about i.endpoint hash then
          sent ++ [{ data := .publish block, endpoint := i.endpoint,
                     rebroadcast := rebroadcast_a }]
        else sent)
      confirmed.2
  else confirmed.2

/-- A table of the node ::1 port 7075 in which `peer_early` has the block of hash 3 as its
most recent one and `peer_late` has none. -/
def informed_table : peer_container :=
  { self := loopback_endpoint, peers := [{ peer_early with most_recent := 3 }, peer_late] }

/-! ## Sending packets -/

/-- The record `rai::send_info`: the arguments of one `send_buffer` call. `data` stands
for the buffer and `callback` names the function to call at the end. -/
structure send_info where
  data : Nat
  size : Nat
  endpoint : endpoint
  rebroadcast : Nat
  callback : Nat
deriving DecidableEq, Repr

/-- The two operations the sending code hands to `alarm.add`: the re-send scheduled by the
completion handler of `initiate_send` (it holds its copy of `front`), and the delayed
`initiate_send` scheduled by `send_complete`. -/
inductive send_task where
  | resend (front : send_info)
  | initiate
deriving DecidableEq, Repr

/-- What the sending code does that can be seen from outside: a packet handed to
`socket.async_send_to`, the completion handler of that call run with an error code and a
size, and a callback invoked with an error code and a size. -/
inductive wire_event where
  | async_send_to (front : send_info)
  | completion (front : send_info) (ec size : Nat)
  | callback (id ec size : Nat)
deriving DecidableEq, Repr

/-- The sending side of `rai::network`: the queue `sends` (front first), the completion
handlers of the `async_send_to` calls still outstanding (each with its copy of `front`),
the operations handed to `alarm.add` and not yet run, and the log of what happened. The
wakeup times of the operations are left out: any pending operation may run next. -/
structure send_state where
  sends : List send_info
  handlers : List send_info
  alarm : List send_task
  log : List wire_event
deriving DecidableEq, Repr

/-- A node that has sent nothing yet. -/
def send_state.new : send_state := { sends := [], handlers := [], alarm := [], log := [] }

/-- The method `network::initiate_send`; `none` is a failed assertion. -/
def initiate_send (s : send_state) : Option send_state :=
  match s.sends with
  | [] => none
  | front :: _ =>
    some { s with handlers := s.handlers ++ [front], log := s.log ++ [.async_send_to front] }

/-- The method `network::send_buffer`. -/
def send_buffer (s : send_state) (data_a size_a : Nat) (endpoint_a : endpoint)
    (rebroadcast_a callback_a : Nat) : Option send_state :=
  let initiate := s.sends.isEmpty
  let pushed : send_info :=
    { data := data_a, size := size_a, endpoint := endpoint_a, rebroadcast := rebroadcast_a,
      callback := callback_a }
  let s1 : send_state := { s with sends := s.sends ++ [pushed] }
  if initiate then initiate_send s1 else some s1

/-- The method `network::send_complete`; `none` is a failed assertion. -/
def send_complete (s : send_state) (_ec _size_a : Nat) : Option send_state :=
  match s.sends with
  | [] => none
  | _ :: rest =>
    if !rest.isEmpty then some { s with sends := rest, alarm := s.alarm ++ [.initiate] }
    else some { s with sends := rest }

/-- The completion handler `initiate_send` hands to `socket.async_send_to`, holding its
copy of `front`, run with `ec` and `size_a`. With a positive count it schedules the
re-send with the count less one; otherwise it calls the callback of the record that is at
the front of `sends` at that moment. Then it calls `send_complete`. The handler is taken
as one step: the calls other threads can make in between only push to the back of a queue
that is not empty. -/
def send_handler (s : send_state) (front : send_info) (ec size_a : Nat) : Option send_state :=
  let s0 : send_state := { s with log := s.log ++ [.completion front ec size_a] }
  if front.rebroadcast > 0 then
    send_complete { s0 with alarm := s0.alarm ++ [.resend front] } ec size_a
  else
    match s0.sends with
    | [] => none
    | self :: _ =>
      send_complete { s0 with log := s0.log ++ [.callback self.callback ec size_a] } ec size_a

/-- Running an operation the alarm holds. -/
def run_task (s : send_state) : send_task → Option send_state
  | .resend front =>
    send_buffer s front.data front.size front.endpoint (front.rebroadcast - 1) front.callback
  | .initiate => initiate_send s

/-- What can happen next to the sending side: some thread calls `send_buffer`, the socket
completes the outstanding send number `k` with an error code and a size, or the alarm runs
its pending operation number `k`. -/
inductive send_event where
  | send_buffer (data size : Nat) (endpoint : endpoint) (rebroadcast callback : Nat)
  | completed (k ec size : Nat)
  | alarm (k : Nat)
deriving DecidableEq, Repr

/-- One event; `none` when the event cannot happen (nothing outstanding or pending under
that number) or an assertion fails. -/
def send_state.step (s : send_state) : send_event → Option send_state
  | .send_buffer data size endpoint rebroadcast callback =>
    send_buffer s data size endpoint rebroadcast callback
  | .completed k ec size =>
    match s.handlers.get? k with
    | none => none
    | some front => send_handler { s with handlers := s.handlers.eraseIdx k } front ec size
  | .alarm k =>
    match s.alarm.get? k with
    | none => none
    | some task => run_task { s with alarm := s.alarm.eraseIdx k } task

/-- A sequence of events. -/
def send_state.run (s : send_state) : List send_event → Option send_state
  | [] => some s
  | event :: rest =>
    match s.step event with
    | none => none
    | some s1 => s1.run rest

/-- Whether an event is a call of `send_buffer` with the callback `cb`. -/
def send_event.calls (cb : Nat) : send_event → Bool
  | .send_buffer _ _ _ _ callback => callback == cb
  | _ => false

/-- Whether a log entry is about a packet with the callback `cb`. -/
def wire_event.about (cb : Nat) : wire_event → Bool
  | .async_send_to front => front.callback == cb
  | .completion front _ _ => front.callback == cb
  | .callback id _ _ => id == cb

/-- Whether a pending operation is the re-send of a packet with the callback `cb`. -/
def send_task.about (cb : Nat) : send_task → Bool
  | .resend front => front.callback == cb
  | .initiate => false

/-- The life of a packet sent with `info`, given the error codes and sizes the socket
reports for its transmissions, first to last: each transmission and its completion, the
count going down by one each time, and the callback after the completion of the
transmission with count 0, with what that completion reported. -/
def packet_trace (info : send_info) : List (Nat × Nat) → List wire_event
  | [] => []
  | report :: rest =>
    .async_send_to info :: .completion info report.1 report.2 ::
      (if info.rebroadcast = 0 then [.callback info.callback report.1 report.2]
       else packet_trace { info with rebroadcast := info.rebroadcast - 1 } rest)

/-- The record `info` with the rebroadcast count `k`. -/
def send_info.stage (info : send_info) (k : Nat) : send_info :=
  { info with rebroadcast := k }

/-- Whether a pending operation is the delayed `initiate_send`. -/
def send_task.is_initiate : send_task → Bool
  | .initiate => true
  | .resend _ => false

/-- The invariant of the sending side. Either nothing is queued, nothing is outstanding
and no `initiate_send` is pending; or the front of the queue is being sent, it is the only
outstanding send, and no `initiate_send` is pending; or the queue is not empty, nothing is
outstanding and exactly one `initiate_send` is pending. -/
def send_invariant (s : send_state) : Prop :=
  (s.sends = [] ∧ s.handlers = [] ∧ s.alarm.filter send_task.is_initiate = []) ∨
  (∃ front rest, s.sends = front :: rest ∧ s.handlers = [front] ∧
    s.alarm.filter send_task.is_initiate = []) ∨
  (s.sends ≠ [] ∧ s.handlers = [] ∧ s.alarm.filter send_task.is_initiate = [.initiate])

/-- What the node holds about packets with the callback `cb`: the queued records, the
outstanding sends, the pending re-sends and the log entries with that callback. -/
def packet_view (cb : Nat) (s : send_state) : send_state :=
  { sends := s.sends.filter (fun x => x.callback == cb),
    handlers := s.handlers.filter (fun x => x.callback == cb),
    alarm := s.alarm.filter (send_task.about cb),
    log := s.log.filter (wire_event.about cb) }

/-- Where the packet sent with `info` stands after the reports `reports` of its
transmissions so far, `v` being what the node holds about its callback: the log entries
are its life so far, followed by the transmission under way if there is one, and the
packet is in exactly one place: queued with the count that is left (and possibly being
sent), or waiting in the alarm for its re-send, or finished. -/
def packet_phase (info : send_info) (v : send_state) (reports : List (Nat × Nat)) : Prop :=
  v.log = packet_trace info reports ++ v.handlers.map .async_send_to ∧
  ((reports.length ≤ info.rebroadcast ∧
      v.sends = [info.stage (info.rebroadcast - reports.length)] ∧ v.alarm = [] ∧
      (v.handlers = [] ∨ v.handlers = [info.stage (info.rebroadcast - reports.length)])) ∨
   (reports.length ≤ info.rebroadcast ∧ reports ≠ [] ∧ v.sends = [] ∧ v.handlers = [] ∧
      v.alarm = [.resend (info.stage (info.rebroadcast - reports.length + 1))]) ∨
   (reports.length = info.rebroadcast + 1 ∧ v.sends = [] ∧ v.handlers = [] ∧ v.alarm = []))

/-- The packet of a log entry that hands one to the socket. -/
def wire_event.transmitted : wire_event → Option send_info
  | .async_send_to front => some front
  | _ => none

/-- Whether a log entry is the invocation of a callback. -/
def wire_event.is_callback : wire_event → Bool
  | .callback _ _ _ => true
  | _ => false

/-- The packet of the examples: 64 bytes at buffer 1 for `peer_late`, to be sent three
times (rebroadcast count 2), with the callback number 7. -/
def sample_send : send_info :=
  { data := 1, size := 64, endpoint := peer_late.endpoint, rebroadcast := 2, callback := 7 }

/-- What happens after the call of `send_buffer` for `sample_send` in the example: another
packet (callback 8, count 0) is queued behind it; the first transmission completes; the
alarm starts the other packet and runs the re-send; the other packet completes; the second
transmission is started and fails with error code 5; the alarm runs the re-send; the third
transmission completes with error code 9 and size 64. -/
def sample_events : List send_event :=
  [.send_buffer 2 32 peer_early.endpoint 0 8, .completed 0 0 64, .alarm 1, .alarm 0,
   .completed 0 0 32, .alarm 0, .completed 0 5 0, .alarm 0, .completed 0 9 64]

/-- The node at the end of the example. -/
def sample_send_end : send_state :=
  { sends := [], handlers := [], alarm := [],
    log := [.async_send_to sample_send, .completion sample_send 0 64,
      .async_send_to { data := 2, size := 32, endpoint := peer_early.endpoint,
                       rebroadcast := 0, callback := 8 },
      .completion { data := 2, size := 32, endpoint := peer_early.endpoint,
                    rebroadcast := 0, callback := 8 } 0 32,
      .callback 8 0 32,
      .async_send_to (sample_send.stage 1), .completion (sample_send.stage 1) 5 0,
      .async_send_to (sample_send.stage 0), .completion (sample_send.stage 0) 9 64,
      .callback 7 9 64] }

/-! ## Known peers -/

/-- Modelled from the spec: the constant `rai::node::cutoff` is declared in node.hpp; the
spec gives it as 5 minutes. Clock ticks are milliseconds. -/
def node_cutoff : Nat := 300000

/-- The method `peer_container::known_peer` at the clock reading `now`. -/
def peer_container.known_peer (p : peer_container) (endpoint_a : endpoint) (now : Nat) : Bool :=
  match p.find endpoint_a with
  | some existing => decide (existing.last_contact > now - node_cutoff)
  | none => false

/-- A table of the node ::1 port 7075 holding `peer_late` alone, last heard from at
time 20. -/
def boundary_table : peer_container :=
  { self := loopback_endpoint, peers := [peer_late] }

/-! ## Handling a publish message -/

/-- The block a message carries. -/
def packet.carried : packet → block
  | .confirm_ack _ _ _ block => block
  | .publish block => block

/-- What `process_receive_republish` yields: the calls of `send_buffer` made through
`network.republish_block`, the calls of `observers.call_blocks` (block, account, amount),
the blocks left on the work stack if the rounds ran out, and the node afterwards. -/
structure republish_outcome (Ledger : Type) where
  sent : List send_call
  observed : List (block × Nat × Nat)
  waiting : List block
  node : processor Ledger

/-- The method `node::process_receive_republish`, with at most `fuel` rounds of the loop of
`process_receive_many`. The peer table is only read. -/
def process_receive_republish {Ledger : Type} (y : node_collaborators Ledger)
    (representatives : List (Nat × Nat)) (peers : peer_container) (now fuel : Nat)
    (s : processor Ledger) (incoming : block) (rebroadcast_a : Nat) :
    republish_outcome Ledger :=
  let many := process_receive_many y now fuel s incoming
  { sent := many.1.flatMap (fun c =>
      (republished c.1 c.2).flatMap (fun b =>
        republish_block peers representatives b rebroadcast_a)),
    observed := many.1.flatMap (fun c =>
      (republished c.1 c.2).map (fun b => (b, c.1.account, c.1.amount))),
    waiting := many.2.1,
    node := many.2.2 }

/-- What handling a publish message yields: the network counters, the peer table, and
what `process_receive_republish` did. -/
structure publish_outcome (Ledger : Type) where
  network : network
  peers : peer_container
  republish : republish_outcome Ledger

/-- The method `network_message_visitor::publish` for a message from `sender` carrying
`block`; `none` when `not_a_peer` throws. -/
def visitor_publish {Ledger : Type} (y : node_collaborators Ledger)
    (representatives : List (Nat × Nat)) (n : network) (p : peer_container)
    (s : processor Ledger) (sender : endpoint) (block : block) (now fuel : Nat) :
    Option (publish_outcome Ledger) :=
  let counted : network := { n with publish_count := n.publish_count + 1 }
  match p.contacted sender now with
  | none => none
  | some contacted =>
    match contacted.table.insert sender block.hash now with
    | none => none
    | some inserted =>
      some { network := counted, peers := inserted.table,
             republish := process_receive_republish y representatives inserted.table now fuel
               s block 0 }

/-- The example: the node with the two-peer table and the toy ledger handles a publish of
block 2 (on top of block 1) from ::ffff:10.0.0.3 port 7075 at time 50. -/
def sample_publish : Option (publish_outcome (List Nat)) :=
  visitor_publish toy_node_collaborators [] sample_node.network two_peer_table toy_processor
    (sample_peer 3).endpoint (toy_block 2 1) 50 10

/-! ## Parsing ports and addresses -/

/-- The function `isspace` of the C library in the "C" locale, on which `std::stoul` relies
to skip leading blanks: space, tab, line feed, vertical tab, form feed, carriage return. -/
def isspace (c : Char) : Bool :=
  c.toNat == 32 || (9 ≤ c.toNat && c.toNat ≤ 13)

/-- The function `std::stoul (str, &pos)` of the C++ standard library, base 10, with
`unsigned long` of 64 bits: leading blanks are skipped, one sign is allowed, then as many
decimal digits as there are. The result is the value (negated modulo 2^64 after a minus
sign) and the number of characters processed; `none` stands for the exceptions
`std::invalid_argument` (no digit) and `std::out_of_range` (value above 2^64 - 1). The
characters of a string stand for its bytes. -/
def stoul (str : String) : Option (Nat × Nat) :=
  let blanks := str.toList.takeWhile isspace
  let rest := str.toList.dropWhile isspace
  let negative := rest.head? == some '-'
  let signed := rest.head? == some '-' || rest.head? == some '+'
  let body := if signed then rest.tail else rest
  let digits := body.takeWhile Char.isDigit
  let value := digits.foldl (fun acc c => acc * 10 + (c.toNat - 48)) 0
  if digits.isEmpty then none
  else if value > 2 ^ 64 - 1 then none
  else
    some (if negative then (2 ^ 64 - value) % 2 ^ 64 else value,
      blanks.length + (if signed then 1 else 0) + digits.length)

/-- The function `rai::parse_port`: the flag it returns and `port_a` afterwards (a
`uint16_t`, so the value of `std::stoul` is reduced modulo 2^16); `none` when `std::stoul`
throws. -/
def parse_port (string_a : String) : Option (Bool × Nat) :=
  match stoul string_a with
  | none => none
  | some (value, converted) =>
    let port_a := value % 2 ^ 16
    let result := converted != string_a.length || converted > 2 ^ 16 - 1
    some (result, port_a)

/-- The position of the last `c` in a list of characters, `none` when there is none. -/
def rfind_chars (c : Char) : List Char → Option Nat
  | [] => none
  | x :: rest =>
    match rfind_chars c rest with
    | some position => some (position + 1)
    | none => if x == c then some 0 else none

/-- The call `string.rfind (c)`: the position of the last `c`, `none` for `npos`. -/
def rfind (string : String) (c : Char) : Option Nat :=
  rfind_chars c string.toList

/-- The function `rai::parse_address_port`: the flag it returns, and `address_a` and
`port_a` afterwards. `from_string` stands for `boost::asio::ip::address_v6::from_string`
(`none` when it sets the error code). -/
def parse_address_port (from_string : String → Option address_v6) (string : String)
    (address_a : address) (port_a : Nat) : Bool × address × Nat :=
  match rfind string ':' with
  | some port_position =>
    if port_position > 0 then
      let port_string := String.mk (string.toList.drop (port_position + 1))
      match parse_port port_string with
      | some (false, port) =>
        match from_string (String.mk (string.toList.take port_position)) with
        | some address => (false, .v6 address, port)
        | none => (true, address_a, port_a)
      | some (true, _) => (true, address_a, port_a)
      | none => (true, address_a, port_a)
    else (true, address_a, port_a)
  | none => (true, address_a, port_a)

/-! ## Distributed work -/

/-- The functions `distributed_work` calls that are defined outside node.cpp:
`boost::property_tree::read_json` followed by `get <std::string> ("work")` on the body of
a reply (`none` when either throws), `rai::from_string_hex` (`none` when it reports an
error), `work.work_validate` (as the flag the code tests) and `work.generate`. -/
structure work_collaborators where
  read_work : String → Option String
  from_string_hex : String → Option Nat
  work_validate : Nat → Nat → Bool
  generate : Nat → Nat

/-- A request handed to `node->background`: a POST of `work_generate` or of `work_cancel`
for `hash` to the work peer at `address`. -/
inductive work_request where
  | work_generate (address : String) (hash : Nat)
  | work_cancel (address : String) (hash : Nat)
deriving DecidableEq, Repr

/-- The class `distributed_work`: the root, the set `outstanding` (a list without
repetition), the flag `completed`, the values handed to `promise.set_value` in order,
and the requests posted so far. -/
structure distributed_work where
  root : Nat
  outstanding : List String
  completed : Bool
  promise : List Nat
  posted : List work_request
deriving DecidableEq, Repr

/-- The constructor: `completed` is cleared and the address of every configured work peer
is inserted into `outstanding`. `work_peers` lists the formatted addresses
`http://[address]:port` of `config.work_peers`, in order. -/
def distributed_work.new (root_a : Nat) (work_peers : List String) : distributed_work :=
  { root := root_a,
    outstanding := work_peers.foldl (fun set i => if i ∈ set then set else set ++ [i]) [],
    completed := false, promise := [], posted := [] }

/-- The method `remove`: `address` leaves `outstanding`; the flag says whether the set
is empty afterwards. -/
def distributed_work.remove (w : distributed_work) (address : String) :
    Bool × distributed_work :=
  let erased := w.outstanding.erase address
  (erased.isEmpty, { w with outstanding := erased })

/-- The method `set_once`. -/
def distributed_work.set_once (w : distributed_work) (work_a : Nat) : distributed_work :=
  if !w.completed then { w with completed := true, promise := w.promise ++ [work_a] }
  else { w with completed := true }

/-- The method `handle_failure`. -/
def distributed_work.handle_failure (x : work_collaborators) (w : distributed_work)
    (last : Bool) : distributed_work :=
  if last then
    if !w.completed then
      { w with completed := true, promise := w.promise ++ [x.generate w.root] }
    else { w with completed := true }
  else w

/-- The method `failure`. -/
def distributed_work.failure (x : work_collaborators) (w : distributed_work)
    (address : String) : distributed_work :=
  let removed := w.remove address
  removed.2.handle_failure x removed.1

/-- The method `stop`: a `work_cancel` is posted for every address in `outstanding`, and
the set is cleared. -/
def distributed_work.stop (w : distributed_work) : distributed_work :=
  { w with posted := w.posted ++ w.outstanding.map (fun i => .work_cancel i w.root),
           outstanding := [] }

/-- The method `success` for the reply `body` from `address`. -/
def distributed_work.success (x : work_collaborators) (w : distributed_work)
    (body : String) (address : String) : distributed_work :=
  let removed := w.remove address
  match x.read_work body with
  | some work_text =>
    match x.from_string_hex work_text with
    | some work =>
      if x.work_validate w.root work then (removed.2.set_once work).stop
      else removed.2.handle_failure x removed.1
    | none => removed.2.handle_failure x removed.1
  | none => removed.2.handle_failure x removed.1

/-- The method `callback`; `ec` is true for an error code. -/
def distributed_work.callback (x : work_collaborators) (w : distributed_work)
    (body : String) (ec : Bool) (address : String) : distributed_work :=
  if !ec then w.success x body address else w.failure x address

/-- The method `start`: a `work_generate` is posted for every address in `outstanding`;
with no address, `handle_failure (true)` runs at once. -/
def distributed_work.start (x : work_collaborators) (w : distributed_work) :
    distributed_work :=
  if !w.outstanding.isEmpty then
    { w with posted := w.posted ++ w.outstanding.map (fun i => .work_generate i w.root) }
  else w.handle_failure x true

/-- What a posted `work_generate` request leads to: the client hands a reply to
`callback` (with or without an error code), or the request task calls `failure` itself
(status other than 200, or an exception). -/
inductive work_outcome where
  | callback (address : String) (body : String) (ec : Bool)
  | failure (address : String)
deriving DecidableEq, Repr

/-- The work peer an outcome is about. -/
def work_outcome.address : work_outcome → String
  | .callback address _ _ => address
  | .failure address => address

/-- The nonce of an outcome that is a valid reply: no error code, a body that parses, a
work field that is a hexadecimal number, and `work_validate` returns true for it. -/
def work_outcome.valid (x : work_collaborators) (root : Nat) : work_outcome → Option Nat
  | .callback _ body ec =>
    if ec then none
    else
      match x.read_work body with
      | some work_text =>
        match x.from_string_hex work_text with
        | some work => if x.work_validate root work then some work else none
        | none => none
      | none => none
  | .failure _ => none

/-- One outcome, handled in one step. -/
def distributed_work.step (x : work_collaborators) (w : distributed_work) :
    work_outcome → distributed_work
  | .callback address body ec => w.callback x body ec address
  | .failure address => w.failure x address

/-- A sequence of outcomes, handled one after the other. -/
def distributed_work.run (x : work_collaborators) (w : distributed_work)
    (outcomes : List work_outcome) : distributed_work :=
  outcomes.foldl (distributed_work.step x) w

/-- Whether a posted request is a `work_cancel`. -/
def work_request.is_cancel : work_request → Bool
  | .work_cancel _ _ => true
  | .work_generate _ _ => false

/-- Toy collaborators for the examples: the body of a reply is its work text, a work text
is a decimal number, `work_validate` returns true for even nonces, and the local generator
returns 1000 + root. -/
def toy_work : work_collaborators :=
  { read_work := fun body => if body.toList.isEmpty then none else some body,
    from_string_hex := fun text =>
      match stoul text with
      | some (value, converted) => if converted == text.length then some value else none
      | none => none,
    work_validate := fun _ work => work % 2 == 0,
    generate := fun root => 1000 + root }

/-- The invariant of `distributed_work`: `promise.set_value` has been called exactly when
`completed` is set, and then once; once `completed` is set no address is outstanding; and
no address is outstanding twice. -/
def work_invariant (w : distributed_work) : Prop :=
  (w.completed = false → w.promise = []) ∧
  (w.completed = true → w.promise.length = 1 ∧ w.outstanding = []) ∧
  w.outstanding.Nodup

/-! ## Configuration -/

/-- The class `boost::property_tree::ptree`: a node holds its own data and an ordered list
of children, each with a key; keys may repeat. -/
inductive ptree where
  | mk (data : String) (children : List (String × ptree))

/-- The data of a node. -/
def ptree.data : ptree → String
  | .mk data _ => data

/-- The children of a node, in order. -/
def ptree.children : ptree → List (String × ptree)
  | .mk _ children => children

/-- The default-constructed tree `boost::property_tree::ptree ()`. -/
def ptree.empty : ptree := .mk "" []

/-- A tree `entry` after `entry.put ("", text)` on a default-constructed tree: only data. -/
def ptree.leaf (text : String) : ptree := .mk text []

/-- The call `get_child (key)` for a key without a dot: the first child with the key.
`none` stands for the exception `ptree_bad_path` (a `std::runtime_error`), and for the
empty optional of `get_child_optional`. -/
def ptree.get_child (t : ptree) (key : String) : Option ptree :=
  (t.children.find? (fun i => i.1 == key)).map (fun i => i.2)

/-- The call `get <std::string> (key)`: the data of the first child with the key; `none`
stands for `ptree_bad_path`, and for the empty optional of `get_optional`. -/
def ptree.get (t : ptree) (key : String) : Option String :=
  (t.get_child key).map ptree.data

/-- The data of the first child with the key becomes `value`. -/
def put_first (key value : String) : List (String × ptree) → List (String × ptree)
  | [] => []
  | i :: rest =>
    if i.1 == key then (i.1, .mk value i.2.children) :: rest
    else i :: put_first key value rest

/-- The call `put (key, value)` for a key without a dot: the first child with the key gets
the data `value`; without such a child a new one is appended. -/
def ptree.put (t : ptree) (key value : String) : ptree :=
  match t.get_child key with
  | some _ => .mk t.data (put_first key value t.children)
  | none => .mk t.data (t.children ++ [(key, ptree.leaf value)])

/-- The call `add_child (key, child)`: a new child is appended, whatever the keys are. -/
def ptree.add_child (t : ptree) (key : String) (child : ptree) : ptree :=
  .mk t.data (t.children ++ [(key, child)])

/-- The call `push_back (std::make_pair (key, child))`. -/
def ptree.push_back (t : ptree) (key : String) (child : ptree) : ptree :=
  .mk t.data (t.children ++ [(key, child)])

/-- The call `erase (key)`: every child with the key is removed. -/
def ptree.erase (t : ptree) (key : String) : ptree :=
  .mk t.data (t.children.filter (fun i => i.1 != key))

/-- The characters of the decimal digits. -/
def decimal_digits : List Char := "0123456789".toList

/-- The function `std::to_string` for an unsigned value: its decimal digits. -/
def to_string (value : Nat) : String := Nat.repr value

/-- The functions the configuration code calls that are defined outside node.cpp: the
translators of `ptree` for `bool` and `uintmax_t` (`put_bool`, `get_bool`, `put_uintmax`,
`get_uintmax`; `none` stands for `ptree_bad_data`), `uint128_union::to_string_dec` and
`decode_dec`, `uint256_union::to_account` and `decode_account` (the flag is the error flag
they return, the number is the value stored), the output operator of
`boost::asio::ip::address` and `address_v6::from_string`. -/
structure config_collaborators where
  put_bool : Bool → String
  get_bool : String → Option Bool
  put_uintmax : Nat → String
  get_uintmax : String → Option Nat
  to_string_dec : Nat → String
  decode_dec : String → Bool × Nat
  to_account : Nat → String
  decode_account : String → Bool × Nat
  address_to_string : address → String
  from_string : String → Option address_v6

/-- The class `rai::logging`, as far as it is written to the configuration. -/
structure logging where
  ledger_logging_value : Bool
  ledger_duplicate_logging_value : Bool
  network_logging_value : Bool
  network_message_logging_value : Bool
  network_publish_logging_value : Bool
  network_packet_logging_value : Bool
  network_keepalive_logging_value : Bool
  node_lifetime_tracing_value : Bool
  insufficient_work_logging_value : Bool
  log_rpc_value : Bool
  bulk_pull_logging_value : Bool
  work_generation_time_value : Bool
  log_to_cerr_value : Bool
  max_size : Nat
deriving DecidableEq, Repr

/-- The constructor `logging ()`. -/
def logging.new : logging :=
  { ledger_logging_value := false, ledger_duplicate_logging_value := false,
    network_logging_value := true, network_message_logging_value := false,
    network_publish_logging_value := false, network_packet_logging_value := false,
    network_keepalive_logging_value := false, node_lifetime_tracing_value := false,
    insufficient_work_logging_value := true, log_rpc_value := true,
    bulk_pull_logging_value := false, work_generation_time_value := true,
    log_to_cerr_value := false, max_size := 16 * 1024 * 1024 }

/-- The method `logging::serialize_json`. -/
def logging.serialize_json (x : config_collaborators) (l : logging) (tree_a : ptree) : ptree :=
  let t1 := tree_a.put "ledger" (x.put_bool l.ledger_logging_value)
  let t2 := t1.put "ledger_duplicate" (x.put_bool l.ledger_duplicate_logging_value)
  let t3 := t2.put "network" (x.put_bool l.network_logging_value)
  let t4 := t3.put "network_message" (x.put_bool l.network_message_logging_value)
  let t5 := t4.put "network_publish" (x.put_bool l.network_publish_logging_value)
  let t6 := t5.put "network_packet" (x.put_bool l.network_packet_logging_value)
  let t7 := t6.put "network_keepalive" (x.put_bool l.network_keepalive_logging_value)
  let t8 := t7.put "node_lifetime_tracing" (x.put_bool l.node_lifetime_tracing_value)
  let t9 := t8.put "insufficient_work" (x.put_bool l.insufficient_work_logging_value)
  let t10 := t9.put "log_rpc" (x.put_bool l.log_rpc_value)
  let t11 := t10.put "bulk_pull" (x.put_bool l.bulk_pull_logging_value)
  let t12 := t11.put "work_generation_time" (x.put_bool l.work_generation_time_value)
  let t13 := t12.put "log_to_cerr" (x.put_bool l.log_to_cerr_value)
  t13.put "max_size" (x.put_uintmax l.max_size)

/-- A sequence of assignments inside a `try` block: each step either gives the object
with the assignment done or throws (`none`). The steps run in order up to the first that
throws; the result is whether one threw, and the object as it is then. -/
def assign_all {σ : Type} : List (σ → Option σ) → σ → Bool × σ
  | [], s => (false, s)
  | step :: rest, s =>
    match step s with
    | none => (true, s)
    | some s1 => assign_all rest s1

/-- The call `tree_a.get <bool> (key)`; `none` stands for `ptree_bad_path` and
`ptree_bad_data`. -/
def ptree.get_bool (x : config_collaborators) (t : ptree) (key : String) : Option Bool :=
  (t.get key).bind x.get_bool

/-- The method `logging::deserialize_json`: the flag it returns and the object
afterwards. -/
def logging.deserialize_json (x : config_collaborators) (l : logging) (tree_a : ptree) :
    Bool × logging :=
  assign_all
    [fun l => (tree_a.get_bool x "ledger").map (fun v => { l with ledger_logging_value := v }),
     fun l => (tree_a.get_bool x "ledger_duplicate").map
       (fun v => { l with ledger_duplicate_logging_value := v }),
     fun l => (tree_a.get_bool x "network").map (fun v => { l with network_logging_value := v }),
     fun l => (tree_a.get_bool x "network_message").map
       (fun v => { l with network_message_logging_value := v }),
     fun l => (tree_a.get_bool x "network_publish").map
       (fun v => { l with network_publish_logging_value := v }),
     fun l => (tree_a.get_bool x "network_packet").map
       (fun v => { l with network_packet_logging_value := v }),
     fun l => (tree_a.get_bool x "network_keepalive").map
       (fun v => { l with network_keepalive_logging_value := v }),
     fun l => (tree_a.get_bool x "node_lifetime_tracing").map
       (fun v => { l with node_lifetime_tracing_value := v }),
     fun l => (tree_a.get_bool x "insufficient_work").map
       (fun v => { l with insufficient_work_logging_value := v }),
     fun l => (tree_a.get_bool x "log_rpc").map (fun v => { l with log_rpc_value := v }),
     fun l => (tree_a.get_bool x "bulk_pull").map
       (fun v => { l with bulk_pull_logging_value := v }),
     fun l => (tree_a.get_bool x "work_generation_time").map
       (fun v => { l with work_generation_time_value := v }),
     fun l => (tree_a.get_bool x "log_to_cerr").map (fun v => { l with log_to_cerr_value := v }),
     fun l => ((tree_a.get "max_size").bind x.get_uintmax).map
       (fun v => { l with max_size := v })]
    l

/-- Modelled from the spec: the class `rai::node_config` is declared in node.hpp. The spec
gives `peering_port` as u16, the counts and delays as u32 and the two amounts as u128;
`rebroadcast_delay` and `password_fanout` are taken as u32 like the other counts. An
account is a number, a work peer an address and a port. -/
structure node_config where
  peering_port : Nat
  logging : logging
  work_peers : List (address × Nat)
  preconfigured_peers : List String
  preconfigured_representatives : List Nat
  packet_delay_microseconds : Nat
  bootstrap_fraction_numerator : Nat
  creation_rebroadcast : Nat
  rebroadcast_delay : Nat
  receive_minimum : Nat
  inactive_supply : Nat
  password_fanout : Nat
  io_threads : Nat
  work_threads : Nat
deriving DecidableEq, Repr

/-- The method `node_config::serialize_json`. -/
def node_config.serialize_json (x : config_collaborators) (c : node_config) (tree_a : ptree) :
    ptree :=
  let t1 := tree_a.put "version" "3"
  let t2 := t1.put "peering_port" (to_string c.peering_port)
  let t3 := t2.put "packet_delay_microseconds" (to_string c.packet_delay_microseconds)
  let t4 := t3.put "bootstrap_fraction_numerator" (to_string c.bootstrap_fraction_numerator)
  let t5 := t4.put "creation_rebroadcast" (to_string c.creation_rebroadcast)
  let t6 := t5.put "rebroadcast_delay" (to_string c.rebroadcast_delay)
  let t7 := t6.put "receive_minimum" (x.to_string_dec c.receive_minimum)
  let logging_l := c.logging.serialize_json x ptree.empty
  let t8 := t7.add_child "logging" logging_l
  let work_peers_l := c.work_peers.foldl
    (fun l i => l.push_back "" (ptree.leaf (x.address_to_string i.1 ++ ":" ++ to_string i.2)))
    ptree.empty
  let t9 := t8.add_child "work_peers" work_peers_l
  let preconfigured_peers_l := c.preconfigured_peers.foldl
    (fun l i => l.push_back "" (ptree.leaf i)) ptree.empty
  let t10 := t9.add_child "preconfigured_peers" preconfigured_peers_l
  let preconfigured_representatives_l := c.preconfigured_representatives.foldl
    (fun l i => l.push_back "" (ptree.leaf (x.to_account i))) ptree.empty
  let t11 := t10.add_child "preconfigured_representatives" preconfigured_representatives_l
  let t12 := t11.put "inactive_supply" (x.to_string_dec c.inactive_supply)
  let t13 := t12.put "password_fanout" (to_string c.password_fanout)
  let t14 := t13.put "io_threads" (to_string c.io_threads)
  t14.put "work_threads" (to_string c.work_threads)

/-- The block `case 2:` of `node_config::upgrade_json`, up to `result = true`. -/
def upgrade_case_2 (x : config_collaborators) (c : node_config) (tree_a : ptree) : ptree :=
  let t1 := tree_a.put "inactive_supply" (x.to_string_dec 0)
  let t2 := t1.put "password_fanout" (to_string 1024)
  let t3 := t2.put "io_threads" (to_string c.io_threads)
  let t4 := t3.put "work_threads" (to_string c.work_threads)
  let t5 := t4.erase "version"
  t5.put "version" "3"

/-- The block `case 1:` of `node_config::upgrade_json`, up to `result = true`; `none`
when `get_child` throws. -/
def upgrade_case_1 (x : config_collaborators) (tree_a : ptree) : Option ptree :=
  match tree_a.get_child "preconfigured_representatives" with
  | none => none
  | some reps_l =>
    let reps := reps_l.children.foldl
      (fun reps i => reps.push_back "" (ptree.leaf (x.to_account (x.decode_account i.2.data).2)))
      ptree.empty
    let t1 := tree_a.erase "preconfigured_representatives"
    let t2 := t1.add_child "preconfigured_representatives" reps
    let t3 := t2.erase "version"
    some (t3.put "version" "2")

/-- The method `node_config::upgrade_json`: the flag it returns and the tree afterwards;
`none` when it throws (a `std::runtime_error`). The block of case 1 has no `break` and
falls through into case 2, which falls through into case 3. -/
def node_config.upgrade_json (x : config_collaborators) (c : node_config) (version : Nat)
    (tree_a : ptree) : Option (Bool × ptree) :=
  match version with
  | 1 =>
    match upgrade_case_1 x tree_a with
    | none => none
    | some t => some (true, upgrade_case_2 x c t)
  | 2 => some (true, upgrade_case_2 x c tree_a)
  | 3 => some (false, tree_a)
  | _ => none

/-- The loop of `deserialize_json` over the work peers: the flag `result` and the vector
`work_peers` after the entries `entries`, starting from `state`. -/
def read_work_peers (x : config_collaborators) (entries : List (String × ptree))
    (state : Bool × List (address × Nat)) : Bool × List (address × Nat) :=
  entries.foldl
    (fun state i =>
      let work_peer := i.2.data
      let parsed := parse_address_port x.from_string work_peer (.v4 0) 0
      let result := state.1 || parsed.1
      if !result then (result, state.2 ++ [(parsed.2.1, parsed.2.2)]) else (result, state.2))
    state

/-- The loop of `deserialize_json` over the representatives. The statement is
`result = result || representative.decode_account (text)`: once `result` is true the
text is not decoded and the account pushed is 0. -/
def read_representatives (x : config_collaborators) (entries : List (String × ptree))
    (state : Bool × List Nat) : Bool × List Nat :=
  entries.foldl
    (fun state i =>
      if state.1 then (true, state.2 ++ [0])
      else
        let decoded := x.decode_account i.2.data
        (decoded.1, state.2 ++ [decoded.2]))
    state

/-- The value of `std::stoul (text)`; `none` when it throws (a `std::logic_error`). -/
def stoul_value (text : String) : Option Nat :=
  (stoul text).map (fun r => r.1)

/-- The eight assignments `field = std::stoul (text)` at the start of the inner `try`
block of `deserialize_json`, with the conversion to the width of each field. -/
def assign_numbers (peering_port_l packet_delay_microseconds_l bootstrap_fraction_numerator_l
    creation_rebroadcast_l rebroadcast_delay_l password_fanout_l io_threads_l
    work_threads_l : String) (c : node_config) : Bool × node_config :=
  assign_all
    [fun c => (stoul_value peering_port_l).map (fun v => { c with peering_port := v % 2 ^ 16 }),
     fun c => (stoul_value packet_delay_microseconds_l).map
       (fun v => { c with packet_delay_microseconds := v % 2 ^ 32 }),
     fun c => (stoul_value bootstrap_fraction_numerator_l).map
       (fun v => { c with bootstrap_fraction_numerator := v % 2 ^ 32 }),
     fun c => (stoul_value creation_rebroadcast_l).map
       (fun v => { c with creation_rebroadcast := v % 2 ^ 32 }),
     fun c => (stoul_value rebroadcast_delay_l).map
       (fun v => { c with rebroadcast_delay := v % 2 ^ 32 }),
     fun c => (stoul_value password_fanout_l).map
       (fun v => { c with password_fanout := v % 2 ^ 32 }),
     fun c => (stoul_value io_threads_l).map (fun v => { c with io_threads := v % 2 ^ 32 }),
     fun c => (stoul_value work_threads_l).map (fun v => { c with work_threads := v % 2 ^ 32 })]
    c

/-- The statements of the inner `try` block after the assignments: the checks, with the
calls that fill `logging`, `receive_minimum` and `inactive_supply` in between. The result
is `result` and the object afterwards. -/
def check_values (x : config_collaborators) (logging_l : ptree)
    (receive_minimum_l inactive_supply_l : String) (result : Bool) (c : node_config) :
    Bool × node_config :=
  let r1 := result || decide (c.creation_rebroadcast > 10)
  let r2 := r1 || decide (c.rebroadcast_delay > 300)
  let r3 := r2 || decide (c.peering_port > 2 ^ 16 - 1)
  let logged := c.logging.deserialize_json x logging_l
  let r4 := r3 || logged.1
  let received := x.decode_dec receive_minimum_l
  let r5 := r4 || received.1
  let inactive := x.decode_dec inactive_supply_l
  let r6 := r5 || inactive.1
  let r7 := r6 || decide (c.password_fanout < 16)
  let r8 := r7 || decide (c.password_fanout > 1024 * 1024)
  let r9 := r8 || decide (c.io_threads = 0)
  let r10 := r9 || decide (c.work_threads = 0)
  (r10, { c with logging := logged.2, receive_minimum := received.2,
                 inactive_supply := inactive.2 })

/-- What `node_config::deserialize_json` yields: the flag it returns, `upgraded_a` and
the tree afterwards, and the object afterwards. -/
structure deserialize_outcome where
  result : Bool
  upgraded : Bool
  config : node_config
  tree : ptree

/-- The tree and `upgraded_a` after the first statements of `deserialize_json`: a tree
without a version gets version 1 and, if it has none, an empty list of work peers. -/
def mark_version (upgraded_a : Bool) (tree_a : ptree) : Bool × ptree :=
  match tree_a.get "version" with
  | some _ => (upgraded_a, tree_a)
  | none =>
    let t := tree_a.put "version" "1"
    match t.get_child "work_peers" with
    | some _ => (true, t)
    | none => (true, t.add_child "work_peers" ptree.empty)

/-- The method `node_config::deserialize_json` on the object `c`. The outer `catch`
turns a `std::runtime_error` (of `ptree` or of `upgrade_json`) into the result true, the
inner one a `std::logic_error` of `std::stoul`; the object keeps what was assigned before.
`none` when `std::stoull` throws on the version text: that `std::logic_error` is thrown
outside the inner `try` block and leaves the function. -/
def node_config.deserialize_json (x : config_collaborators) (c : node_config)
    (upgraded_a : Bool) (tree_a : ptree) : Option deserialize_outcome :=
  let marked := mark_version upgraded_a tree_a
  let version_l := (tree_a.get "version").getD "1"
  match stoul_value version_l with
  | none => none
  | some version =>
    match c.upgrade_json x (version % 2 ^ 32) marked.2 with
    | none => some { result := true, upgraded := marked.1, config := c, tree := marked.2 }
    | some (upgraded, tree) =>
      let failed (c : node_config) : Option deserialize_outcome :=
        some { result := true, upgraded := marked.1 || upgraded, config := c, tree := tree }
      match tree.get "peering_port", tree.get "packet_delay_microseconds",
        tree.get "bootstrap_fraction_numerator", tree.get "creation_rebroadcast",
        tree.get "rebroadcast_delay", tree.get "receive_minimum", tree.get_child "logging" with
      | some peering_port_l, some packet_delay_microseconds_l,
        some bootstrap_fraction_numerator_l, some creation_rebroadcast_l,
        some rebroadcast_delay_l, some receive_minimum_l, some logging_l =>
        let c1 : node_config := { c with work_peers := [] }
        match tree.get_child "work_peers" with
        | none => failed c1
        | some work_peers_l =>
          let peers := read_work_peers x work_peers_l.children (false, [])
          let c2 : node_config := { c1 with work_peers := peers.2 }
          match tree.get_child "preconfigured_peers" with
          | none => failed c2
          | some preconfigured_peers_l =>
            let bootstrap_peers := preconfigured_peers_l.children.map (fun i => i.2.data)
            let c3 : node_config := { c2 with preconfigured_peers := bootstrap_peers }
            match tree.get_child "preconfigured_representatives" with
            | none => failed c3
            | some preconfigured_representatives_l =>
              let c3e : node_config := { c3 with preconfigured_representatives := [] }
              let reps := read_representatives x preconfigured_representatives_l.children
                (peers.1, [])
              let c4 : node_config := { c3e with preconfigured_representatives := reps.2 }
              let result := reps.1 || reps.2.isEmpty
              match tree.get "inactive_supply", tree.get "password_fanout",
                tree.get "io_threads", tree.get "work_threads" with
              | some inactive_supply_l, some password_fanout_l, some io_threads_l,
                some work_threads_l =>
                let numbers := assign_numbers peering_port_l packet_delay_microseconds_l
                  bootstrap_fraction_numerator_l creation_rebroadcast_l rebroadcast_delay_l
                  password_fanout_l io_threads_l work_threads_l c4
                if numbers.1 then failed numbers.2
                else
                  let checked := check_values x logging_l receive_minimum_l inactive_supply_l
                    result numbers.2
                  some { result := checked.1, upgraded := marked.1 || upgraded,
                         config := checked.2, tree := tree }
              | _, _, _, _ => failed c4
      | _, _, _, _, _, _, _ => failed c

/-- What the round trip of a configuration needs from the functions outside node.cpp, for
the values of `c`: each translator reads back what its counterpart writes, for the two
booleans, for `max_size`, for the two amounts, for every representative, and for the
address of every work peer, which is an IPv6 address whose text is not empty. -/
def reads_back (x : config_collaborators) (c : node_config) : Prop :=
  x.get_bool (x.put_bool true) = some true ∧ x.get_bool (x.put_bool false) = some false ∧
  x.get_uintmax (x.put_uintmax c.logging.max_size) = some c.logging.max_size ∧
  x.decode_dec (x.to_string_dec c.receive_minimum) = (false, c.receive_minimum) ∧
  x.decode_dec (x.to_string_dec c.inactive_supply) = (false, c.inactive_supply) ∧
  (∀ i ∈ c.preconfigured_representatives, x.decode_account (x.to_account i) = (false, i)) ∧
  (∀ i ∈ c.work_peers,
    (x.from_string (x.address_to_string i.1)).map address.v6 = some i.1 ∧
    (x.address_to_string i.1).toList ≠ [])

/-- The values of `c` fit the widths of its fields: 16 bits for the ports, 32 bits for the
counts and delays. -/
def fits_widths (c : node_config) : Prop :=
  c.peering_port < 2 ^ 16 ∧ c.packet_delay_microseconds < 2 ^ 32 ∧
  c.bootstrap_fraction_numerator < 2 ^ 32 ∧ c.creation_rebroadcast < 2 ^ 32 ∧
  c.rebroadcast_delay < 2 ^ 32 ∧ c.password_fanout < 2 ^ 32 ∧ c.io_threads < 2 ^ 32 ∧
  c.work_threads < 2 ^ 32 ∧ (∀ i ∈ c.work_peers, i.2 < 2 ^ 16)

/-- The checks of `deserialize_json` on the counts: whether one of them is outside its
bounds. -/
def out_of_bounds (c : node_config) : Bool :=
  decide (c.creation_rebroadcast > 10) || decide (c.rebroadcast_delay > 300) ||
  decide (c.password_fanout < 16) || decide (c.password_fanout > 1024 * 1024) ||
  decide (c.io_threads = 0) || decide (c.work_threads = 0)

/-- The count stored under `key` in a tree, as `deserialize_json` reads it into a field of
32 bits: the value of `std::stoul` on the text, reduced modulo 2^32; `none` when the key is
absent or `std::stoul` throws. -/
def read_count (tree : ptree) (key : String) : Option Nat :=
  ((tree.get key).bind stoul_value).map (fun v => v % 2 ^ 32)

/-- Toy translators for the examples: booleans as `true` and `false`, numbers, amounts and
accounts in decimal, and an IPv6 address as `::` followed by its value in decimal. -/
def toy_config_text : config_collaborators :=
  { put_bool := fun b => if b then "true" else "false",
    get_bool := fun s =>
      if s == "true" then some true else if s == "false" then some false else none,
    put_uintmax := to_string,
    get_uintmax := stoul_value,
    to_string_dec := to_string,
    decode_dec := fun s =>
      match stoul_value s with
      | some v => (false, v)
      | none => (true, 0),
    to_account := to_string,
    decode_account := fun s =>
      match stoul_value s with
      | some v => (false, v)
      | none => (true, 0),
    address_to_string := fun a =>
      match a with
      | .v6 a6 => "::" ++ to_string a6.bytes
      | .v4 a4 => to_string a4,
    from_string := fun s =>
      match s.toList with
      | ':' :: ':' :: rest =>
        (stoul_value (String.mk rest)).map (fun v => { bytes := v, scope_id := 0 })
      | _ => none }

/-- A configuration with the default values of the constructor (4 threads), the work peer
::1 port 7076, one preconfigured peer and two representatives. -/
def sample_config : node_config :=
  { peering_port := 7075, logging := logging.new,
    work_peers := [(.v6 { bytes := 1, scope_id := 0 }, 7076)],
    preconfigured_peers := ["rai.raiblocks.net"], preconfigured_representatives := [5, 9],
    packet_delay_microseconds := 5000, bootstrap_fraction_numerator := 1,
    creation_rebroadcast := 2, rebroadcast_delay := 15,
    receive_minimum := 1000000, inactive_supply := 0,
    password_fanout := 1024, io_threads := 4, work_threads := 4 }

/-- The sample configuration with its counts on the bounds: 10 rebroadcasts, a delay of
300, a fanout of 16, one thread of each kind. -/
def boundary_config : node_config :=
  { sample_config with creation_rebroadcast := 10, rebroadcast_delay := 300,
                       password_fanout := 16, io_threads := 1, work_threads := 1 }

/-- An empty configuration object, for reading into. -/
def blank_config : node_config :=
  { peering_port := 0, logging := logging.new, work_peers := [], preconfigured_peers := [],
    preconfigured_representatives := [], packet_delay_microseconds := 0,
    bootstrap_fraction_numerator := 0, creation_rebroadcast := 0, rebroadcast_delay := 0,
    receive_minimum := 0, inactive_supply := 0, password_fanout := 0, io_threads := 0,
    work_threads := 0 }

/-- A tree of version 2 that already stores an inactive supply of 5 and a fanout of 64. -/
def stored_v2_tree : ptree :=
  .mk "" [("version", ptree.leaf "2"), ("peering_port", ptree.leaf "7075"),
    ("inactive_supply", ptree.leaf "5"), ("password_fanout", ptree.leaf "64")]

/-- The keys the block of case 2 of `upgrade_json` writes. -/
def upgrade_keys : List String :=
  ["inactive_supply", "password_fanout", "io_threads", "work_threads", "version"]

/-- The collaborators as the specification words them, with three representatives of
weight 20 each and a supply of 5120: with the numerator 1 the bootstrap threshold is 20. -/
def threshold_collaborators : collaborators (List ledger_event) :=
  spec_collaborators three_reps_weight 5120 0

/-- The vote of `account` with sequence number 1 for the block `b`. -/
def sample_vote (account : Nat) (b : block) : vote :=
  { account := account, signature := 0, sequence := 1, block := b }

/-- A cache that holds the block of hash 5, which waits for block 4, added at time 1. -/
def one_gap_cache : gap_cache :=
  gap_cache.new.add threshold_collaborators (sample_block 5 4) 4 1

/-- The cache `one_gap_cache` after the vote of account 1 for the cached block. -/
def one_gap_cache_voted : gap_cache :=
  (one_gap_cache.vote threshold_collaborators [] 1 false (sample_vote 1 (sample_block 5 4)) 2).1

/-- The tree `serialize_json` writes for `boundary_config`, with the text stored under
`creation_rebroadcast` replaced by 4294967301, which is 2^32 + 5. -/
def wide_rebroadcast_tree : ptree :=
  (boundary_config.serialize_json toy_config_text ptree.empty).put
    "creation_rebroadcast" "4294967301"

/-- The tree `serialize_json` writes for `boundary_config`, with the text stored under
`password_fanout` replaced by 4294968320, which is 2^32 + 1024. -/
def wide_fanout_tree : ptree :=
  (boundary_config.serialize_json toy_config_text ptree.empty).put
    "password_fanout" "4294968320"

end rai

namespace rai

/-! ## Theorems -/

/-! ### Reserved addresses -/

/-- On addresses with scope id 0, `operator>=` is the order of the byte values. -/
theorem address_v6_ge_scope0 (b c : Nat) :
    address_v6.ge { bytes := b, scope_id := 0 } { bytes := c, scope_id := 0 } = decide (c ≤ b) := by
  unfold address_v6.ge address_v6.lt
  by_cases h1 : b < c
  · simp [h1]
  · by_cases h2 : b > c
    · simp [h1, h2]; omega
    · simp [h1, h2]; omega

/-- On addresses with scope id 0, `operator<=` is the order of the byte values. -/
theorem address_v6_le_scope0 (b c : Nat) :
    address_v6.le { bytes := b, scope_id := 0 } { bytes := c, scope_id := 0 } = decide (b ≤ c) := by
  unfold address_v6.le address_v6.lt
  by_cases h1 : c < b
  · simp [h1]
  · by_cases h2 : c > b
    · simp [h1, h2]; omega
    · simp [h1, h2]; omega

/-- For addresses with scope id 0 the code's predicate is the specification's one
or-ed with "lies above ::ffff:255.255.255.255 in byte order". -/
theorem reserved_bytes_scope0 (b : Nat) :
    reserved_bytes { bytes := b, scope_id := 0 } =
      (reserved_spec { bytes := b, scope_id := 0 } || decide (0xffffffffffff < b)) := by
  simp only [reserved_bytes, reserved_spec, reserved_v4_spec, mapped_from_v4_bytes,
    address_v6.v4_mapped, address_v6_ge_scope0, address_v6_le_scope0,
    address_v6.is_v4_mapped, address_v6.to_v4]
  rw [Bool.eq_iff_iff]
  simp only [Bool.or_eq_true, Bool.and_eq_true, beq_iff_eq, decide_eq_true_eq,
    Bool.if_true_left, Bool.if_false_right, Bool.and_true, Bool.decide_eq_true]
  omega

/-- C1: `reserved_address` answers true for 2001:4860:4860::8888 port 7075, an address
that is not IPv4-mapped and that the specification's ranges do not contain: the last
branch of the code has no upper bound. -/
theorem C1_reserved_address_native_v6 :
    reserved_address { address := .v6 addr_2001_4860_4860_8888, port := 7075 } = some true ∧
    addr_2001_4860_4860_8888.is_v4_mapped = false ∧
    reserved_spec addr_2001_4860_4860_8888 = false := by
  decide

/-! ### Peer table: invariant, purge_list, insert -/

theorem modify_endpoint_map_endpoint (e : endpoint) (f : peer_information → peer_information)
    (hf : ∀ i, (f i).endpoint = i.endpoint) (l : List peer_information) :
    (modify_endpoint e f l).map (fun i => i.endpoint) = l.map (fun i => i.endpoint) := by
  induction l with
  | nil => rfl
  | cons i rest ih =>
    unfold modify_endpoint
    split
    · simp [hf]
    · simp [ih]

theorem find_none_not_mem (p : peer_container) (e : endpoint) (h : p.find e = none) :
    e ∉ p.peers.map (fun i => i.endpoint) := by
  unfold peer_container.find at h
  rw [List.find?_eq_none] at h
  intro hm
  rw [List.mem_map] at hm
  obtain ⟨i, hi, rfl⟩ := hm
  exact h i hi (by simp)

theorem find_some_mem (p : peer_container) (e : endpoint) (x : peer_information)
    (h : p.find e = some x) : e ∈ p.peers.map (fun i => i.endpoint) := by
  unfold peer_container.find at h
  have h1 := List.find?_some h
  have h2 := List.mem_of_find?_eq_some h
  rw [List.mem_map]
  exact ⟨x, h2, by simpa using h1⟩

theorem mem_find_some (p : peer_container) (e : endpoint)
    (h : e ∈ p.peers.map (fun i => i.endpoint)) : ∃ x, p.find e = some x := by
  cases hf : p.find e with
  | some x => exact ⟨x, rfl⟩
  | none => exact absurd h (find_none_not_mem p e hf)

theorem not_a_peer_false (p : peer_container) (e : endpoint)
    (h : p.not_a_peer e = some false) : acceptable p.self e := by
  unfold peer_container.not_a_peer at h
  cases ha : e.address with
  | v4 a => simp [ha, address.to_v6] at h
  | v6 a =>
    simp only [ha, address.to_v6] at h
    refine ⟨a, ha, ?_⟩
    cases hu : a.is_unspecified with
    | true => simp [hu] at h
    | false =>
      simp only [hu] at h
      refine ⟨rfl, ?_⟩
      cases hr : reserved_address e with
      | none => simp [hr] at h
      | some b =>
        cases b with
        | true => simp [hr] at h
        | false =>
          simp only [hr] at h
          refine ⟨rfl, ?_⟩
          intro hs
          simp [hs] at h


theorem takeWhile_sorted_key {α : Type} (key : α → Nat) (c : Nat) (l : List α)
    (hs : l.Sorted (fun a b => key a ≤ key b)) :
    l.takeWhile (fun i => decide (key i < c)) = l.filter (fun i => decide (key i < c)) ∧
    l.dropWhile (fun i => decide (key i < c)) = l.filter (fun i => decide (c ≤ key i)) := by
  induction l with
  | nil => simp
  | cons a l ih =>
    have hs2 := List.sorted_cons.mp hs
    obtain ⟨ih1, ih2⟩ := ih hs2.2
    by_cases h : key a < c
    · have hn : ¬ c ≤ key a := by omega
      simp [List.takeWhile_cons, List.dropWhile_cons, List.filter_cons, h, hn, ih1, ih2]
    · have hn : c ≤ key a := by omega
      have hall : ∀ b ∈ l, c ≤ key b := fun b hb => le_trans hn (hs2.1 b hb)
      have e1 : l.filter (fun i => decide (key i < c)) = [] := by
        rw [List.filter_eq_nil_iff]
        intro b hb
        have := hall b hb
        simp; omega
      have e2 : l.filter (fun i => decide (c ≤ key i)) = l := by
        rw [List.filter_eq_self]
        intro b hb
        simpa using hall b hb
      simp [List.takeWhile_cons, List.dropWhile_cons, List.filter_cons, h, hn, e1, e2]

theorem by_last_contact_sorted (l : List peer_information) :
    (by_last_contact l).Sorted (fun a b => a.last_contact ≤ b.last_contact) := by
  unfold by_last_contact
  have : IsTotal peer_information (fun a b => a.last_contact ≤ b.last_contact) :=
    ⟨fun a b => Nat.le_total _ _⟩
  have : IsTrans peer_information (fun a b => a.last_contact ≤ b.last_contact) :=
    ⟨fun a b c h1 h2 => Nat.le_trans h1 h2⟩
  exact List.sorted_insertionSort _ l

theorem by_last_contact_perm (l : List peer_information) : (by_last_contact l).Perm l :=
  List.perm_insertionSort _ l

theorem purge_list_result_eq (p : peer_container) (c now : Nat) :
    (p.purge_list c now).result =
      (by_last_contact p.peers).filter (fun i => decide (c ≤ i.last_contact)) := by
  unfold peer_container.purge_list
  exact (takeWhile_sorted_key (fun i : peer_information => i.last_contact) c _
    (by_last_contact_sorted p.peers)).2

theorem purge_list_peers_eq (p : peer_container) (c now : Nat) :
    (p.purge_list c now).table.peers =
      (p.peers.filter (fun i => decide (c ≤ i.last_contact))).map
        (fun info => { info with last_attempt := now }) := by
  unfold peer_container.purge_list
  simp only
  rw [(takeWhile_sorted_key (fun i : peer_information => i.last_contact) c _
    (by_last_contact_sorted p.peers)).1]
  congr 1
  apply List.filter_congr
  intro i hi
  have hm : i ∈ by_last_contact p.peers := (by_last_contact_perm p.peers).mem_iff.mpr hi
  by_cases h : i.last_contact < c
  · have hn : ¬ c ≤ i.last_contact := by omega
    simp [List.mem_filter, hm, h, hn]
  · have hn : c ≤ i.last_contact := by omega
    simp [List.mem_filter, h, hn]



theorem invariant_of_endpoints_eq (p q : peer_container) (hs : q.self = p.self)
    (he : endpoints q = endpoints p) (hp : peer_invariant p) : peer_invariant q := by
  unfold peer_invariant
  rw [he, hs]
  exact hp

theorem endpoints_modify (p : peer_container) (e : endpoint)
    (f : peer_information → peer_information) (hf : ∀ i, (f i).endpoint = i.endpoint) :
    endpoints { self := p.self, peers := modify_endpoint e f p.peers } = endpoints p := by
  unfold endpoints
  exact modify_endpoint_map_endpoint e f hf p.peers

theorem insert_preserves (p : peer_container) (e : endpoint) (h now : Nat) (o : insert_outcome)
    (ho : p.insert e h now = some o) (hp : peer_invariant p) :
    peer_invariant o.table ∧ o.table.self = p.self := by
  unfold peer_container.insert at ho
  cases hn : p.not_a_peer e with
  | none => simp [hn] at ho
  | some b =>
    cases b with
    | true =>
      simp only [hn, Option.some.injEq] at ho
      subst ho
      exact ⟨hp, rfl⟩
    | false =>
      have hacc := not_a_peer_false p e hn
      simp only [hn] at ho
      cases hf : p.find e with
      | some x =>
        simp only [hf, Option.some.injEq] at ho
        subst ho
        exact ⟨invariant_of_endpoints_eq p _ rfl
          (endpoints_modify p e _ (fun _ => rfl)) hp, rfl⟩
      | none =>
        simp only [hf, Option.some.injEq] at ho
        subst ho
        have hnm := find_none_not_mem p e hf
        refine ⟨⟨?_, ?_⟩, rfl⟩
        · intro e2 he2
          simp only [endpoints, List.map_append, List.map_cons, List.map_nil, List.mem_append,
            List.mem_singleton] at he2
          rcases he2 with he2 | he2
          · exact hp.1 e2 he2
          · subst he2; exact hacc
        · simp only [endpoints, List.map_append, List.map_cons, List.map_nil]
          rw [List.nodup_append]
          refine ⟨hp.2, List.nodup_singleton _, ?_⟩
          intro a ha hb
          simp only [List.mem_singleton] at hb
          subst hb
          exact hnm ha

theorem purge_list_preserves (p : peer_container) (c now : Nat) (hp : peer_invariant p) :
    peer_invariant (p.purge_list c now).table ∧ (p.purge_list c now).table.self = p.self := by
  have hsub : (endpoints (p.purge_list c now).table).Sublist (endpoints p) := by
    unfold endpoints
    rw [purge_list_peers_eq, List.map_map]
    have : ((fun i : peer_information => i.endpoint) ∘
        fun info : peer_information => { info with last_attempt := now }) =
        fun i => i.endpoint := by
      funext i; rfl
    rw [this]
    exact List.Sublist.map _ (List.filter_sublist _)
  refine ⟨⟨?_, hp.2.sublist hsub⟩, rfl⟩
  intro e he
  exact hp.1 e (hsub.subset he)

theorem bootstrap_failed_preserves (p : peer_container) (e : endpoint) (now : Nat)
    (hp : peer_invariant p) :
    peer_invariant (p.bootstrap_failed e now) ∧ (p.bootstrap_failed e now).self = p.self := by
  unfold peer_container.bootstrap_failed
  cases hf : p.find e with
  | none => exact ⟨hp, rfl⟩
  | some x =>
    exact ⟨invariant_of_endpoints_eq p _ rfl
      (endpoints_modify p e _ (fun _ => rfl)) hp, rfl⟩

theorem after_preserves (p : peer_container) (call : peer_call) (hp : peer_invariant p) :
    peer_invariant (p.after call) ∧ (p.after call).self = p.self := by
  cases call with
  | insert e h now =>
    simp only [peer_container.after]
    cases ho : p.insert e h now with
    | none => exact ⟨hp, rfl⟩
    | some o => exact insert_preserves p e h now o ho hp
  | contacted e now =>
    simp only [peer_container.after]
    cases ho : p.contacted e now with
    | none => exact ⟨hp, rfl⟩
    | some o => exact insert_preserves p _ 0 now o ho hp
  | purge_list c now => exact purge_list_preserves p c now hp
  | bootstrap_failed e now => exact bootstrap_failed_preserves p e now hp

theorem after_all_preserves (calls : List peer_call) (p : peer_container) (hp : peer_invariant p) :
    peer_invariant (p.after_all calls) ∧ (p.after_all calls).self = p.self := by
  induction calls generalizing p with
  | nil => exact ⟨hp, rfl⟩
  | cons call calls ih =>
    have h1 := after_preserves p call hp
    have h2 := ih (p.after call) h1.1
    simp only [peer_container.after_all, List.foldl_cons] at h2 ⊢
    exact ⟨h2.1, h2.2.trans h1.2⟩

/-- C2: starting from the empty table, after any sequence of insert, contacted,
purge_list and bootstrap_failed calls every stored endpoint is IPv6, not unspecified,
not reserved and different from the node's own endpoint, and no endpoint is stored twice. -/
theorem C2_peer_table_invariant (self : endpoint) (calls : List peer_call) :
    (∀ i ∈ ((peer_container.new self).after_all calls).peers,
      ∃ a, i.endpoint.address = address.v6 a ∧ a.is_unspecified = false ∧
        reserved_address i.endpoint = some false ∧ i.endpoint ≠ self) ∧
    (((peer_container.new self).after_all calls).peers.map (fun i => i.endpoint)).Nodup := by
  have h := after_all_preserves calls (peer_container.new self)
    ⟨by intro e he; simp [endpoints, peer_container.new] at he,
     by simp [endpoints, peer_container.new]⟩
  refine ⟨?_, h.1.2⟩
  intro i hi
  have := h.1.1 i.endpoint (List.mem_map.mpr ⟨i, hi, rfl⟩)
  rw [h.2] at this
  exact this

/-- C3: after `purge_list (c)` the table holds exactly the records that had
`last_contact ≥ c`, in their old order, each one unchanged except for `last_attempt`,
which is the clock reading of the call; no record with `last_contact < c` is left. -/
theorem C3_purge_list_table (p : peer_container) (c now : Nat) :
    (p.purge_list c now).table.peers =
      (p.peers.filter (fun i => decide (c ≤ i.last_contact))).map
        (fun info => { info with last_attempt := now }) ∧
    (∀ i ∈ (p.purge_list c now).table.peers, c ≤ i.last_contact ∧ i.last_attempt = now) ∧
    (p.purge_list c now).table.self = p.self := by
  refine ⟨purge_list_peers_eq p c now, ?_, rfl⟩
  intro i hi
  rw [purge_list_peers_eq, List.mem_map] at hi
  obtain ⟨j, hj, rfl⟩ := hi
  rw [List.mem_filter] at hj
  exact ⟨by simpa using hj.2, rfl⟩

/-- C4 (as stated, refuted): with peers last heard from at 5 and at 20 and cutoff 10,
`purge_list` removes the first peer and returns the second one, the peer it kept. -/
theorem C4_purge_list_returns_kept :
    (two_peer_table.purge_list 10 30).result = [peer_late] ∧
    (two_peer_table.purge_list 10 30).table.peers = [{ peer_late with last_attempt := 30 }] ∧
    peer_early ∈ two_peer_table.peers ∧ peer_early.last_contact < 10 ∧
    peer_early ∉ (two_peer_table.purge_list 10 30).result := by
  decide

/-- C4 (amended): the vector `purge_list (c)` returns is exactly the stored records with
`last_contact ≥ c`, as they were before the call, in ascending order of `last_contact`;
these are the peers the call keeps in the table. -/
theorem C4_purge_list_result (p : peer_container) (c now : Nat) :
    ((p.purge_list c now).result).Perm
      (p.peers.filter (fun i => decide (c ≤ i.last_contact))) ∧
    ((p.purge_list c now).result).Sorted (fun a b => a.last_contact ≤ b.last_contact) ∧
    (p.purge_list c now).table.peers =
      (p.peers.filter (fun i => decide (c ≤ i.last_contact))).map
        (fun info => { info with last_attempt := now }) := by
  refine ⟨?_, ?_, purge_list_peers_eq p c now⟩
  · rw [purge_list_result_eq]
    exact (by_last_contact_perm p.peers).filter _
  · rw [purge_list_result_eq]
    exact (by_last_contact_sorted p.peers).filter _

/-- C5 (as stated, refuted): on the empty table of the node ::1 port 7075, inserting the
node's own endpoint returns true although the endpoint was not stored before the call. -/
theorem C5_insert_self_returns_true :
    (peer_container.new loopback_endpoint).find loopback_endpoint = none ∧
    ((peer_container.new loopback_endpoint).insert loopback_endpoint 0 100).map
      (fun o => o.result) = some true := by
  decide

theorem not_a_peer_v6 (p : peer_container) (a : address_v6) (port : Nat) :
    ∃ b, p.not_a_peer { address := .v6 a, port := port } = some b := by
  unfold peer_container.not_a_peer reserved_address
  simp only [address.to_v6]
  cases a.is_unspecified with
  | true => exact ⟨true, rfl⟩
  | false =>
    cases reserved_bytes a with
    | true => exact ⟨true, rfl⟩
    | false =>
      by_cases hs : ({ address := .v6 a, port := port } : endpoint) = p.self
      · exact ⟨true, by simp [hs]⟩
      · exact ⟨false, by simp [hs]⟩

/-- C5 (amended): for an IPv6 endpoint `insert` returns true exactly when the endpoint is
unspecified, reserved or the node's own endpoint (`not_a_peer`), or was already stored
before the call; it returns false exactly when the call stored it as a new peer. -/
theorem C5_insert_result (p : peer_container) (a : address_v6) (port hash_a now : Nat) :
    ∃ o, p.insert { address := .v6 a, port := port } hash_a now = some o ∧
      (o.result = true ↔
        (p.not_a_peer { address := .v6 a, port := port } = some true ∨
         ({ address := .v6 a, port := port } : endpoint) ∈ endpoints p)) := by
  obtain ⟨b, hb⟩ := not_a_peer_v6 p a port
  unfold peer_container.insert
  cases b with
  | true =>
    simp only [hb]
    exact ⟨_, rfl, by simp⟩
  | false =>
    cases hf : p.find { address := .v6 a, port := port } with
    | some x =>
      simp only [hb, hf]
      refine ⟨_, rfl, ?_⟩
      have := find_some_mem p _ x hf
      simp [endpoints, this]
    | none =>
      simp only [hb, hf]
      refine ⟨_, rfl, ?_⟩
      have := find_none_not_mem p _ hf
      simp [endpoints, this]

/-! ### Peer table: random_fill -/

theorem set_dropLast_perm {α : Type} (l : List α) (i : Nat) (last : α)
    (hl : l.getLast? = some last) (hi : i + 1 < l.length) :
    ((l.set i last).dropLast).Perm (l.eraseIdx i) := by
  induction l generalizing i with
  | nil => simp at hl
  | cons a rest ih =>
    cases rest with
    | nil => simp at hi
    | cons b rest2 =>
      have hl2 : (b :: rest2).getLast? = some last := by simpa using hl
      cases i with
      | zero =>
        simp only [List.set_cons_zero, List.eraseIdx_cons_zero]
        rw [List.dropLast_cons_of_ne_nil (by simp)]
        have := List.dropLast_append_getLast? last (by simpa using hl2)
        conv_rhs => rw [← this]
        exact List.perm_append_singleton _ _ |>.symm
      | succ j =>
        simp only [List.set_cons_succ, List.eraseIdx_cons_succ]
        rw [List.dropLast_cons_of_ne_nil (by
          intro h
          have := congrArg List.length h
          simp at this)]
        exact (ih j hl2 (by simpa using hi)).cons a

theorem random_fill_step (peers : List peer_information) (index : Nat)
    (hi : index < peers.length) :
    ((overwrite_with_last peers index).dropLast).Subperm peers := by
  unfold overwrite_with_last
  by_cases h : index = peers.length - 1
  · simp only [h, ne_eq, not_true_eq_false, if_false]
    exact (List.dropLast_sublist peers).subperm
  · simp only [ne_eq, h, not_false_eq_true, if_true]
    cases hl : peers.getLast? with
    | none =>
      rw [List.getLast?_eq_none_iff] at hl
      subst hl
      simp at hi
    | some last =>
      simp only
      exact (set_dropLast_perm peers index last hl (by omega)).subperm.trans
        (List.eraseIdx_sublist peers index).subperm

theorem random_fill_step_length (peers : List peer_information) (index : Nat) :
    ((overwrite_with_last peers index).dropLast).length = peers.length - 1 := by
  unfold overwrite_with_last
  split
  · split <;> simp
  · simp

theorem random_fill_loop_spec (gen : Nat → Nat → Nat) (T : Nat)
    (hgen : ∀ k max, gen k max ≤ max) :
    ∀ (fuel k : Nat) (peers : List peer_information), peers.length - T ≤ fuel →
      ∃ S, random_fill_loop gen T fuel k peers = some S ∧ S.Subperm peers ∧
        S.length = min peers.length T := by
  intro fuel
  induction fuel with
  | zero =>
    intro k peers hf
    have : ¬ peers.length > T := by omega
    exact ⟨peers, by simp [random_fill_loop, this], List.Subperm.refl _, by omega⟩
  | succ fuel ih =>
    intro k peers hf
    by_cases hgt : peers.length > T
    · have hidx : gen k (peers.length - 1) < peers.length := by
        have := hgen k (peers.length - 1)
        omega
      have hstep := random_fill_step peers (gen k (peers.length - 1)) hidx
      have hlen := random_fill_step_length peers (gen k (peers.length - 1))
      obtain ⟨S, hS, hsub, hl⟩ := ih (k + 1) _ (by rw [hlen]; omega)
      refine ⟨S, ?_, hsub.trans hstep, ?_⟩
      · simp only [random_fill_loop, hgt, if_true, hidx]
        exact hS
      · rw [hl, hlen]; omega
    · exact ⟨peers, by simp [random_fill_loop, hgt], List.Subperm.refl _, by omega⟩

theorem write_front_spec (peers : List peer_information) :
    ∀ (target : List endpoint), (∀ i ∈ peers, i.endpoint.address.is_v6 = true) →
      peers.length ≤ target.length →
      write_front peers target =
        some (peers.map (fun i => i.endpoint) ++ target.drop peers.length) := by
  induction peers with
  | nil => intro target _ _; simp [write_front]
  | cons i peers ih =>
    intro target hv hl
    cases target with
    | nil => simp at hl
    | cons t target =>
      have h1 := hv i (by simp)
      have h2 := ih target (fun j hj => hv j (by simp [hj])) (by simpa using hl)
      simp [write_front, h1, h2]


theorem subperm_map_nodup {α β : Type} (f : α → β) (S L : List α) (h : S.Subperm L)
    (hn : (L.map f).Nodup) : (S.map f).Nodup := by
  obtain ⟨U, hperm, hsub⟩ := h
  exact ((hperm.map f).nodup_iff).mp (hn.sublist (hsub.map f))

/-- C6: on a table whose endpoints are IPv6 and pairwise distinct, and for every outcome
of the index draws (each within the range asked for), `random_fill` fills the 8-slot
array with `min (8, n)` pairwise distinct endpoints of `list ()` at the front, followed
by the unspecified IPv6 endpoint with port 0 in every remaining slot. -/
theorem C6_random_fill (p : peer_container) (gen : Nat → Nat → Nat)
    (hv6 : ∀ e ∈ endpoints p, e.address.is_v6 = true) (hnd : (endpoints p).Nodup)
    (hgen : ∀ k max, gen k max ≤ max) :
    ∃ sel, p.random_fill gen =
        some (sel ++ List.replicate (8 - sel.length) unspecified_endpoint) ∧
      sel.length = min 8 p.list.length ∧ sel.Nodup ∧
      ∀ e ∈ sel, e ∈ p.list.map (fun i => i.endpoint) := by
  obtain ⟨S, hS, hsub, hl⟩ := random_fill_loop_spec gen 8 hgen p.list.length 0 p.list (by omega)
  have hS8 : S.length ≤ 8 := by omega
  have hv : ∀ i ∈ S, i.endpoint.address.is_v6 = true := fun i hi =>
    hv6 i.endpoint (List.mem_map.mpr ⟨i, hsub.subset hi, rfl⟩)
  refine ⟨S.map (fun i => i.endpoint), ?_, ?_, ?_, ?_⟩
  · unfold peer_container.random_fill
    simp only [hS, hS8, if_true]
    rw [write_front_spec S _ hv (by simpa using hS8), List.drop_replicate, List.length_map]
  · simp only [List.length_map, hl]; omega
  · exact subperm_map_nodup _ S p.list hsub hnd
  · intro e he
    obtain ⟨i, hi, rfl⟩ := List.mem_map.mp he
    exact List.mem_map.mpr ⟨i, hsub.subset hi, rfl⟩

/-- Witness for C6: the ten-peer table with every draw equal to 0. -/
theorem C6_random_fill_witness :
    (∀ e ∈ endpoints ten_peer_table, e.address.is_v6 = true) ∧
    (endpoints ten_peer_table).Nodup ∧
    (∀ k max : Nat, (fun _ _ => 0 : Nat → Nat → Nat) k max ≤ max) ∧
    ∃ sel, ten_peer_table.random_fill (fun _ _ => 0) =
        some (sel ++ List.replicate (8 - sel.length) unspecified_endpoint) ∧
      sel.length = min 8 ten_peer_table.list.length ∧ sel.Nodup ∧
      ∀ e ∈ sel, e ∈ ten_peer_table.list.map (fun i => i.endpoint) :=
  ⟨by decide, by decide, fun _ max => Nat.zero_le max,
   C6_random_fill ten_peer_table (fun _ _ => 0) (by decide) (by decide)
     (fun _ max => Nat.zero_le max)⟩

/-! ### Gap cache -/

theorem modify_hash_map_hash (hash : Nat) (f : gap_information → gap_information)
    (hf : ∀ i, (f i).hash = i.hash) (l : List gap_information) :
    (modify_hash hash f l).map (fun i => i.hash) = l.map (fun i => i.hash) := by
  induction l with
  | nil => rfl
  | cons i rest ih =>
    unfold modify_hash
    split
    · simp [hf]
    · simp [ih]

theorem modify_hash_length (hash : Nat) (f : gap_information → gap_information)
    (l : List gap_information) : (modify_hash hash f l).length = l.length := by
  induction l with
  | nil => rfl
  | cons i rest ih =>
    unfold modify_hash
    split
    · simp
    · simp [ih]

theorem find_hash_none_not_mem (g : gap_cache) (hash : Nat) (h : g.find_hash hash = none) :
    hash ∉ g.blocks.map (fun i => i.hash) := by
  unfold gap_cache.find_hash at h
  rw [List.find?_eq_none] at h
  intro hm
  obtain ⟨i, hi, rfl⟩ := List.mem_map.mp hm
  exact h i hi (by simp)

theorem erase_oldest_sublist (l : List gap_information) : (erase_oldest l).Sublist l := by
  unfold erase_oldest
  split
  · exact List.Sublist.refl l
  · exact List.erase_sublist _ l

theorem erase_oldest_length (l : List gap_information) (hl : l ≠ []) :
    (erase_oldest l).length = l.length - 1 := by
  unfold erase_oldest
  have hperm : (by_arrival l).Perm l := List.perm_insertionSort _ l
  split
  · rename_i h
    rw [h] at hperm
    exact absurd hperm.symm.eq_nil hl
  · rename_i oldest rest h
    have hm : oldest ∈ l := hperm.mem_iff.mp (by rw [h]; simp)
    exact List.length_erase_of_mem hm


theorem gap_insert_preserves (g : gap_cache) (e : gap_information)
    (hnm : e.hash ∉ g.blocks.map (fun i => i.hash)) (hg : gap_invariant g) :
    gap_invariant (if (g.blocks ++ [e]).length > g.max
      then { g with blocks := erase_oldest (g.blocks ++ [e]) }
      else { g with blocks := g.blocks ++ [e] }) := by
  have hnd : ((g.blocks ++ [e]).map (fun i => i.hash)).Nodup := by
    simp only [List.map_append, List.map_cons, List.map_nil]
    rw [List.nodup_append]
    refine ⟨hg.2, List.nodup_singleton _, ?_⟩
    intro a ha hb
    simp only [List.mem_singleton] at hb
    subst hb
    exact hnm ha
  split
  · refine ⟨?_, ?_⟩
    · simp only
      rw [erase_oldest_length _ (by simp)]
      have := hg.1
      simp only [List.length_append, List.length_singleton]
      omega
    · exact hnd.sublist ((erase_oldest_sublist _).map _)
  · rename_i hle
    refine ⟨?_, hnd⟩
    simp only at hle ⊢
    omega

theorem gap_add_max {Ledger : Type} (x : collaborators Ledger) (g : gap_cache)
    (block_a : block) (needed_a now : Nat) : (g.add x block_a needed_a now).max = g.max := by
  unfold gap_cache.add
  simp only
  split
  · rfl
  · split <;> rfl

theorem gap_modify_preserves (g : gap_cache) (hash : Nat)
    (f : gap_information → gap_information) (hf : ∀ i, (f i).hash = i.hash)
    (hg : gap_invariant g) : gap_invariant { g with blocks := modify_hash hash f g.blocks } := by
  refine ⟨?_, ?_⟩
  · simp only [modify_hash_length]; exact hg.1
  · simp only [modify_hash_map_hash _ _ hf]; exact hg.2

theorem gap_add_preserves {Ledger : Type} (x : collaborators Ledger) (g : gap_cache)
    (block_a : block) (needed_a now : Nat) (hg : gap_invariant g) :
    gap_invariant (g.add x block_a needed_a now) ∧ (g.add x block_a needed_a now).max = g.max := by
  refine ⟨?_, gap_add_max x g block_a needed_a now⟩
  cases hf : g.find_hash block_a.hash with
  | some e =>
    simp only [gap_cache.add, hf]
    exact gap_modify_preserves g _ _ (fun _ => rfl) hg
  | none =>
    simp only [gap_cache.add, hf]
    exact gap_insert_preserves g _ (find_hash_none_not_mem g _ hf) hg

theorem gap_get_preserves (g : gap_cache) (hash_a : Nat) (hg : gap_invariant g) :
    gap_invariant (g.get hash_a).2 ∧ (g.get hash_a).2.max = g.max := by
  unfold gap_cache.get
  refine ⟨⟨?_, ?_⟩, rfl⟩
  · exact le_trans (List.length_filter_le _ _) hg.1
  · exact hg.2.sublist ((List.filter_sublist _).map _)

theorem gap_vote_preserves {Ledger : Type} (x : collaborators Ledger) (g : gap_cache)
    (ledger : Ledger) (numerator : Nat) (test_network : Bool) (vote_a : vote) (now : Nat)
    (hg : gap_invariant g) :
    gap_invariant (g.vote x ledger numerator test_network vote_a now).1 ∧
    (g.vote x ledger numerator test_network vote_a now).1.max = g.max := by
  cases hf : g.find_hash vote_a.block.hash with
  | none =>
    simp only [gap_cache.vote, hf]
    exact ⟨hg, trivial⟩
  | some e =>
    have key := gap_modify_preserves g vote_a.block.hash
      (fun info => { info with votes := (x.votes_vote e.votes vote_a).2 }) (fun _ => rfl) hg
    simp only [gap_cache.vote, hf]
    split_ifs <;> exact ⟨key, rfl⟩

theorem gap_after_all_preserves {Ledger : Type} (x : collaborators Ledger)
    (calls : List (gap_call Ledger)) (g : gap_cache) (hg : gap_invariant g) :
    gap_invariant (g.after_all x calls) ∧ (g.after_all x calls).max = g.max := by
  induction calls generalizing g with
  | nil => exact ⟨hg, rfl⟩
  | cons call calls ih =>
    have h1 : gap_invariant (g.after x call) ∧ (g.after x call).max = g.max := by
      cases call with
      | add b n now => exact gap_add_preserves x g b n now hg
      | get h => exact gap_get_preserves g h hg
      | vote l n t v now => exact gap_vote_preserves x g l n t v now hg
    have h2 := ih (g.after x call) h1.1
    simp only [gap_cache.after_all, List.foldl_cons] at h2 ⊢
    exact ⟨h2.1, h2.2.trans h1.2⟩

/-- C7: starting from the empty cache, after any sequence of add, get and vote calls the
cache holds at most 256 records and no two records have the same block hash. -/
theorem C7_gap_cache_bound {Ledger : Type} (x : collaborators Ledger)
    (calls : List (gap_call Ledger)) :
    (gap_cache.new.after_all x calls).blocks.length ≤ 256 ∧
    ((gap_cache.new.after_all x calls).blocks.map (fun i => i.hash)).Nodup := by
  have h := gap_after_all_preserves x calls gap_cache.new
    ⟨by simp [gap_cache.new], by simp [gap_cache.new]⟩
  refine ⟨?_, h.1.2⟩
  have := h.1.1
  rw [h.2] at this
  exact this


theorem takeWhile_eq_filter_of_le {α : Type} (key : α → Nat) (h : Nat) (l : List α)
    (hs : l.Sorted (fun a b => key a ≤ key b)) (hge : ∀ a ∈ l, h ≤ key a) :
    l.takeWhile (fun i => key i == h) = l.filter (fun i => key i == h) := by
  induction l with
  | nil => rfl
  | cons a l ih =>
    have hs2 := List.sorted_cons.mp hs
    by_cases ha : key a = h
    · simp only [List.takeWhile_cons, List.filter_cons, ha, beq_self_eq_true, if_true]
      rw [ih hs2.2 (fun b hb => hge b (by simp [hb]))]
    · have hlt : h < key a := lt_of_le_of_ne (hge a (by simp)) (Ne.symm ha)
      have e1 : l.filter (fun i => key i == h) = [] := by
        rw [List.filter_eq_nil_iff]
        intro b hb
        have := hs2.1 b hb
        simp only [beq_iff_eq]
        omega
      simp [List.takeWhile_cons, List.filter_cons, ha, e1]

theorem equal_range_sorted {α : Type} (key : α → Nat) (h : Nat) (l : List α)
    (hs : l.Sorted (fun a b => key a ≤ key b)) :
    (l.dropWhile (fun i => key i != h)).takeWhile (fun i => key i == h) =
      l.filter (fun i => key i == h) := by
  induction l with
  | nil => rfl
  | cons a l ih =>
    have hs2 := List.sorted_cons.mp hs
    by_cases ha : key a = h
    · have hd : (a :: l).dropWhile (fun i => key i != h) = a :: l := by
        simp [List.dropWhile_cons, ha]
      rw [hd]
      exact takeWhile_eq_filter_of_le key h (a :: l) hs (by
        intro b hb
        rcases List.mem_cons.mp hb with rfl | hb
        · omega
        · have := hs2.1 b hb
          omega)
    · simp only [List.dropWhile_cons, List.filter_cons, bne_iff_ne, ne_eq, ha, not_false_eq_true,
        if_true, beq_iff_eq, if_false]
      exact ih hs2.2

theorem by_required_sorted (l : List gap_information) :
    (by_required l).Sorted (fun a b => a.required ≤ b.required) := by
  unfold by_required
  have : IsTotal gap_information (fun a b => a.required ≤ b.required) :=
    ⟨fun a b => Nat.le_total _ _⟩
  have : IsTrans gap_information (fun a b => a.required ≤ b.required) :=
    ⟨fun a b c h1 h2 => Nat.le_trans h1 h2⟩
  exact List.sorted_insertionSort _ l

/-- C8: `get (h)` returns the blocks of exactly the records whose `required` is `h`, each
once; afterwards the cache holds exactly the records with another `required`, unchanged
and in their old order, so every record with key `h` is gone. -/
theorem C8_gap_cache_get (g : gap_cache) (hash_a : Nat) :
    ((g.get hash_a).1).Perm
      ((g.blocks.filter (fun i => i.required == hash_a)).map (fun info => info.block)) ∧
    (g.get hash_a).2.blocks = g.blocks.filter (fun i => i.required != hash_a) ∧
    (∀ i ∈ (g.get hash_a).2.blocks, i.required ≠ hash_a) ∧
    (∀ i ∈ g.blocks, i.required ≠ hash_a → i ∈ (g.get hash_a).2.blocks) := by
  refine ⟨?_, rfl, ?_, ?_⟩
  · unfold gap_cache.get
    simp only
    rw [equal_range_sorted (fun i : gap_information => i.required) hash_a _
      (by_required_sorted g.blocks)]
    exact ((List.perm_insertionSort _ g.blocks).filter _).map _
  · intro i hi
    have := (List.mem_filter.mp hi).2
    simpa using this
  · intro i hi hne
    exact List.mem_filter.mpr ⟨hi, by simpa using hne⟩

/-! ### Active transactions -/

theorem announce_walk_roots (n : Nat) (l : List conflict_info) :
    (announce_walk n l).1.map (fun i => i.root) = l.map (fun i => i.root) := by
  induction l with
  | nil => rfl
  | cons i rest ih =>
    unfold announce_walk
    split_ifs
    · simp [ih]
    · simp [ih]
    · simp [List.map_map, Function.comp_def]

theorem erase_inactive_sublist (inactive : List Nat) :
    ∀ (l l2 : List conflict_info), erase_inactive inactive l = some l2 → l2.Sublist l := by
  induction inactive with
  | nil =>
    intro l l2 h
    simp only [erase_inactive, Option.some.injEq] at h
    subst h
    exact List.Sublist.refl _
  | cons r rest ih =>
    intro l l2 h
    unfold erase_inactive at h
    split_ifs at h
    exact (ih _ _ h).trans (List.filter_sublist _)

theorem active_find_none (a : active_transactions) (root : Nat) (h : a.find root = none) :
    root ∉ a.roots.map (fun i => i.root) := by
  unfold active_transactions.find at h
  rw [List.find?_eq_none] at h
  intro hm
  obtain ⟨i, hi, rfl⟩ := List.mem_map.mp hm
  exact h i hi (by simp)

theorem active_find_some (a : active_transactions) (root : Nat)
    (h : ∃ i ∈ a.roots, i.root = root) : ∃ i, a.find root = some i := by
  cases hf : a.find root with
  | some i => exact ⟨i, rfl⟩
  | none =>
    obtain ⟨i, hi, hr⟩ := h
    exact absurd (List.mem_map.mpr ⟨i, hi, hr⟩) (active_find_none a root hf)

theorem start_existing {Ledger : Type} (x : collaborators Ledger) (a : active_transactions)
    (block_a : block) (action now : Nat) (h : ∃ i ∈ a.roots, i.root = block_a.root) :
    a.start x block_a action now = a := by
  obtain ⟨i, hi⟩ := active_find_some a _ h
  simp only [active_transactions.start, hi]

theorem start_nodup {Ledger : Type} (x : collaborators Ledger) (a : active_transactions)
    (block_a : block) (action now : Nat) (hn : (a.roots.map (fun i => i.root)).Nodup) :
    ((a.start x block_a action now).roots.map (fun i => i.root)).Nodup := by
  cases hf : a.find block_a.root with
  | some i =>
    simp only [active_transactions.start, hf]
    exact hn
  | none =>
    simp only [active_transactions.start, hf]
    have hp := (List.perm_orderedInsert (fun i j : conflict_info => i.root ≤ j.root)
      { root := block_a.root, election := election.new x block_a action now, announcements := 0 }
      a.roots).map (fun i => i.root)
    rw [hp.nodup_iff, List.map_cons, List.nodup_cons]
    exact ⟨active_find_none a _ hf, hn⟩

theorem announce_votes_nodup (a : active_transactions) (test_network : Bool) (now : Nat)
    (o : announce_outcome) (h : a.announce_votes test_network now = some o)
    (hn : (a.roots.map (fun i => i.root)).Nodup) :
    (o.table.roots.map (fun i => i.root)).Nodup := by
  unfold active_transactions.announce_votes at h
  simp only at h
  split at h
  · simp at h
  · rename_i roots he
    simp only [Option.some.injEq] at h
    subst h
    have hs := (erase_inactive_sublist _ _ _ he).map (fun i : conflict_info => i.root)
    rw [announce_walk_roots] at hs
    exact hn.sublist hs

theorem active_after_all_nodup {Ledger : Type} (x : collaborators Ledger)
    (calls : List active_call) (a : active_transactions)
    (hn : (a.roots.map (fun i => i.root)).Nodup) :
    ((a.after_all x calls).roots.map (fun i => i.root)).Nodup := by
  induction calls generalizing a with
  | nil => exact hn
  | cons c calls ih =>
    simp only [active_transactions.after_all, List.foldl_cons]
    apply ih
    cases c with
    | start b act now => exact start_nodup x a b act now hn
    | announce_votes t now =>
      simp only [active_transactions.after]
      cases ho : a.announce_votes t now with
      | none => exact hn
      | some o => exact announce_votes_nodup a t now o ho hn

/-- C9: after any sequence of start and announce_votes calls on the empty table no two
records of `roots` have the same root, and `start` for a block whose root already has a
record returns the table unchanged, so the election there keeps its `last_winner`, its
confirmation action and its announcement count. -/
theorem C9_election_uniqueness {Ledger : Type} (x : collaborators Ledger)
    (calls : List active_call) :
    ((active_transactions.new.after_all x calls).roots.map (fun i => i.root)).Nodup ∧
    ∀ (b2 : block) (action now : Nat),
      (∃ i ∈ (active_transactions.new.after_all x calls).roots, i.root = b2.root) →
      (active_transactions.new.after_all x calls).start x b2 action now =
        active_transactions.new.after_all x calls :=
  ⟨active_after_all_nodup x calls active_transactions.new (by simp [active_transactions.new]),
   fun b2 action now h => start_existing x _ b2 action now h⟩


/-! ### Elections -/

theorem confirm_once_confirmed (e : election) (h : e.confirmed = true) :
    e.confirm_once = (e, []) := by
  cases e with
  | mk a v lv lw c =>
    simp only at h
    subst h
    rfl

theorem confirm_once_unconfirmed (e : election) (h : e.confirmed = false) :
    e.confirm_once =
      ({ e with confirmed := true }, [background.confirmation e.confirmation_action e.last_winner]) := by
  simp [election.confirm_once, h]

theorem confirm_once_effect (e : election) :
    call_effect e (e.confirm_once).1 (e.confirm_once).2 := by
  cases hc : e.confirmed with
  | true =>
    rw [confirm_once_confirmed e hc]
    exact ⟨rfl, fun _ => ⟨hc, rfl⟩, fun h => by simp [hc] at h⟩
  | false =>
    rw [confirm_once_unconfirmed e hc]
    exact ⟨rfl, fun h => by simp [hc] at h, fun _ => Or.inr ⟨rfl, rfl⟩⟩

theorem recalculate_winner_keeps {Ledger : Type} (x : collaborators Ledger) (e : election)
    (ledger : Ledger) (q : Bool) (e1 : election) (l1 : Ledger)
    (h : e.recalculate_winner x ledger = some (q, e1, l1)) :
    e1.confirmation_action = e.confirmation_action ∧ e1.confirmed = e.confirmed := by
  unfold election.recalculate_winner at h
  simp only at h
  split at h
  · simp at h
  · simp only [Option.some.injEq, Prod.mk.injEq] at h
    obtain ⟨-, h1, -⟩ := h
    subst h1
    split_ifs <;> exact ⟨rfl, rfl⟩

theorem call_effect_of_keeps (e e1 e2 : election) (posted : List background)
    (hk : e1.confirmation_action = e.confirmation_action ∧ e1.confirmed = e.confirmed)
    (h : call_effect e1 e2 posted) : call_effect e e2 posted := by
  obtain ⟨h1, h2, h3⟩ := h
  rw [hk.1] at h1 h3
  rw [hk.2] at h2 h3
  exact ⟨h1, h2, h3⟩

theorem call_effect_refl (e e1 : election)
    (hk : e1.confirmation_action = e.confirmation_action ∧ e1.confirmed = e.confirmed) :
    call_effect e e1 [] :=
  ⟨hk.1, fun h => ⟨hk.2.trans h, rfl⟩, fun h => Or.inl ⟨hk.2.trans h, rfl⟩⟩

theorem confirm_if_quarum_effect {Ledger : Type} (x : collaborators Ledger) (e : election)
    (ledger : Ledger) (e2 : election) (l2 : Ledger) (posted : List background)
    (h : e.confirm_if_quarum x ledger = some (e2, l2, posted)) : call_effect e e2 posted := by
  unfold election.confirm_if_quarum at h
  split at h
  · simp at h
  · rename_i q e1 l1 hr
    have hk := recalculate_winner_keeps x e ledger q e1 l1 hr
    split_ifs at h
    · simp only [Option.some.injEq, Prod.mk.injEq] at h
      obtain ⟨h1, -, h3⟩ := h
      subst h1 h3
      exact call_effect_of_keeps e e1 _ _ hk (confirm_once_effect e1)
    · simp only [Option.some.injEq, Prod.mk.injEq] at h
      obtain ⟨h1, -, h3⟩ := h
      subst h1 h3
      exact call_effect_refl e e1 hk

theorem election_call_effect {Ledger : Type} (x : collaborators Ledger) (e : election)
    (ledger : Ledger) (c : election_call) (e2 : election) (l2 : Ledger)
    (posted : List background) (h : e.call x ledger c = some (e2, l2, posted)) :
    call_effect e e2 posted := by
  cases c with
  | vote v =>
    simp only [election.call, election.vote] at h
    split_ifs at h
    · have hq := confirm_if_quarum_effect x _ ledger e2 l2 posted h
      exact call_effect_of_keeps e _ e2 posted ⟨rfl, rfl⟩ hq
    · simp only [Option.some.injEq, Prod.mk.injEq] at h
      obtain ⟨h1, -, h3⟩ := h
      subst h1 h3
      exact call_effect_refl e _ ⟨rfl, rfl⟩
  | confirm_if_quarum => exact confirm_if_quarum_effect x e ledger e2 l2 posted h
  | confirm_cutoff =>
    simp only [election.call, election.confirm_cutoff, Option.some.injEq, Prod.mk.injEq] at h
    obtain ⟨h1, -, h3⟩ := h
    subst h1 h3
    exact confirm_once_effect e
  | confirm_once =>
    simp only [election.call, Option.some.injEq, Prod.mk.injEq] at h
    obtain ⟨h1, -, h3⟩ := h
    subst h1 h3
    exact confirm_once_effect e


theorem run_cons_none {Ledger : Type} (x : collaborators Ledger) (e : election) (l : Ledger)
    (c : election_call) (rest : List election_call) (h : e.call x l c = none) :
    election.run x e l (c :: rest) = election.run x e l rest := by
  simp only [election.run, h]

theorem run_cons_some {Ledger : Type} (x : collaborators Ledger) (e : election) (l : Ledger)
    (c : election_call) (rest : List election_call) (e1 : election) (l1 : Ledger)
    (p : List background) (h : e.call x l c = some (e1, l1, p)) :
    election.run x e l (c :: rest) =
      ((election.run x e1 l1 rest).1, (election.run x e1 l1 rest).2.1,
       p ++ (election.run x e1 l1 rest).2.2) := by
  simp only [election.run, h]

theorem run_confirmed {Ledger : Type} (x : collaborators Ledger) (calls : List election_call) :
    ∀ (e : election) (l : Ledger), e.confirmed = true →
      (election.run x e l calls).1.confirmed = true ∧ (election.run x e l calls).2.2 = [] := by
  induction calls with
  | nil => intro e l h; exact ⟨h, rfl⟩
  | cons c rest ih =>
    intro e l h
    cases hc : e.call x l c with
    | none => rw [run_cons_none x e l c rest hc]; exact ih e l h
    | some r =>
      obtain ⟨e1, l1, p⟩ := r
      rw [run_cons_some x e l c rest e1 l1 p hc]
      obtain ⟨-, h2, -⟩ := election_call_effect x e l c e1 l1 p hc
      obtain ⟨h3, h4⟩ := h2 h
      obtain ⟨h5, h6⟩ := ih e1 l1 h3
      exact ⟨h5, by simp [h4, h6]⟩

theorem run_first_confirmation {Ledger : Type} (x : collaborators Ledger)
    (calls : List election_call) :
    ∀ (e : election) (l : Ledger),
      (election.run x e l calls).2.2 = [] ∨
      ∃ pre c post, calls = pre ++ c :: post ∧
        (election.run x e l pre).1.confirmed = false ∧
        (election.run x e l (pre ++ [c])).1.confirmed = true ∧
        (election.run x e l calls).2.2 =
          [background.confirmation e.confirmation_action
            (election.run x e l (pre ++ [c])).1.last_winner] := by
  induction calls with
  | nil => intro e l; exact Or.inl rfl
  | cons c rest ih =>
    intro e l
    cases hc : e.call x l c with
    | none =>
      rw [run_cons_none x e l c rest hc]
      rcases ih e l with h | ⟨pre, c2, post, h1, h2, h3, h4⟩
      · exact Or.inl h
      · refine Or.inr ⟨c :: pre, c2, post, by simp [h1], ?_, ?_, ?_⟩
        · rw [run_cons_none x e l c pre hc]; exact h2
        · rw [List.cons_append, run_cons_none x e l c _ hc]; exact h3
        · rw [List.cons_append, run_cons_none x e l c _ hc]; exact h4
    | some r =>
      obtain ⟨e1, l1, p⟩ := r
      rw [run_cons_some x e l c rest e1 l1 p hc]
      obtain ⟨ha, ht, hf⟩ := election_call_effect x e l c e1 l1 p hc
      cases hconf : e.confirmed with
      | true =>
        obtain ⟨h3, h4⟩ := ht hconf
        exact Or.inl (by simp [h4, (run_confirmed x rest e1 l1 h3).2])
      | false =>
        rcases hf hconf with ⟨h3, h4⟩ | ⟨h3, h4⟩
        · rcases ih e1 l1 with h | ⟨pre, c2, post, h5, h6, h7, h8⟩
          · exact Or.inl (by simp [h4, h])
          · refine Or.inr ⟨c :: pre, c2, post, by simp [h5], ?_, ?_, ?_⟩
            · rw [run_cons_some x e l c pre e1 l1 p hc]; exact h6
            · rw [List.cons_append, run_cons_some x e l c _ e1 l1 p hc]; exact h7
            · rw [List.cons_append, run_cons_some x e l c (pre ++ [c2]) e1 l1 p hc]
              simp only [h4, List.nil_append, h8, ha]
        · refine Or.inr ⟨[], c, rest, rfl, hconf, ?_, ?_⟩
          · rw [List.nil_append, run_cons_some x e l c [] e1 l1 p hc]; exact h3
          · rw [List.nil_append, run_cons_some x e l c [] e1 l1 p hc]
            simp [h4, (run_confirmed x rest e1 l1 h3).2, election.run]

/-- C10: over any sequence of vote, confirm_if_quarum, confirm_cutoff and confirm_once
calls on an election, at most one piece of work is posted; if one is posted, it is the
confirmation action with the `last_winner` the election had in the first call that set
the flag; and on an election whose flag is set, confirm_once and confirm_cutoff change
nothing and post nothing. -/
theorem C10_confirmation_at_most_once {Ledger : Type} (x : collaborators Ledger)
    (e : election) (ledger : Ledger) (calls : List election_call) :
    (election.run x e ledger calls).2.2.length ≤ 1 ∧
    ((election.run x e ledger calls).2.2 = [] ∨
      ∃ pre c post, calls = pre ++ c :: post ∧
        (election.run x e ledger pre).1.confirmed = false ∧
        (election.run x e ledger (pre ++ [c])).1.confirmed = true ∧
        (election.run x e ledger calls).2.2 =
          [background.confirmation e.confirmation_action
            (election.run x e ledger (pre ++ [c])).1.last_winner]) ∧
    (∀ e2 : election, e2.confirmed = true →
      e2.confirm_once = (e2, []) ∧ e2.confirm_cutoff = (e2, [])) := by
  have h := run_first_confirmation x calls e ledger
  refine ⟨?_, h, fun e2 h2 => ⟨confirm_once_confirmed e2 h2, confirm_once_confirmed e2 h2⟩⟩
  rcases h with h | ⟨_, _, _, _, _, _, h⟩
  · simp [h]
  · simp [h]


/-! ### Examples -/

/-- An election on `block_f1` that gets a vote for `block_f2`, then confirm_cutoff and
confirm_once: the vote replaces the winner and confirms, and the confirmation action 7
is posted once, with `block_f2`. -/
theorem election_run_example :
    (election.run toy_collaborators (election.new toy_collaborators block_f1 7 0) 0
      [.vote { account := 5, signature := 0, sequence := 1, block := block_f2 },
       .confirm_cutoff, .confirm_once]).2.2 = [background.confirmation 7 block_f2] := by
  decide

/-- Two starts on the same root leave one election, the one of the first block. -/
theorem start_twice_example :
    ((active_transactions.new.start toy_collaborators block_f1 7 0).start
      toy_collaborators block_f2 8 1).roots =
      [{ root := 1, election := election.new toy_collaborators block_f1 7 0,
         announcements := 0 }] := by
  decide

/-- A cache with `max = 2`: three blocks are added at times 1, 2, 3, the first two waiting
for hash 100 and the third for hash 200. The third add evicts the oldest record, and
`get (100)` then returns the one block still waiting for 100 and leaves the other record. -/
theorem gap_cache_example :
    (((({ blocks := [], max := 2 } : gap_cache).add toy_collaborators (sample_block 1 100) 100 1).add
        toy_collaborators (sample_block 2 100) 100 2).add
        toy_collaborators (sample_block 3 200) 200 3).blocks.map (fun i => i.hash) = [2, 3] ∧
    ((((({ blocks := [], max := 2 } : gap_cache).add toy_collaborators (sample_block 1 100) 100 1).add
        toy_collaborators (sample_block 2 100) 100 2).add
        toy_collaborators (sample_block 3 200) 200 3).get 100).1 = [sample_block 2 100] ∧
    ((((({ blocks := [], max := 2 } : gap_cache).add toy_collaborators (sample_block 1 100) 100 1).add
        toy_collaborators (sample_block 2 100) 100 2).add
        toy_collaborators (sample_block 3 200) 200 3).get 100).2.blocks.map (fun i => i.hash) = [3] := by
  decide

/-! ### Elections: recalculate_winner -/

/-- C13: when the tally is not empty, `recalculate_winner` returns; if the top block of
the tally differs from `last_winner` and its weight is above `supply / 2`, the election
afterwards has that block as `last_winner` and the ledger is the old one after
`rollback` of the old winner's hash and then `process` of the new winner; in every
other case election and ledger are unchanged. -/
theorem C13_recalculate_winner {Ledger : Type} (x : collaborators Ledger) (e : election)
    (ledger : Ledger) (winner : Nat × block) (others : List (Nat × block))
    (ht : x.tally ledger e.votes = winner :: others) :
    (winner.2 ≠ e.last_winner ∧ x.supply ledger / 2 < winner.1 →
      ∃ result, e.recalculate_winner x ledger =
        some (result, { e with last_winner := winner.2 },
          x.process (x.rollback ledger e.last_winner.hash) winner.2)) ∧
    (¬ (winner.2 ≠ e.last_winner ∧ x.supply ledger / 2 < winner.1) →
      ∃ result, e.recalculate_winner x ledger = some (result, e, ledger)) := by
  constructor
  · intro h
    have hc : (!(winner.2 == e.last_winner) && decide (winner.1 > quorum_threshold x ledger))
        = true := by
      simp [quorum_threshold, h.1, h.2]
    simp only [election.recalculate_winner, ht, hc, if_true]
    exact ⟨_, rfl⟩
  · intro h
    have hc : (!(winner.2 == e.last_winner) && decide (winner.1 > quorum_threshold x ledger))
        = false := by
      simp only [quorum_threshold, Bool.and_eq_false_imp, Bool.not_eq_true', beq_eq_false_iff_ne,
        decide_eq_false_iff_not, not_lt, gt_iff_lt]
      intro hne
      by_contra hlt
      exact h ⟨hne, by omega⟩
    simp only [election.recalculate_winner, ht, hc]
    exact ⟨_, rfl⟩

/-- Witness for C13: the election on `block_f1` holding a vote for `block_f2`; the toy
tally gives `block_f2` the weight 60 of a supply of 100. -/
theorem C13_recalculate_winner_witness :
    toy_collaborators.tally 0 election_f1_voted_f2.votes = [(60, block_f2)] ∧
    ((block_f2 ≠ election_f1_voted_f2.last_winner ∧ toy_collaborators.supply 0 / 2 < 60 →
      ∃ result, election_f1_voted_f2.recalculate_winner toy_collaborators 0 =
        some (result, { election_f1_voted_f2 with last_winner := block_f2 },
          toy_collaborators.process
            (toy_collaborators.rollback 0 election_f1_voted_f2.last_winner.hash) block_f2)) ∧
    (¬ (block_f2 ≠ election_f1_voted_f2.last_winner ∧ toy_collaborators.supply 0 / 2 < 60) →
      ∃ result, election_f1_voted_f2.recalculate_winner toy_collaborators 0 =
        some (result, election_f1_voted_f2, 0))) :=
  ⟨by decide,
   C13_recalculate_winner toy_collaborators election_f1_voted_f2 0 (60, block_f2) [] (by decide)⟩

/-! ### Active transactions: one round of announce_votes -/

theorem confirm_once_votes (e : election) : (e.confirm_once).1.votes = e.votes := by
  simp only [election.confirm_once]
  split <;> rfl

theorem confirm_once_last_winner (e : election) :
    (e.confirm_once).1.last_winner = e.last_winner := by
  simp only [election.confirm_once]
  split <;> rfl

/-- The first loop of `announce_votes`, entered with the counter at 0, runs its body for
every record of the table: the counter stays below `announcements_per_interval`. -/
theorem announce_walk_zero (l : List conflict_info) :
    announce_walk 0 l =
      (l.map announce_update,
       (l.filter announce_due).map (fun i => i.election.votes.id),
       l.flatMap announce_posted) := by
  induction l with
  | nil => rfl
  | cons i rest ih =>
    have h16 : (0 : Nat) < announcements_per_interval := by decide
    unfold announce_walk
    simp only [h16, if_true, ih]
    by_cases hd : i.announcements ≥ contigious_announcements - 1
    · have hd2 : announce_due i = true := by simp [announce_due, hd]
      simp [hd, hd2, announce_update, announce_posted, List.filter_cons,
        election.confirm_cutoff, confirm_once_votes]
    · have hd2 : announce_due i = false := by simp [announce_due, hd]
      simp [hd, hd2, announce_update, announce_posted, List.filter_cons]

/-- C12: on a table of seventeen conflicts with 3 announcements each, one call of
`announce_votes` posts `broadcast_winner` for all seventeen, the seventeenth included,
and leaves every record, the seventeenth included, with 4 announcements: no record is
skipped and none is reset to 0. -/
theorem C12_announce_votes_walks_all :
    (seventeen_conflicts.announce_votes false 0).map (fun o => o.posted) =
      some ((List.range 17).map (fun n => background.broadcast_winner (n + 1))) ∧
    (seventeen_conflicts.announce_votes false 0).map
      (fun o => o.table.roots.map (fun i => (i.root, i.announcements))) =
      some ((List.range 17).map (fun n => (n + 1, 4))) := by
  decide

theorem announce_update_root (i : conflict_info) : (announce_update i).root = i.root := by
  unfold announce_update
  split <;> rfl

theorem erase_inactive_spec (inactive : List Nat) :
    ∀ (l : List conflict_info), inactive.Nodup →
      (∀ r ∈ inactive, r ∈ l.map (fun i => i.root)) →
      erase_inactive inactive l = some (l.filter (fun i => !(inactive.contains i.root))) := by
  induction inactive with
  | nil => intro l _ _; simp [erase_inactive]
  | cons r rest ih =>
    intro l hnd hin
    have hr : l.any (fun i => i.root == r) = true := by
      have := hin r (by simp)
      obtain ⟨i, hi, hir⟩ := List.mem_map.mp this
      exact List.any_eq_true.mpr ⟨i, hi, by simp [hir]⟩
    have hnd2 := List.nodup_cons.mp hnd
    have hin2 : ∀ r2 ∈ rest, r2 ∈ (l.filter (fun i => i.root != r)).map (fun i => i.root) := by
      intro r2 hr2
      obtain ⟨i, hi, hir⟩ := List.mem_map.mp (hin r2 (by simp [hr2]))
      refine List.mem_map.mpr ⟨i, List.mem_filter.mpr ⟨hi, ?_⟩, hir⟩
      have : r2 ≠ r := fun h => hnd2.1 (h ▸ hr2)
      simp [hir, this]
    simp only [erase_inactive, hr, if_true]
    rw [ih _ hnd2.2 hin2, List.filter_filter]
    congr 1
    apply List.filter_congr
    intro i _
    by_cases h : i.root = r
    · simp [h]
    · simp [h, Ne.symm h]

/-- One call of `announce_votes` on a table that satisfies the invariant: every record
gets `broadcast_winner` posted; a record with fewer than 7 announcements stays, with one
announcement more; a record with 7 or more gets `confirm_cutoff` and is erased. -/
theorem announce_votes_spec (a : active_transactions) (test_network : Bool) (now : Nat)
    (ha : active_invariant a) :
    a.announce_votes test_network now =
      some { table := { roots := (a.roots.filter (fun i => !(announce_due i))).map announce_update },
             posted := a.roots.flatMap announce_posted,
             wakeup := if test_network then now + 10 else now + 16000 } := by
  obtain ⟨hid, hnd⟩ := ha
  have hD : (a.roots.filter announce_due).map (fun i => i.election.votes.id) =
      (a.roots.filter announce_due).map (fun i => i.root) := by
    apply List.map_congr_left
    intro i hi
    exact hid i (List.mem_filter.mp hi).1
  have hDnd : ((a.roots.filter announce_due).map (fun i => i.root)).Nodup :=
    hnd.sublist ((List.filter_sublist _).map _)
  have hmap : (a.roots.map announce_update).map (fun i => i.root) =
      a.roots.map (fun i => i.root) := by
    rw [List.map_map]
    apply List.map_congr_left
    intro i _
    exact announce_update_root i
  have hin : ∀ r ∈ (a.roots.filter announce_due).map (fun i => i.root),
      r ∈ (a.roots.map announce_update).map (fun i => i.root) := by
    intro r hr
    rw [hmap]
    exact ((List.filter_sublist _).map _).subset hr
  simp only [active_transactions.announce_votes, announce_walk_zero, hD,
    erase_inactive_spec _ _ hDnd hin]
  congr 3
  rw [List.filter_map]
  congr 1
  apply List.filter_congr
  intro i hi
  simp only [Function.comp, announce_update_root]
  by_cases hd : announce_due i = true
  · have : i.root ∈ (a.roots.filter announce_due).map (fun i => i.root) :=
      List.mem_map.mpr ⟨i, List.mem_filter.mpr ⟨hi, hd⟩, rfl⟩
    simp [hd, this]
  · have : i.root ∉ (a.roots.filter announce_due).map (fun i => i.root) := by
      intro hm
      obtain ⟨j, hj, hjr⟩ := List.mem_map.mp hm
      have hj2 := List.mem_filter.mp hj
      have := List.inj_on_of_nodup_map hnd hj2.1 hi hjr
      exact hd (this ▸ hj2.2)
    simp [hd, this]

/-! ### Active transactions: votes between the rounds -/

theorem modify_root_eq_map (root : Nat) (f : conflict_info → conflict_info)
    (l : List conflict_info) (hnd : (l.map (fun i => i.root)).Nodup) :
    modify_root root f l = l.map (fun i => if i.root == root then f i else i) := by
  induction l with
  | nil => rfl
  | cons i rest ih =>
    have hnd2 : i.root ∉ rest.map (fun i => i.root) ∧ (rest.map (fun i => i.root)).Nodup :=
      List.nodup_cons.mp hnd
    unfold modify_root
    by_cases h : i.root = root
    · have hrest : rest.map (fun i => if i.root == root then f i else i) = rest := by
        conv_rhs => rw [← List.map_id rest]
        apply List.map_congr_left
        intro j hj
        have : j.root ≠ root := by
          intro hjr
          exact hnd2.1 (List.mem_map.mpr ⟨j, hj, hjr.trans h.symm⟩)
        simp [this]
      rw [List.map_cons, hrest]
      simp [h]
    · rw [List.map_cons, ih hnd2.2]
      simp [h]

theorem active_find_mem (a : active_transactions) (root : Nat) (existing : conflict_info)
    (h : a.find root = some existing) : existing ∈ a.roots ∧ existing.root = root := by
  unfold active_transactions.find at h
  exact ⟨List.mem_of_find?_eq_some h, by simpa using List.find?_some h⟩

theorem recalculate_winner_votes {Ledger : Type} (x : collaborators Ledger) (e : election)
    (ledger : Ledger) (q : Bool) (e1 : election) (l1 : Ledger)
    (h : e.recalculate_winner x ledger = some (q, e1, l1)) : e1.votes = e.votes := by
  unfold election.recalculate_winner at h
  simp only at h
  split at h
  · simp at h
  · simp only [Option.some.injEq, Prod.mk.injEq] at h
    obtain ⟨-, h1, -⟩ := h
    subst h1
    split_ifs <;> rfl

theorem election_vote_id {Ledger : Type} (x : collaborators Ledger)
    (hid : ∀ v vote_a, (x.votes_vote v vote_a).2.id = v.id) (e : election) (ledger : Ledger)
    (vote_a : vote) (e1 : election) (l1 : Ledger) (posted : List background)
    (h : e.vote x ledger vote_a = some (e1, l1, posted)) : e1.votes.id = e.votes.id := by
  simp only [election.vote] at h
  split_ifs at h
  · simp only [election.confirm_if_quarum] at h
    split at h
    · simp at h
    · rename_i q e2 l2 hr
      have hv := recalculate_winner_votes x _ ledger q e2 l2 hr
      split_ifs at h
      · simp only [Option.some.injEq, Prod.mk.injEq] at h
        obtain ⟨h1, -, -⟩ := h
        rw [← h1, confirm_once_votes, hv]
        exact hid _ _
      · simp only [Option.some.injEq, Prod.mk.injEq] at h
        obtain ⟨h1, -, -⟩ := h
        rw [← h1, hv]
        exact hid _ _
  · simp only [Option.some.injEq, Prod.mk.injEq] at h
    obtain ⟨h1, -, -⟩ := h
    rw [← h1]
    exact hid _ _

/-- The shape of one vote event on a table that satisfies the invariant: either nothing
changes and nothing is posted, or the election of the record stored under the root of
the vote's block is replaced by the outcome of `election::vote` on it. -/
theorem vote_round_shape {Ledger : Type} (x : collaborators Ledger)
    (hid : ∀ v vote_a, (x.votes_vote v vote_a).2.id = v.id)
    (a : active_transactions) (ledger : Ledger) (vote_a : vote) (ha : active_invariant a) :
    ((a.round x ledger (.vote vote_a)).1 = a ∧ (a.round x ledger (.vote vote_a)).2.2 = []) ∨
    ∃ existing ∈ a.roots, existing.root = vote_a.block.root ∧ ∃ e1,
      call_effect existing.election e1 (a.round x ledger (.vote vote_a)).2.2 ∧
      e1.votes.id = existing.election.votes.id ∧
      (a.round x ledger (.vote vote_a)).1.roots =
        a.roots.map (fun i => if i.root == existing.root then { i with election := e1 } else i) := by
  cases hf : a.find vote_a.block.root with
  | none =>
    simp [active_transactions.round, active_transactions.vote, hf]
  | some existing =>
    obtain ⟨hm, hr⟩ := active_find_mem a _ existing hf
    cases hv : existing.election.vote x ledger vote_a with
    | none =>
      simp [active_transactions.round, active_transactions.vote, hf, hv]
    | some res =>
      obtain ⟨e1, l1, posted⟩ := res
      simp only [active_transactions.round, active_transactions.vote, hf, hv]
      refine Or.inr ⟨existing, hm, hr, e1, ?_, ?_, ?_⟩
      · exact election_call_effect x existing.election ledger (.vote vote_a) e1 l1 posted hv
      · exact election_vote_id x hid existing.election ledger vote_a e1 l1 posted hv
      · rw [modify_root_eq_map _ _ _ ha.2, hr]

theorem map_election_invariant (a : active_transactions) (existing : conflict_info)
    (e1 : election) (hm : existing ∈ a.roots) (hid : e1.votes.id = existing.election.votes.id)
    (ha : active_invariant a) :
    active_invariant { roots := a.roots.map (fun i =>
      if i.root == existing.root then { i with election := e1 } else i) } := by
  constructor
  · intro j hj
    obtain ⟨i, hi, rfl⟩ := List.mem_map.mp hj
    by_cases h : i.root = existing.root
    · simp only [h, beq_self_eq_true, if_true]
      rw [hid, ha.1 existing hm]
    · simp only [beq_iff_eq, h, if_false]
      exact ha.1 i hi
  · have : (a.roots.map (fun i =>
        if i.root == existing.root then { i with election := e1 } else i)).map
        (fun i => i.root) = a.roots.map (fun i => i.root) := by
      rw [List.map_map]
      apply List.map_congr_left
      intro i _
      simp only [Function.comp]
      split <;> rfl
    simp only [this]
    exact ha.2

theorem filter_root_single (l : List conflict_info)
    (hnd : (l.map (fun i => i.root)).Nodup) (j : conflict_info) (hj : j ∈ l) :
    l.filter (fun i => i.root == j.root) = [j] := by
  induction l with
  | nil => simp at hj
  | cons a rest ih =>
    have hnd2 : a.root ∉ rest.map (fun i => i.root) ∧ (rest.map (fun i => i.root)).Nodup :=
      List.nodup_cons.mp hnd
    rcases List.mem_cons.mp hj with rfl | hj
    · have hnone : rest.filter (fun i => i.root == j.root) = [] := by
        rw [List.filter_eq_nil_iff]
        intro k hk hke
        exact hnd2.1 (List.mem_map.mpr ⟨k, hk, by simpa using hke⟩)
      simp [List.filter_cons, hnone]
    · have hne : a.root ≠ j.root := by
        intro h
        exact hnd2.1 (List.mem_map.mpr ⟨j, hj, h.symm⟩)
      simp [List.filter_cons, hne, ih hnd2.2 hj]

theorem filter_root_none (l : List conflict_info) (r : Nat) (h : ∀ j ∈ l, j.root ≠ r) :
    l.filter (fun i => i.root == r) = [] := by
  rw [List.filter_eq_nil_iff]
  intro j hj hjr
  exact h j hj (by simpa using hjr)

/-- A vote event keeps the tracked election in the table with the same announcements and
posts nothing for it, provided the election stays unconfirmed. -/
theorem vote_tracked {Ledger : Type} (x : collaborators Ledger)
    (hid : ∀ v vote_a, (x.votes_vote v vote_a).2.id = v.id)
    (a : active_transactions) (ledger : Ledger) (vote_a : vote) (r action m : Nat)
    (ht : tracked a r action m)
    (hq : ∀ j ∈ (a.round x ledger (.vote vote_a)).1.roots, j.root = r →
      j.election.confirmed = false) :
    tracked (a.round x ledger (.vote vote_a)).1 r action m ∧
    a.round_posted x ledger r (.vote vote_a) = [] := by
  obtain ⟨ha, j, hj, hjr, hjm, hjc, hja⟩ := ht
  rcases vote_round_shape x hid a ledger vote_a ha with
    ⟨h1, h2⟩ | ⟨existing, hm, hroot, e1, heff, hvid, hroots⟩
  · refine ⟨by rw [h1]; exact ⟨ha, j, hj, hjr, hjm, hjc, hja⟩, ?_⟩
    simp only [active_transactions.round_posted, h2]
    split <;> rfl
  · have hinv := map_election_invariant a existing e1 hm hvid ha
    rw [← hroots] at hinv
    by_cases hex : existing.root = r
    · have hej : existing = j := List.inj_on_of_nodup_map ha.2 hm hj (hex.trans hjr.symm)
      subst hej
      have hmem : ({ existing with election := e1 } : conflict_info) ∈
          (a.round x ledger (.vote vote_a)).1.roots := by
        rw [hroots]
        exact List.mem_map.mpr ⟨existing, hm, by simp⟩
      have he1 : e1.confirmed = false := hq _ hmem hex
      obtain ⟨hact, -, hf⟩ := heff
      have hp : (a.round x ledger (.vote vote_a)).2.2 = [] := by
        rcases hf hjc with ⟨-, hp⟩ | ⟨hc, -⟩
        · exact hp
        · rw [he1] at hc; cases hc
      refine ⟨⟨hinv, _, hmem, hex, hjm, he1, hact.trans hja⟩, ?_⟩
      simp only [active_transactions.round_posted, hp]
      split <;> rfl
    · refine ⟨⟨hinv, j, ?_, hjr, hjm, hjc, hja⟩, ?_⟩
      · rw [hroots]
        refine List.mem_map.mpr ⟨j, hj, ?_⟩
        have : j.root ≠ existing.root := fun h => hex (h.symm.trans hjr)
        simp [this]
      · have hne : vote_a.block.root ≠ r := fun h => hex (hroot.trans h)
        simp [active_transactions.round_posted, hne]

/-- Once the election is gone, a vote event does not bring it back and posts nothing
for its root. -/
theorem vote_gone {Ledger : Type} (x : collaborators Ledger)
    (hid : ∀ v vote_a, (x.votes_vote v vote_a).2.id = v.id)
    (a : active_transactions) (ledger : Ledger) (vote_a : vote) (r : Nat)
    (hg : gone a r) :
    gone (a.round x ledger (.vote vote_a)).1 r ∧
    a.round_posted x ledger r (.vote vote_a) = [] := by
  obtain ⟨ha, hroot⟩ := hg
  rcases vote_round_shape x hid a ledger vote_a ha with
    ⟨h1, h2⟩ | ⟨existing, hm, hex, e1, heff, hvid, hroots⟩
  · refine ⟨by rw [h1]; exact ⟨ha, hroot⟩, ?_⟩
    simp only [active_transactions.round_posted, h2]
    split <;> rfl
  · have hinv := map_election_invariant a existing e1 hm hvid ha
    rw [← hroots] at hinv
    refine ⟨⟨hinv, ?_⟩, ?_⟩
    · intro i hi
      rw [hroots] at hi
      obtain ⟨i0, hi0, rfl⟩ := List.mem_map.mp hi
      have := hroot i0 hi0
      split <;> exact this
    · have hne : vote_a.block.root ≠ r := fun h => hroot existing hm (hex.trans h)
      simp [active_transactions.round_posted, hne]

/-! ### Active transactions: the announcement cap -/

theorem announce_round_eq {Ledger : Type} (x : collaborators Ledger)
    (a : active_transactions) (ledger : Ledger) (test_network : Bool) (now : Nat)
    (ha : active_invariant a) :
    a.round x ledger (.announce_votes test_network now) =
      ({ roots := (a.roots.filter (fun i => !(announce_due i))).map announce_update },
       ledger, a.roots.flatMap announce_posted) := by
  simp only [active_transactions.round, announce_votes_spec a test_network now ha]

theorem announce_update_not_due (i : conflict_info) (h : announce_due i = false) :
    announce_update i = { i with announcements := i.announcements + 1 } := by
  simp [announce_update, h]

theorem announce_invariant (a : active_transactions) (ha : active_invariant a) :
    active_invariant
      { roots := (a.roots.filter (fun i => !(announce_due i))).map announce_update } := by
  constructor
  · intro j hj
    obtain ⟨i, hi, rfl⟩ := List.mem_map.mp hj
    obtain ⟨hi1, hi2⟩ := List.mem_filter.mp hi
    rw [announce_update_not_due i (by simpa using hi2)]
    exact ha.1 i hi1
  · have : ((a.roots.filter (fun i => !(announce_due i))).map announce_update).map
        (fun i => i.root) = (a.roots.filter (fun i => !(announce_due i))).map
        (fun i => i.root) := by
      rw [List.map_map]
      apply List.map_congr_left
      intro i _
      exact announce_update_root i
    simp only [this]
    exact ha.2.sublist ((List.filter_sublist _).map _)

/-- What a round of `announce_votes` posts for the election under root `r`, on a table
that satisfies the invariant. -/
theorem announce_round_posted {Ledger : Type} (x : collaborators Ledger)
    (a : active_transactions) (ledger : Ledger) (test_network : Bool) (now : Nat) (r : Nat)
    (ha : active_invariant a) :
    a.round_posted x ledger r (.announce_votes test_network now) =
      (a.roots.filter (fun i => i.root == r)).flatMap announce_posted := by
  simp only [active_transactions.round_posted, announce_votes_spec a test_network now ha]

/-- A round of `announce_votes` on an election with fewer than 7 announcements keeps it
in the table with one announcement more and posts no confirmation for it. -/
theorem announce_tracked_lt {Ledger : Type} (x : collaborators Ledger)
    (a : active_transactions) (ledger : Ledger) (test_network : Bool) (now : Nat)
    (r action m : Nat) (ht : tracked a r action m) (hm : m < 7) :
    tracked (a.round x ledger (.announce_votes test_network now)).1 r action (m + 1) ∧
    (a.round_posted x ledger r (.announce_votes test_network now)).filter
      is_confirmation = [] := by
  obtain ⟨ha, j, hj, hjr, hjm, hjc, hja⟩ := ht
  rw [announce_round_eq x a ledger test_network now ha,
    announce_round_posted x a ledger test_network now r ha]
  have hjd : announce_due j = false := by
    simp [announce_due, contigious_announcements, hjm]; omega
  refine ⟨⟨announce_invariant a ha, announce_update j, ?_, ?_, ?_, ?_, ?_⟩, ?_⟩
  · exact List.mem_map.mpr ⟨j, List.mem_filter.mpr ⟨hj, by simp [hjd]⟩, rfl⟩
  · rw [announce_update_root]; exact hjr
  · rw [announce_update_not_due j hjd]; simp [hjm]
  · rw [announce_update_not_due j hjd]; exact hjc
  · rw [announce_update_not_due j hjd]; exact hja
  · rw [← hjr, filter_root_single a.roots ha.2 j hj]
    simp [announce_posted, hjd, is_confirmation]

/-- The round of `announce_votes` that finds the election with 7 announcements erases it
and posts its confirmation action for it exactly once, with its `last_winner`. -/
theorem announce_tracked_cap {Ledger : Type} (x : collaborators Ledger)
    (a : active_transactions) (ledger : Ledger) (test_network : Bool) (now : Nat)
    (r action : Nat) (ht : tracked a r action 7) :
    gone (a.round x ledger (.announce_votes test_network now)).1 r ∧
    ∃ j ∈ a.roots, j.root = r ∧
      (a.round_posted x ledger r (.announce_votes test_network now)).filter
        is_confirmation = [background.confirmation action j.election.last_winner] := by
  obtain ⟨ha, j, hj, hjr, hjm, hjc, hja⟩ := ht
  rw [announce_round_eq x a ledger test_network now ha,
    announce_round_posted x a ledger test_network now r ha]
  have hjd : announce_due j = true := by
    simp [announce_due, contigious_announcements, hjm]
  have hne : ∀ i ∈ a.roots.filter (fun i => !(announce_due i)), i.root ≠ r := by
    intro i hi hir
    obtain ⟨hi1, hi2⟩ := List.mem_filter.mp hi
    have : i = j := List.inj_on_of_nodup_map ha.2 hi1 hj (hir.trans hjr.symm)
    subst this
    simp [hjd] at hi2
  refine ⟨⟨announce_invariant a ha, ?_⟩, j, hj, hjr, ?_⟩
  · intro i hi
    obtain ⟨i0, hi0, rfl⟩ := List.mem_map.mp hi
    rw [announce_update_root]
    exact hne i0 hi0
  · rw [← hjr, filter_root_single a.roots ha.2 j hj]
    simp [announce_posted, hjd, election.confirm_cutoff,
      confirm_once_unconfirmed j.election hjc, is_confirmation, hja]

/-- Once the election is gone, a round of `announce_votes` does not bring it back and
posts nothing for its root. -/
theorem announce_gone {Ledger : Type} (x : collaborators Ledger)
    (a : active_transactions) (ledger : Ledger) (test_network : Bool) (now : Nat)
    (r : Nat) (hg : gone a r) :
    gone (a.round x ledger (.announce_votes test_network now)).1 r ∧
    a.round_posted x ledger r (.announce_votes test_network now) = [] := by
  obtain ⟨ha, hroot⟩ := hg
  rw [announce_round_eq x a ledger test_network now ha,
    announce_round_posted x a ledger test_network now r ha]
  refine ⟨⟨announce_invariant a ha, ?_⟩, ?_⟩
  · intro i hi
    obtain ⟨i0, hi0, rfl⟩ := List.mem_map.mp hi
    rw [announce_update_root]
    exact hroot i0 (List.mem_filter.mp hi0).1
  · rw [filter_root_none a.roots r hroot]
    rfl

theorem rounds_cons {Ledger : Type} (x : collaborators Ledger) (a : active_transactions)
    (ledger : Ledger) (c : round_call) (rest : List round_call) :
    a.rounds x ledger (c :: rest) =
      (((a.round x ledger c).1.rounds x (a.round x ledger c).2.1 rest).1,
       ((a.round x ledger c).1.rounds x (a.round x ledger c).2.1 rest).2.1,
       (a.round x ledger c).2.2 ++
         ((a.round x ledger c).1.rounds x (a.round x ledger c).2.1 rest).2.2) := rfl

theorem rounds_single {Ledger : Type} (x : collaborators Ledger) (a : active_transactions)
    (ledger : Ledger) (c : round_call) :
    (a.rounds x ledger [c]).1 = (a.round x ledger c).1 := rfl

theorem announce_count_cons (c : round_call) (rest : List round_call) :
    announce_count (c :: rest) = (if c.is_announce then 1 else 0) + announce_count rest := by
  unfold announce_count
  rw [List.filter_cons]
  split
  · simp only [List.length_cons]; omega
  · simp

theorem no_confirming_vote_tail {Ledger : Type} (x : collaborators Ledger)
    (a : active_transactions) (ledger : Ledger) (r : Nat) (c : round_call)
    (rest : List round_call) (h : no_confirming_vote x a ledger r (c :: rest)) :
    no_confirming_vote x (a.round x ledger c).1 (a.round x ledger c).2.1 r rest := by
  intro pre vote_a post hrest j hj hjr
  refine h (c :: pre) vote_a post (by rw [hrest]; rfl) j ?_ hjr
  rw [List.cons_append, rounds_cons]
  exact hj

theorem rounds_posted_cons {Ledger : Type} (x : collaborators Ledger)
    (a : active_transactions) (ledger : Ledger) (r : Nat) (c : round_call)
    (rest : List round_call) :
    a.rounds_posted x ledger r (c :: rest) =
      a.round_posted x ledger r c ++
        (a.round x ledger c).1.rounds_posted x (a.round x ledger c).2.1 r rest := rfl

theorem rounds_gone {Ledger : Type} (x : collaborators Ledger)
    (hid : ∀ v vote_a, (x.votes_vote v vote_a).2.id = v.id) (r : Nat)
    (calls : List round_call) :
    ∀ (a : active_transactions) (ledger : Ledger), gone a r →
      gone (a.rounds x ledger calls).1 r ∧ a.rounds_posted x ledger r calls = [] := by
  induction calls with
  | nil => intro a ledger hg; exact ⟨hg, rfl⟩
  | cons c rest ih =>
    intro a ledger hg
    have hstep : gone (a.round x ledger c).1 r ∧ a.round_posted x ledger r c = [] := by
      cases c with
      | announce_votes t now => exact announce_gone x a ledger t now r hg
      | vote v => exact vote_gone x hid a ledger v r hg
    obtain ⟨h1, h2⟩ := ih _ (a.round x ledger c).2.1 hstep.1
    rw [rounds_cons, rounds_posted_cons, hstep.2, h2]
    exact ⟨h1, rfl⟩

/-- The life of a tracked election with `m` announcements behind it: it stays in the table
as long as at most 7 rounds have passed in all, and the round that finds it with 7
announcements erases it and posts its confirmation action for it, exactly once over all
events. -/
theorem rounds_tracked {Ledger : Type} (x : collaborators Ledger)
    (hid : ∀ v vote_a, (x.votes_vote v vote_a).2.id = v.id) (r action : Nat)
    (calls : List round_call) :
    ∀ (a : active_transactions) (ledger : Ledger) (m : Nat), m ≤ 7 → tracked a r action m →
      no_confirming_vote x a ledger r calls →
      (∀ pre post, calls = pre ++ post → m + announce_count pre ≤ 7 →
        ∃ j ∈ (a.rounds x ledger pre).1.roots, j.root = r ∧
          j.announcements = m + announce_count pre) ∧
      (m + announce_count calls = 8 →
        (∀ j ∈ (a.rounds x ledger calls).1.roots, j.root ≠ r) ∧
        ∃ pre test_network now post j,
          calls = pre ++ round_call.announce_votes test_network now :: post ∧
          m + announce_count pre = 7 ∧
          j ∈ (a.rounds x ledger pre).1.roots ∧ j.root = r ∧
          (a.rounds_posted x ledger r calls).filter is_confirmation =
            [background.confirmation action j.election.last_winner]) := by
  induction calls with
  | nil =>
    intro a ledger m hm ht _
    obtain ⟨-, j, hj, hjr, hjm, -, -⟩ := ht
    constructor
    · intro pre post hpp _
      have hpre : pre = [] := (List.append_eq_nil.mp hpp.symm).1
      subst hpre
      exact ⟨j, hj, hjr, by simp [announce_count, hjm]⟩
    · intro h8
      simp [announce_count] at h8
      omega
  | cons c rest ih =>
    intro a ledger m hm ht hq
    have hj0 := ht.2
    have hqt := no_confirming_vote_tail x a ledger r c rest hq
    cases c with
    | vote v =>
      have hqv : ∀ j ∈ (a.round x ledger (.vote v)).1.roots, j.root = r →
          j.election.confirmed = false := by
        intro j hj hjr
        exact hq [] v rest rfl j (by rw [List.nil_append, rounds_single]; exact hj) hjr
      obtain ⟨hst, hsp⟩ := vote_tracked x hid a ledger v r action m ht hqv
      obtain ⟨ih1, ih2⟩ := ih _ (a.round x ledger (.vote v)).2.1 m hm hst hqt
      constructor
      · intro pre post hpp hle
        cases pre with
        | nil =>
          obtain ⟨j, hj, hjr, hjm, -, -⟩ := hj0
          exact ⟨j, hj, hjr, by simp [announce_count, hjm]⟩
        | cons c2 pre2 =>
          simp only [List.cons_append, List.cons.injEq] at hpp
          obtain ⟨hc2, hrest⟩ := hpp
          subst hc2
          rw [announce_count_cons] at hle ⊢
          simp only [round_call.is_announce, Bool.false_eq_true, if_false, Nat.zero_add] at hle ⊢
          rw [rounds_cons]
          exact ih1 pre2 post hrest hle
      · intro h8
        rw [announce_count_cons] at h8
        simp only [round_call.is_announce, Bool.false_eq_true, if_false, Nat.zero_add] at h8
        obtain ⟨hg, pre, t, now, post, j, hcalls, h7, hj, hjr, hf⟩ := ih2 h8
        rw [rounds_cons]
        refine ⟨hg, round_call.vote v :: pre, t, now, post, j, by rw [hcalls]; rfl, ?_, ?_, hjr, ?_⟩
        · rw [announce_count_cons]
          simpa [round_call.is_announce] using h7
        · rw [rounds_cons]; exact hj
        · rw [rounds_posted_cons, hsp, List.nil_append]; exact hf
    | announce_votes t now =>
      by_cases hm7 : m < 7
      · obtain ⟨hst, hsp⟩ := announce_tracked_lt x a ledger t now r action m ht hm7
        obtain ⟨ih1, ih2⟩ := ih _ (a.round x ledger (.announce_votes t now)).2.1 (m + 1)
          (by omega) hst hqt
        constructor
        · intro pre post hpp hle
          cases pre with
          | nil =>
            obtain ⟨j, hj, hjr, hjm, -, -⟩ := hj0
            exact ⟨j, hj, hjr, by simp [announce_count, hjm]⟩
          | cons c2 pre2 =>
            simp only [List.cons_append, List.cons.injEq] at hpp
            obtain ⟨hc2, hrest⟩ := hpp
            subst hc2
            rw [announce_count_cons] at hle ⊢
            simp only [round_call.is_announce, if_true] at hle ⊢
            rw [rounds_cons]
            obtain ⟨j, hj, hjr, hjm⟩ := ih1 pre2 post hrest (by omega)
            exact ⟨j, hj, hjr, by omega⟩
        · intro h8
          rw [announce_count_cons] at h8
          simp only [round_call.is_announce, if_true] at h8
          obtain ⟨hg, pre, t2, now2, post, j, hcalls, h7, hj, hjr, hf⟩ := ih2 (by omega)
          rw [rounds_cons]
          refine ⟨hg, round_call.announce_votes t now :: pre, t2, now2, post, j,
            by rw [hcalls]; rfl, ?_, ?_, hjr, ?_⟩
          · rw [announce_count_cons]
            simp only [round_call.is_announce, if_true]
            omega
          · rw [rounds_cons]; exact hj
          · rw [rounds_posted_cons, List.filter_append, hsp, List.nil_append]; exact hf
      · have hm7e : m = 7 := by omega
        subst hm7e
        obtain ⟨hg, j, hj, hjr, hf⟩ := announce_tracked_cap x a ledger t now r action ht
        obtain ⟨hg2, hf2⟩ := rounds_gone x hid r rest _
          (a.round x ledger (.announce_votes t now)).2.1 hg
        constructor
        · intro pre post hpp hle
          cases pre with
          | nil =>
            obtain ⟨j, hj, hjr, hjm, -, -⟩ := hj0
            exact ⟨j, hj, hjr, by simp [announce_count, hjm]⟩
          | cons c2 pre2 =>
            simp only [List.cons_append, List.cons.injEq] at hpp
            obtain ⟨hc2, -⟩ := hpp
            subst hc2
            rw [announce_count_cons] at hle
            simp only [round_call.is_announce, if_true] at hle
            omega
        · intro _
          rw [rounds_cons]
          refine ⟨hg2.2, [], t, now, rest, j, rfl, by simp [announce_count], hj, hjr, ?_⟩
          rw [rounds_posted_cons, List.filter_append, hf, hf2]
          rfl

theorem flatMap_congr_mem {α β : Type} (l : List α) (f g : α → List β)
    (h : ∀ i ∈ l, f i = g i) : l.flatMap f = l.flatMap g := by
  induction l with
  | nil => rfl
  | cons i rest ih =>
    rw [List.flatMap_cons, List.flatMap_cons, h i (by simp),
      ih (fun j hj => h j (by simp [hj]))]

theorem flatMap_root_select (posted : List background) (r : Nat) :
    ∀ (l : List conflict_info), (l.map (fun i => i.root)).Nodup →
      l.flatMap (fun k => if r == k.root then posted else []) =
        if r ∈ l.map (fun i => i.root) then posted else [] := by
  intro l
  induction l with
  | nil => intro _; rfl
  | cons a rest ih =>
    intro hnd
    have hnd2 : a.root ∉ rest.map (fun i => i.root) ∧ (rest.map (fun i => i.root)).Nodup :=
      List.nodup_cons.mp hnd
    rw [List.flatMap_cons, ih hnd2.2]
    by_cases h : r = a.root
    · subst h
      simp [hnd2.1]
    · have h2 : a.root ≠ r := fun e => h e.symm
      simp [h, h2]

/-- The work an event posts is the work it posts for the elections of the table, taken
in the order of the table. -/
theorem round_posted_partition {Ledger : Type} (x : collaborators Ledger)
    (a : active_transactions) (ledger : Ledger) (c : round_call) (ha : active_invariant a) :
    (a.round x ledger c).2.2 = a.roots.flatMap (fun k => a.round_posted x ledger k.root c) := by
  cases c with
  | announce_votes t now =>
    rw [announce_round_eq x a ledger t now ha]
    apply flatMap_congr_mem
    intro k hk
    rw [announce_round_posted x a ledger t now k.root ha, filter_root_single a.roots ha.2 k hk]
    simp
  | vote v =>
    have hfun : (fun k : conflict_info => a.round_posted x ledger k.root (.vote v)) =
        fun k => if v.block.root == k.root then (a.round x ledger (.vote v)).2.2 else [] := rfl
    rw [hfun, flatMap_root_select _ _ a.roots ha.2]
    split
    · rfl
    · rename_i hno
      cases hf : a.find v.block.root with
      | none => simp [active_transactions.round, active_transactions.vote, hf]
      | some existing =>
        obtain ⟨hm, hr⟩ := active_find_mem a _ existing hf
        exact absurd (List.mem_map.mpr ⟨existing, hm, hr⟩) hno

/-- C11: an election that is in the table with 0 announcements and not confirmed, under
any sequence of events with exactly 8 calls of `announce_votes` and any votes in between
that do not confirm it, whatever other elections the table holds and whether or not
they have the same confirmation action: it is still in `roots` (with as many
announcements as rounds have passed) after every part of the sequence that holds at most
7 rounds, it is not in `roots` at the end, and over the whole sequence the work posted
for it holds exactly one call of a confirmation action, its own, posted by the 8th round
with the `last_winner` it has when that round starts. The work an event posts is the
work posted for the elections of the table, one after the other. The table satisfies the
invariant and `votes::vote` keeps the root the votes are about. -/
theorem C11_announcement_cap {Ledger : Type} (x : collaborators Ledger)
    (hid : ∀ v vote_a, (x.votes_vote v vote_a).2.id = v.id)
    (a : active_transactions) (ledger : Ledger) (i : conflict_info)
    (calls : List round_call)
    (ha : active_invariant a) (hi : i ∈ a.roots) (h0 : i.announcements = 0)
    (hc : i.election.confirmed = false)
    (hq : no_confirming_vote x a ledger i.root calls)
    (h8 : announce_count calls = 8) :
    (∀ pre post, calls = pre ++ post → announce_count pre ≤ 7 →
      ∃ j ∈ (a.rounds x ledger pre).1.roots, j.root = i.root ∧
        j.announcements = announce_count pre) ∧
    (∀ j ∈ (a.rounds x ledger calls).1.roots, j.root ≠ i.root) ∧
    (∃ pre test_network now post j,
      calls = pre ++ round_call.announce_votes test_network now :: post ∧
      announce_count pre = 7 ∧
      j ∈ (a.rounds x ledger pre).1.roots ∧ j.root = i.root ∧
      (a.rounds_posted x ledger i.root calls).filter is_confirmation =
        [background.confirmation i.election.confirmation_action j.election.last_winner]) ∧
    (∀ (b : active_transactions) (l : Ledger) (c : round_call), active_invariant b →
      (b.round x l c).2.2 = b.roots.flatMap (fun k => b.round_posted x l k.root c)) := by
  have ht : tracked a i.root i.election.confirmation_action 0 :=
    ⟨ha, i, hi, rfl, h0, hc, rfl⟩
  obtain ⟨h1, h2⟩ := rounds_tracked x hid i.root i.election.confirmation_action calls a ledger 0
    (by omega) ht hq
  refine ⟨?_, ?_, ?_, fun b l c hb => round_posted_partition x b l c hb⟩
  · intro pre post hpp hle
    obtain ⟨j, hj, hjr, hjm⟩ := h1 pre post hpp (by omega)
    exact ⟨j, hj, hjr, by omega⟩
  · exact (h2 (by omega)).1
  · obtain ⟨-, pre, t, now, post, j, hcalls, h7, hj, hjr, hf⟩ := h2 (by omega)
    exact ⟨pre, t, now, post, j, hcalls, by omega, hj, hjr, hf⟩

/-! ### Elections: a fork resolved by votes -/

theorem quiet_check_sound {Ledger : Type} (x : collaborators Ledger) (r : Nat)
    (calls : List round_call) :
    ∀ (a : active_transactions) (ledger : Ledger), quiet_check x r a ledger calls = true →
      no_confirming_vote x a ledger r calls := by
  induction calls with
  | nil =>
    intro a ledger _ pre v post h
    exact absurd h (by simp)
  | cons c rest ih =>
    intro a ledger hcheck pre v post hsplit j hj hjr
    simp only [quiet_check, Bool.and_eq_true] at hcheck
    obtain ⟨h1, h2⟩ := hcheck
    cases pre with
    | nil =>
      simp only [List.nil_append, List.cons.injEq] at hsplit
      obtain ⟨hc, -⟩ := hsplit
      subst hc
      rw [List.nil_append, rounds_single] at hj
      have h3 := h1
      simp only [round_call.is_announce, Bool.false_or] at h3
      have := List.all_eq_true.mp h3 j hj
      simpa [hjr] using this
    | cons c2 pre2 =>
      simp only [List.cons_append, List.cons.injEq] at hsplit
      obtain ⟨hc, hrest⟩ := hsplit
      subst hc
      rw [List.cons_append, rounds_cons] at hj
      exact ih _ _ h2 pre2 v post hrest j hj hjr

theorem spec_votes_vote_id (v : votes) (vote_a : vote) :
    (spec_votes_vote v vote_a).2.id = v.id := by
  unfold spec_votes_vote
  split
  · rfl
  · split <;> rfl

/-- Witness for C11: two elections with the same confirmation action 7, started on
`block_f1` (root 1) and on a block of root 2; three rounds, then the votes of the three
representatives for `block_f2` (which replace the winner of the first election without
confirming it), then five more rounds. Both elections are gone after the 8th round; all
the work posted holds two calls of action 7, and the work posted for root 1 holds one,
with `block_f2`. -/
theorem C11_announcement_cap_witness :
    active_invariant spec_table_two ∧
    spec_table_two.roots.map (fun i =>
      (i.root, i.announcements, i.election.confirmed, i.election.confirmation_action)) =
      [(1, 0, false, 7), (2, 0, false, 7)] ∧
    announce_count rounds_with_votes = 8 ∧
    quiet_check (spec_collaborators three_reps_weight 100 0) 1 spec_table_two []
      rounds_with_votes = true ∧
    (∀ j ∈ (spec_table_two.rounds (spec_collaborators three_reps_weight 100 0) []
      rounds_with_votes).1.roots, j.root ≠ 1) ∧
    (spec_table_two.rounds (spec_collaborators three_reps_weight 100 0) []
      rounds_with_votes).2.2.filter is_confirmation =
      [background.confirmation 7 block_f2, background.confirmation 7 (sample_block 21 2)] ∧
    (spec_table_two.rounds_posted (spec_collaborators three_reps_weight 100 0) [] 1
      rounds_with_votes).filter is_confirmation = [background.confirmation 7 block_f2] :=
  ⟨by unfold active_invariant; decide, by decide, by decide, by decide,
   (C11_announcement_cap (spec_collaborators three_reps_weight 100 0)
     (fun v vote_a => spec_votes_vote_id v vote_a) spec_table_two []
     { root := 1, election := election.new (spec_collaborators three_reps_weight 100 0)
         block_f1 7 0, announcements := 0 }
     rounds_with_votes (by unfold active_invariant; decide) (by decide) rfl rfl
     (quiet_check_sound _ 1 rounds_with_votes spec_table_two [] (by decide))
     (by decide)).2.1,
   by decide, by decide⟩

/-! ### Alarm -/

theorem alarm_top_spec : ∀ (l : List operation) (t : operation), alarm_top l = some t →
    t ∈ l ∧ ∀ q ∈ l, t.wakeup ≤ q.wakeup := by
  intro l
  induction l with
  | nil => intro t h; simp [alarm_top] at h
  | cons o rest ih =>
    intro t h
    unfold alarm_top at h
    cases hr : alarm_top rest with
    | none =>
      simp only [hr, Option.some.injEq] at h
      subst h
      cases rest with
      | nil => simp
      | cons o2 rest2 =>
        exfalso
        unfold alarm_top at hr
        cases h2 : alarm_top rest2 with
        | none => simp [h2] at hr
        | some t2 =>
          simp only [h2] at hr
          split at hr <;> simp at hr
    | some t2 =>
      obtain ⟨hm, hmin⟩ := ih t2 hr
      simp only [hr] at h
      by_cases hg : o.gt t2 = true
      · simp only [hg, if_true, Option.some.injEq] at h
        subst h
        have hlt : t2.wakeup < o.wakeup := by simpa [operation.gt] using hg
        refine ⟨by simp [hm], ?_⟩
        intro q hq
        rcases List.mem_cons.mp hq with rfl | hq
        · omega
        · exact hmin q hq
      · simp only [hg, Bool.false_eq_true, if_false, Option.some.injEq] at h
        subst h
        have hle : o.wakeup ≤ t2.wakeup := by simpa [operation.gt] using hg
        refine ⟨by simp, ?_⟩
        intro q hq
        rcases List.mem_cons.mp hq with rfl | hq
        · exact le_refl _
        · exact le_trans hle (hmin q hq)

theorem alarm_top_some (l : List operation) (h : l ≠ []) : ∃ t, alarm_top l = some t := by
  cases l with
  | nil => exact absurd rfl h
  | cons o rest =>
    unfold alarm_top
    cases alarm_top rest with
    | none => exact ⟨o, rfl⟩
    | some t2 =>
      simp only
      split
      · exact ⟨t2, rfl⟩
      · exact ⟨o, rfl⟩

/-- What is true of a posting: the task is not null, it is due, and no queued operation
has an earlier wakeup. -/
theorem run_round_posting (a : alarm) (now : Nat) (p : posting)
    (hp : p ∈ (a.run_round now).2) :
    p.operation.function ≠ none ∧ p.operation.wakeup ≤ p.now ∧ p.operation ∈ p.queued ∧
    ∀ q ∈ p.queued, p.operation.wakeup ≤ q.wakeup := by
  unfold alarm.run_round at hp
  split at hp
  · simp at hp
  · split at hp
    · simp at hp
    · rename_i operation htop
      obtain ⟨hm, hmin⟩ := alarm_top_spec _ _ htop
      split at hp
      · rename_i f hf
        split at hp
        · rename_i hdue
          simp only [List.mem_singleton] at hp
          subst hp
          exact ⟨by simp [hf], hdue, hm, hmin⟩
        · simp at hp
      · simp at hp

theorem events_postings (events : List alarm_event) :
    ∀ (a : alarm) (p : posting), p ∈ (a.events events).2 →
      p.operation.function ≠ none ∧ p.operation.wakeup ≤ p.now ∧ p.operation ∈ p.queued ∧
      ∀ q ∈ p.queued, p.operation.wakeup ≤ q.wakeup := by
  induction events with
  | nil => intro a p hp; simp [alarm.events] at hp
  | cons e rest ih =>
    intro a p hp
    simp only [alarm.events, List.mem_append] at hp
    rcases hp with hp | hp
    · cases e with
      | add w f => simp [alarm.event] at hp
      | run now => exact run_round_posting a now p hp
    · exact ih _ p hp

theorem events_add_cons (a : alarm) (w : Nat) (f : Option Nat) (rest : List alarm_event) :
    a.events (alarm_event.add w f :: rest) = (a.add w f).events rest := by
  simp only [alarm.events, alarm.event, List.nil_append]

theorem events_adds (tasks : List operation) (rest : List alarm_event) :
    ∀ (a : alarm), a.events (tasks.map (fun t => alarm_event.add t.wakeup t.function) ++ rest) =
      ({ a with operations := a.operations ++ tasks } : alarm).events rest := by
  induction tasks with
  | nil => intro a; simp
  | cons t tasks ih =>
    intro a
    rw [List.map_cons, List.cons_append, events_add_cons, ih]
    simp [alarm.add]

theorem run_rounds_sorted (nows : List Nat) :
    ∀ (a : alarm),
      (∀ p ∈ (a.events (nows.map alarm_event.run)).2, p.operation ∈ a.operations) ∧
      ((a.events (nows.map alarm_event.run)).2.map (fun p => p.operation)).Sorted
        (fun o1 o2 => o1.wakeup ≤ o2.wakeup) := by
  induction nows with
  | nil => intro a; simp [alarm.events]
  | cons now nows ih =>
    intro a
    simp only [List.map_cons, alarm.events, alarm.event]
    obtain ⟨ih1, ih2⟩ := ih (a.run_round now).1
    -- the operations left after the round are among those queued before
    have hsub : ∀ o ∈ (a.run_round now).1.operations, o ∈ a.operations := by
      intro o ho
      unfold alarm.run_round at ho
      split at ho
      · exact ho
      · split at ho
        · exact ho
        · split at ho
          · split at ho
            · exact List.mem_of_mem_erase ho
            · exact ho
          · exact ho
    constructor
    · intro p hp
      rcases List.mem_append.mp hp with hp | hp
      · have h1 := run_round_posting a now p hp
        have hq : p.queued = a.operations := by
          unfold alarm.run_round at hp
          split at hp
          · simp at hp
          · split at hp
            · simp at hp
            · split at hp
              · split at hp
                · simp only [List.mem_singleton] at hp
                  rw [hp]
                · simp at hp
              · simp at hp
        rw [← hq]
        exact h1.2.2.1
      · exact hsub _ (ih1 p hp)
    · rw [List.map_append]
      refine List.pairwise_append.mpr ⟨?_, ih2, ?_⟩
      · unfold alarm.run_round
        split
        · simp
        · split
          · simp
          · split
            · split <;> simp
            · simp
      · intro o1 ho1 o2 ho2
        obtain ⟨p1, hp1, rfl⟩ := List.mem_map.mp ho1
        obtain ⟨p2, hp2, rfl⟩ := List.mem_map.mp ho2
        have h1 := run_round_posting a now p1 hp1
        have hq : p1.queued = a.operations := by
          unfold alarm.run_round at hp1
          split at hp1
          · simp at hp1
          · split at hp1
            · simp at hp1
            · split at hp1
              · split at hp1
                · simp only [List.mem_singleton] at hp1
                  rw [hp1]
                · simp at hp1
              · simp at hp1
        exact h1.2.2.2 _ (hq ▸ hsub _ (ih1 p2 hp2))

theorem events_run_cons (a : alarm) (now : Nat) (rest : List alarm_event) :
    a.events (alarm_event.run now :: rest) =
      (((a.run_round now).1.events rest).1,
       (a.run_round now).2 ++ ((a.run_round now).1.events rest).2) := rfl

theorem run_rounds_all (nows : List Nat) :
    ∀ (a : alarm), a.done = false → (∀ t ∈ a.operations, t.function ≠ none) →
      (∀ now ∈ nows, ∀ t ∈ a.operations, t.wakeup ≤ now) →
      a.operations.length ≤ nows.length →
      ((a.events (nows.map alarm_event.run)).2.map (fun p => p.operation)).Perm a.operations := by
  induction nows with
  | nil =>
    intro a _ _ _ hlen
    have : a.operations = [] := List.eq_nil_of_length_eq_zero (by simpa using hlen)
    simp [alarm.events, this]
  | cons now nows ih =>
    intro a hdone hfun hdue hlen
    rw [List.map_cons, events_run_cons]
    cases hops : a.operations with
    | nil =>
      have hr : a.run_round now = (a, []) := by
        simp [alarm.run_round, hdone, hops, alarm_top]
      rw [hr]
      have := ih a hdone hfun (fun n hn t ht => hdue n (by simp [hn]) t ht)
        (by rw [hops]; simp)
      rw [hops] at this
      simpa using this
    | cons o rest =>
      obtain ⟨t, htop⟩ := alarm_top_some a.operations (by rw [hops]; simp)
      obtain ⟨hm, -⟩ := alarm_top_spec _ _ htop
      obtain ⟨f, hf⟩ := Option.ne_none_iff_exists'.mp (hfun t hm)
      have hw : t.wakeup ≤ now := hdue now (by simp) t hm
      have hr : a.run_round now =
          ({ a with operations := a.operations.erase t },
           [{ now := now, queued := a.operations, operation := t }]) := by
        simp [alarm.run_round, hdone, htop, hf, hw]
      rw [hr]
      have hlen2 : (a.operations.erase t).length ≤ nows.length := by
        rw [List.length_erase_of_mem hm]
        simp only [List.length_cons] at hlen
        omega
      have := ih { a with operations := a.operations.erase t } hdone
        (fun u hu => hfun u (List.mem_of_mem_erase hu))
        (fun n hn u hu => hdue n (by simp [hn]) u (List.mem_of_mem_erase hu)) hlen2
      simp only [List.singleton_append, List.map_cons]
      rw [← hops]
      exact (this.cons t).trans (List.perm_cons_erase hm).symm

/-- C15: (1) in any interleaving of `add` calls and rounds of the worker, a posted task is
never null, is due at the clock reading of its round, and has a wakeup no later than that
of any operation queued at that moment; (2) when tasks are added and the worker then
runs, the tasks are posted in non-decreasing order of wakeup; (3) if the tasks are not
null and the worker runs at least as many rounds as there are tasks, all at clock
readings at which every task is due, exactly the added tasks are posted; (4) tasks added
for 300, 100 and 200 are posted in the order 100, 200, 300, each at its wakeup time. -/
theorem C15_alarm_ordering (events : List alarm_event) (tasks : List operation)
    (nows : List Nat) :
    (∀ p ∈ (alarm.new.events events).2,
      p.operation.function ≠ none ∧ p.operation.wakeup ≤ p.now ∧ p.operation ∈ p.queued ∧
      ∀ q ∈ p.queued, p.operation.wakeup ≤ q.wakeup) ∧
    ((alarm.new.events (batch_events tasks nows)).2.map (fun p => p.operation)).Sorted
      (fun o1 o2 => o1.wakeup ≤ o2.wakeup) ∧
    ((∀ t ∈ tasks, t.function ≠ none) → (∀ now ∈ nows, ∀ t ∈ tasks, t.wakeup ≤ now) →
      tasks.length ≤ nows.length →
      ((alarm.new.events (batch_events tasks nows)).2.map (fun p => p.operation)).Perm tasks) ∧
    (alarm.new.events (batch_events [⟨300, some 3⟩, ⟨100, some 1⟩, ⟨200, some 2⟩]
      [50, 100, 150, 200, 250, 300])).2.map (fun p => (p.now, p.operation.function)) =
      [(100, some 1), (200, some 2), (300, some 3)] := by
  have hb : alarm.new.events (batch_events tasks nows) =
      ({ operations := tasks, done := false } : alarm).events (nows.map alarm_event.run) := by
    unfold batch_events
    rw [events_adds]
    rfl
  refine ⟨events_postings events alarm.new, ?_, ?_, by decide⟩
  · rw [hb]
    exact (run_rounds_sorted nows _).2
  · intro hfun hdue hlen
    rw [hb]
    exact run_rounds_all nows _ rfl hfun hdue hlen

/-! ### Network: receiving -/

/-- C17: for a datagram received without socket error while the network is on, from a
sender that `reserved_address` reports as reserved or that is the node's own endpoint,
`receive_action` returns the node with `bad_sender_count` one higher and nothing else
changed (peer table, the other counters and the rest of the node are as before), does
not run the parser, and calls `receive ()` again. -/
theorem C17_reserved_sender_drop {Rest : Type}
    (deserialize_buffer : node_view Rest → endpoint → List Nat → node_view Rest × Bool × Bool)
    (n : node_view Rest) (remote : endpoint) (buffer : List Nat) (now : Nat)
    (hon : n.network.is_on = true)
    (hbad : reserved_address remote = some true ∨ remote = n.network.endpoint) :
    ∃ o, receive_action deserialize_buffer n remote buffer false now = some o ∧
      o.parsed = false ∧ o.next = receive_next.receive ∧
      o.node.peers = n.peers ∧ o.node.rest = n.rest ∧
      o.node.network =
        { n.network with bad_sender_count := n.network.bad_sender_count + 1 } := by
  have hres : ∃ b, reserved_address remote = some b ∧
      (!b && remote != n.network.endpoint) = false := by
    rcases hbad with h | h
    · exact ⟨true, h, rfl⟩
    · refine ⟨reserved_bytes { bytes := 1, scope_id := 0 }, ?_, ?_⟩
      · rw [h]; rfl
      · simp [h]
  obtain ⟨b, hb, hcond⟩ := hres
  have hcall : receive_action deserialize_buffer n remote buffer false now =
      some { node := { n with network :=
               { n.network with bad_sender_count := n.network.bad_sender_count + 1 } },
             parsed := false, next := .receive } := by
    simp only [receive_action, hon, hb, hcond]
    rfl
  exact ⟨_, hcall, rfl, rfl, rfl, rfl, rfl⟩

/-- Witness for C17: a datagram from ::ffff:192.0.2.5 port 12345. -/
theorem C17_reserved_sender_drop_witness :
    sample_node.network.is_on = true ∧ reserved_address test_net_sender = some true ∧
    ∃ o, receive_action (fun n _ _ => (n, false, false)) sample_node test_net_sender
        [0, 1, 2] false 0 = some o ∧
      o.parsed = false ∧ o.next = receive_next.receive ∧
      o.node.peers = sample_node.peers ∧ o.node.rest = sample_node.rest ∧
      o.node.network =
        { sample_node.network with
          bad_sender_count := sample_node.network.bad_sender_count + 1 } :=
  ⟨by decide, by decide,
   C17_reserved_sender_drop (fun n _ _ => (n, false, false)) sample_node test_net_sender
     [0, 1, 2] 0 (by decide) (Or.inl (by decide))⟩

/-! ### Block processor: the order of processing -/

theorem rounds_nil {Ledger : Type} (y : node_collaborators Ledger) (now n : Nat)
    (s : processor Ledger) : process_receive_many_rounds y now n [] s = ([], [], s) := by
  cases n <;> rfl

/-- One round of the loop on a stack with `b` at the back: `b` is processed first, and the
loop goes on with the blocks released by the hash of `b` put on top of the rest. -/
theorem rounds_snoc {Ledger : Type} (y : node_collaborators Ledger) (now n : Nat)
    (waiting : List block) (b : block) (s : processor Ledger) :
    process_receive_many_rounds y now (n + 1) (waiting ++ [b]) s =
      (((process_receive_one y s b now).1, b) ::
        (process_receive_many_rounds y now n
          (waiting ++ round_released y now s b) (round_node y now s b)).1,
       (process_receive_many_rounds y now n
          (waiting ++ round_released y now s b) (round_node y now s b)).2) := by
  simp [process_receive_many_rounds, round_released, round_node]

/-- The frame property of the loop: run on `released` put on top of `waiting`, it does
what it does on `released` alone, for as long as that takes, with `waiting` untouched
underneath; only when `released` and everything it released in turn has been processed
does the loop go on with `waiting`. -/
theorem rounds_frame {Ledger : Type} (y : node_collaborators Ledger) (now : Nat) (n : Nat) :
    ∀ (waiting released : List block) (s : processor Ledger),
      process_receive_many_rounds y now n (waiting ++ released) s =
        if (process_receive_many_rounds y now n released s).2.1 = [] then
          ((process_receive_many_rounds y now n released s).1 ++
            (process_receive_many_rounds y now
              (n - (process_receive_many_rounds y now n released s).1.length) waiting
              (process_receive_many_rounds y now n released s).2.2).1,
           (process_receive_many_rounds y now
              (n - (process_receive_many_rounds y now n released s).1.length) waiting
              (process_receive_many_rounds y now n released s).2.2).2)
        else
          ((process_receive_many_rounds y now n released s).1,
           waiting ++ (process_receive_many_rounds y now n released s).2.1,
           (process_receive_many_rounds y now n released s).2.2) := by
  induction n with
  | zero =>
    intro waiting released s
    cases released with
    | nil => simp [process_receive_many_rounds]
    | cons b rest => simp [process_receive_many_rounds]
  | succ n ih =>
    intro waiting released s
    rcases List.eq_nil_or_concat released with h | ⟨top, b, h⟩
    · subst h
      simp [rounds_nil]
    · subst h
      rw [List.concat_eq_append, ← List.append_assoc, rounds_snoc, rounds_snoc, List.append_assoc, ih]
      simp only [List.length_cons, Nat.add_sub_add_right]
      split <;> rfl

/-- The loop never does more rounds than it has fuel for, and blocks are left on the
stack only when the fuel ran out. -/
theorem rounds_length {Ledger : Type} (y : node_collaborators Ledger) (now : Nat) (n : Nat) :
    ∀ (blocks : List block) (s : processor Ledger),
      (process_receive_many_rounds y now n blocks s).1.length ≤ n ∧
      ((process_receive_many_rounds y now n blocks s).2.1 ≠ [] →
        (process_receive_many_rounds y now n blocks s).1.length = n) := by
  induction n with
  | zero => intro blocks s; simp [process_receive_many_rounds]
  | succ n ih =>
    intro blocks s
    rcases List.eq_nil_or_concat blocks with h | ⟨top, b, h⟩
    · subst h
      simp [rounds_nil]
    · subst h
      rw [List.concat_eq_append, rounds_snoc]
      have h := ih (top ++ round_released y now s b) (round_node y now s b)
      simp only [List.length_cons, Nat.add_le_add_iff_right, Nat.add_right_cancel_iff]
      exact h

/-- C18: the loop of process_receive_many is a depth-first drain. In a round that takes
the block b off the work stack, b is processed first; the blocks the gap cache releases
for the hash of b come after it, and they and everything they release in turn are
processed exactly as if nothing else were waiting (the rounds on the released blocks
alone, for as long as they take); the blocks that were already waiting on the stack are
left untouched underneath until that drain has ended, and the loop goes on with them only
then, in the node the drain left. The drain stops early only when the rounds run out. In
the toy node with blocks 4, 3 and 5 parked, receiving block 2 processes 2, 5, 3, 4. -/
theorem C18_depth_first_drain {Ledger : Type} (y : node_collaborators Ledger)
    (now n : Nat) (waiting : List block) (b : block) (s : processor Ledger) :
    process_receive_many_rounds y now (n + 1) (waiting ++ [b]) s =
      (if (process_receive_many_rounds y now n (round_released y now s b)
            (round_node y now s b)).2.1 = [] then
        (((process_receive_one y s b now).1, b) ::
          ((process_receive_many_rounds y now n (round_released y now s b)
              (round_node y now s b)).1 ++
            (process_receive_many_rounds y now
              (n - (process_receive_many_rounds y now n (round_released y now s b)
                (round_node y now s b)).1.length) waiting
              (process_receive_many_rounds y now n (round_released y now s b)
                (round_node y now s b)).2.2).1),
         (process_receive_many_rounds y now
            (n - (process_receive_many_rounds y now n (round_released y now s b)
              (round_node y now s b)).1.length) waiting
            (process_receive_many_rounds y now n (round_released y now s b)
              (round_node y now s b)).2.2).2)
      else
        (((process_receive_one y s b now).1, b) ::
          (process_receive_many_rounds y now n (round_released y now s b)
            (round_node y now s b)).1,
         waiting ++ (process_receive_many_rounds y now n (round_released y now s b)
            (round_node y now s b)).2.1,
         (process_receive_many_rounds y now n (round_released y now s b)
            (round_node y now s b)).2.2)) ∧
    ((process_receive_many_rounds y now n (round_released y now s b)
        (round_node y now s b)).2.1 ≠ [] →
      (process_receive_many_rounds y now n (round_released y now s b)
        (round_node y now s b)).1.length = n) ∧
    (process_receive_many y now (n + 1) s b).1 =
      ((process_receive_one y s b now).1, b) ::
        (process_receive_many_rounds y now n (round_released y now s b)
          (round_node y now s b)).1 ∧
    ((process_receive_many toy_node_collaborators 4 10 toy_parked (toy_block 2 1)).1.map
        (fun c => (c.2.hash, c.1.code)) =
      [(2, .progress), (5, .progress), (3, .progress), (4, .progress)] ∧
     (process_receive_many toy_node_collaborators 4 10 toy_parked (toy_block 2 1)).2.1 = []) := by
  refine ⟨?_, (rounds_length y now n _ _).2, ?_, by decide⟩
  · rw [rounds_snoc, rounds_frame]
    split <;> rfl
  · have h := rounds_snoc y now n [] b s
    simp only [List.nil_append] at h
    simp only [process_receive_many, h]

/-! ### Block processor: parking and release -/

theorem orderedInsert_head (r : gap_information → gap_information → Prop) [DecidableRel r]
    (a : gap_information) (l : List gap_information) :
    (l.orderedInsert r a).head? = some a ∨ (l.orderedInsert r a).head? = l.head? := by
  cases l with
  | nil => simp
  | cons b rest =>
    simp only [List.orderedInsert]
    split
    · left; rfl
    · right; rfl

/-- With no record younger than `inserted`, the oldest of `old ++ [inserted]` is one of
`old`, as soon as `old` is not empty. -/
theorem by_arrival_head_old (inserted : gap_information) (old : List gap_information)
    (hne : old ≠ []) (hold : ∀ i ∈ old, i.arrival ≤ inserted.arrival) :
    ∃ o ∈ old, (by_arrival (old ++ [inserted])).head? = some o := by
  induction old with
  | nil => exact absurd rfl hne
  | cons a rest ih =>
    by_cases hr : rest = []
    · subst hr
      refine ⟨a, List.mem_cons_self _ _, ?_⟩
      have ha : a.arrival ≤ inserted.arrival := hold a (List.mem_cons_self _ _)
      simp [by_arrival, List.insertionSort, List.orderedInsert, ha]
    · obtain ⟨o, ho, hhead⟩ := ih hr (fun i hi => hold i (List.mem_cons_of_mem _ hi))
      have hs : by_arrival (a :: rest ++ [inserted]) =
          (by_arrival (rest ++ [inserted])).orderedInsert (fun a b => a.arrival ≤ b.arrival) a := by
        simp [by_arrival, List.insertionSort]
      rw [hs]
      rcases orderedInsert_head (fun a b => a.arrival ≤ b.arrival) a
        (by_arrival (rest ++ [inserted])) with h | h
      · exact ⟨a, List.mem_cons_self _ _, h⟩
      · exact ⟨o, List.mem_cons_of_mem _ ho, h.trans hhead⟩

/-- Evicting the oldest record after an insertion never evicts the record just inserted,
when the clock did not run backwards. -/
theorem erase_oldest_keeps_inserted (inserted : gap_information) (old : List gap_information)
    (hne : old ≠ []) (hold : ∀ i ∈ old, i.arrival ≤ inserted.arrival) :
    inserted ∈ erase_oldest (old ++ [inserted]) := by
  obtain ⟨o, ho, hhead⟩ := by_arrival_head_old inserted old hne hold
  unfold erase_oldest
  cases hb : by_arrival (old ++ [inserted]) with
  | nil => simp
  | cons oldest tail =>
    rw [hb] at hhead
    simp only [List.head?_cons, Option.some.injEq] at hhead
    subst hhead
    simp only
    rw [List.erase_append_left _ ho]
    simp

/-- A block whose hash is not cached yet is in the cache after `gap_cache::add`, under the
key it was added with. -/
theorem gap_add_new {Ledger : Type} (x : collaborators Ledger) (g : gap_cache)
    (b : block) (k now : Nat) (hnew : g.find_hash b.hash = none)
    (hclock : ∀ i ∈ g.blocks, i.arrival ≤ now) (hmax : 0 < g.max) :
    ({ arrival := now, required := k, hash := b.hash, votes := x.votes_new b, block := b } :
      gap_information) ∈ (g.add x b k now).blocks := by
  simp only [gap_cache.add, hnew]
  split
  · rename_i hlen
    by_cases hne : g.blocks = []
    · rw [hne] at hlen
      simp at hlen
      omega
    · exact erase_oldest_keeps_inserted _ _ hne hclock
  · simp

/-- What `process_receive_one` does to the gap cache, by the key of the block. -/
theorem process_receive_one_cache {Ledger : Type} (y : node_collaborators Ledger)
    (s : processor Ledger) (b : block) (now : Nat) :
    (process_receive_one y s b now).1 = y.process_return s.ledger b ∧
    (process_receive_one y s b now).2.gap_cache =
      match gap_key (y.process_return s.ledger b) b with
      | some k => s.gap_cache.add y.tocollaborators b k now
      | none => s.gap_cache := by
  cases hc : (y.process_return s.ledger b).code <;>
    simp only [process_receive_one, gap_key, hc, true_and]
  split
  · split <;> exact ⟨rfl, rfl⟩
  · exact ⟨rfl, rfl⟩

/-- In a list sorted by `required`, the run of records that starts at the first one with
the key `h` is all the records with that key. -/
theorem run_eq_filter (h : Nat) :
    ∀ (l : List gap_information), l.Sorted (fun a b => a.required ≤ b.required) →
      (l.dropWhile (fun i => i.required != h)).takeWhile (fun i => i.required == h) =
        l.filter (fun i => i.required == h) := by
  have tail : ∀ (l : List gap_information), (∀ j ∈ l, h ≤ j.required) →
      l.Sorted (fun a b => a.required ≤ b.required) →
      l.takeWhile (fun i => i.required == h) = l.filter (fun i => i.required == h) := by
    intro l
    induction l with
    | nil => intro _ _; rfl
    | cons a rest ih =>
      intro hge hs
      have hs2 := List.sorted_cons.mp hs
      by_cases ha : a.required = h
      · simp only [List.takeWhile_cons, List.filter_cons, ha, beq_self_eq_true, if_true]
        rw [ih (fun j hj => hge j (List.mem_cons_of_mem _ hj)) hs2.2]
      · have hlt : h < a.required :=
          lt_of_le_of_ne (hge a (List.mem_cons_self _ _)) (Ne.symm ha)
        have hnone : rest.filter (fun i => i.required == h) = [] := by
          rw [List.filter_eq_nil_iff]
          intro j hj
          have := hs2.1 j hj
          simp only [beq_iff_eq]
          omega
        simp [List.takeWhile_cons, List.filter_cons, ha, hnone]
  intro l
  induction l with
  | nil => intro _; rfl
  | cons a rest ih =>
    intro hs
    have hs2 := List.sorted_cons.mp hs
    by_cases ha : a.required = h
    · have hd : (a :: rest).dropWhile (fun i => i.required != h) = a :: rest := by
        simp [List.dropWhile_cons, ha]
      rw [hd]
      exact tail (a :: rest) (by
        intro j hj
        rcases List.mem_cons.mp hj with rfl | hj
        · exact le_of_eq ha.symm
        · exact ha ▸ hs2.1 j hj) hs
    · have hd : (a :: rest).dropWhile (fun i => i.required != h) =
          rest.dropWhile (fun i => i.required != h) := by
        simp [List.dropWhile_cons, ha]
      rw [hd, ih hs2.2]
      simp [List.filter_cons, ha]

/-- The blocks `gap_cache::get` returns are those of the records with the key, up to
their order. -/
theorem gap_get_released (g : gap_cache) (h : Nat) :
    ((g.get h).1).Perm ((g.blocks.filter (fun i => i.required == h)).map (fun i => i.block)) := by
  have hsorted : (by_required g.blocks).Sorted (fun a b => a.required ≤ b.required) := by
    haveI : IsTotal gap_information (fun a b => a.required ≤ b.required) :=
      ⟨fun a b => Nat.le_total a.required b.required⟩
    haveI : IsTrans gap_information (fun a b => a.required ≤ b.required) :=
      ⟨fun a b c hab hbc => Nat.le_trans hab hbc⟩
    exact List.sorted_insertionSort _ _
  simp only [gap_cache.get]
  rw [run_eq_filter h _ hsorted]
  exact ((List.perm_insertionSort _ g.blocks).filter _).map _

/-- No block on the work stack is lost: after any number of rounds it has been processed
or is still on the stack. -/
theorem rounds_keeps {Ledger : Type} (y : node_collaborators Ledger) (now : Nat) (n : Nat) :
    ∀ (blocks : List block) (s : processor Ledger) (b : block), b ∈ blocks →
      b ∈ (process_receive_many_rounds y now n blocks s).1.map Prod.snd ∨
      b ∈ (process_receive_many_rounds y now n blocks s).2.1 := by
  induction n with
  | zero => intro blocks s b hb; right; simpa [process_receive_many_rounds] using hb
  | succ n ih =>
    intro blocks s b hb
    rcases List.eq_nil_or_concat blocks with h | ⟨top, c, h⟩
    · subst h
      simp at hb
    · subst h
      rw [List.concat_eq_append] at hb ⊢
      rw [rounds_snoc]
      rcases List.mem_append.mp hb with hb | hb
      · rcases ih (top ++ round_released y now s c) (round_node y now s c) b
          (List.mem_append_left _ hb) with h | h
        · left
          simp only [List.map_cons, List.mem_cons]
          exact Or.inr h
        · exact Or.inr h
      · left
        simp only [List.mem_singleton] at hb
        simp [hb]

/-- Adding a block whose hash is cached already leaves every record under its key: only
an arrival time changes. -/
theorem gap_add_existing {Ledger : Type} (x : collaborators Ledger) (g : gap_cache)
    (b : block) (k now : Nat) (e : gap_information) (he : g.find_hash b.hash = some e) :
    (g.add x b k now).blocks.map (fun i => (i.hash, i.required, i.block)) =
      g.blocks.map (fun i => (i.hash, i.required, i.block)) := by
  simp only [gap_cache.add, he]
  generalize g.blocks = l
  induction l with
  | nil => rfl
  | cons a rest ih =>
    simp only [modify_hash]
    split
    · rfl
    · simp only [List.map_cons, ih]

/-- The blocks `gap_cache::get` returns and the records it leaves add up to the records
the cache held. -/
theorem gap_get_length (g : gap_cache) (h : Nat) :
    (g.get h).1.length + (g.get h).2.blocks.length = g.blocks.length := by
  rw [(gap_get_released g h).length_eq, List.length_map]
  have hsplit : ∀ (l : List gap_information),
      (l.filter (fun i => i.required == h)).length +
        (l.filter (fun i => i.required != h)).length = l.length := by
    intro l
    induction l with
    | nil => rfl
    | cons a rest ih =>
      by_cases ha : a.required = h
      · simp only [List.filter_cons, ha, beq_self_eq_true, if_true, bne_self_eq_false,
          Bool.false_eq_true, if_false, List.length_cons]
        omega
      · have h1 : (a.required == h) = false := by simp [ha]
        have h2 : (a.required != h) = true := by simp [ha]
        simp only [List.filter_cons, h1, h2, if_true, Bool.false_eq_true, if_false,
          List.length_cons]
        omega
  exact hsplit g.blocks

/-- The loop ends: when no block processed in `n` rounds is parked in the gap cache, and
`n` is at least the number of blocks on the work stack plus the number of cached
records, the work stack is empty after the `n` rounds. -/
theorem rounds_end {Ledger : Type} (y : node_collaborators Ledger) (now : Nat) (n : Nat) :
    ∀ (blocks : List block) (s : processor Ledger),
      blocks.length + s.gap_cache.blocks.length ≤ n →
      (∀ c ∈ (process_receive_many_rounds y now n blocks s).1, gap_key c.1 c.2 = none) →
      (process_receive_many_rounds y now n blocks s).2.1 = [] := by
  induction n with
  | zero =>
    intro blocks s hlen _
    have : blocks = [] := List.length_eq_zero.mp (by omega)
    subst this
    rfl
  | succ n ih =>
    intro blocks s hlen hquiet
    rcases List.eq_nil_or_concat blocks with h | ⟨top, c, h⟩
    · subst h
      rw [rounds_nil]
    · subst h
      rw [List.concat_eq_append] at hlen hquiet ⊢
      rw [rounds_snoc] at hquiet ⊢
      have hfirst : gap_key (process_receive_one y s c now).1 c = none :=
        hquiet _ (List.mem_cons_self _ _)
      have hcache := process_receive_one_cache y s c now
      rw [hcache.1] at hfirst
      rw [hfirst] at hcache
      have hsum := gap_get_length s.gap_cache c.hash
      apply ih
      · simp only [round_released, round_node, hcache.2, List.length_append]
        simp only [List.length_append, List.length_singleton] at hlen
        omega
      · intro d hd
        exact hquiet d (List.mem_cons_of_mem _ hd)

/-- Once the work stack is empty the loop has ended: more rounds change nothing. -/
theorem rounds_more {Ledger : Type} (y : node_collaborators Ledger) (now : Nat) (n : Nat) :
    ∀ (blocks : List block) (s : processor Ledger),
      (process_receive_many_rounds y now n blocks s).2.1 = [] →
      ∀ k, process_receive_many_rounds y now (n + k) blocks s =
        process_receive_many_rounds y now n blocks s := by
  induction n with
  | zero =>
    intro blocks s hend k
    have : blocks = [] := hend
    subst this
    rw [rounds_nil, rounds_nil]
  | succ n ih =>
    intro blocks s hend k
    rcases List.eq_nil_or_concat blocks with h | ⟨top, c, h⟩
    · subst h
      rw [rounds_nil, rounds_nil]
    · subst h
      rw [List.concat_eq_append] at hend ⊢
      rw [rounds_snoc] at hend
      have hstep : n + 1 + k = (n + k) + 1 := by omega
      rw [hstep, rounds_snoc, rounds_snoc, ih _ _ hend k]

/-- C19 (as stated, refuted): two blocks parked under the same key are not both processed
right after the block with that hash. In the toy node whose ledger holds block 1, blocks 3
and 5 (both on top of block 2) get gap_previous and are held in the gap cache under key 2;
process_receive_many of block 2 then processes 2, 5, 3: block 3 comes after block 5, not
right after block 2. -/
theorem C19_second_waiting_block_not_next :
    gap_key (toy_node_collaborators.process_return toy_processor.ledger (toy_block 3 2))
      (toy_block 3 2) = some 2 ∧
    toy_two_waiting.gap_cache.blocks.map (fun i => (i.block, i.required)) =
      [(toy_block 3 2, 2), (toy_block 5 2, 2)] ∧
    (process_receive_many toy_node_collaborators 3 10 toy_two_waiting (toy_block 2 1)).1.map
      (fun c => (c.2, c.1.code)) =
      [(toy_block 2 1, .progress), (toy_block 5 2, .progress), (toy_block 3 2, .progress)] := by
  decide

/-- C19 (amended): if ledger.process returns gap_previous (resp. gap_source) for a block b
whose hash is not cached yet, and no cached record has an arrival time later than now,
then after process_receive_one the gap cache holds b under the key b.previous (resp.
b.source), and nothing is republished for b. If later the cache holds b under the key
p.hash and ledger.process finds no gap for p, then process_receive_many of p processes p
first; after any number of rounds b has been processed after p or is still on the work
stack, so b has been processed after p whenever the loop has ended (the work stack is
empty). When no block processed in the first 1 + N rounds is parked again, N being the
number of cached records, the loop has ended after 1 + N rounds, with b processed after
p, and more rounds change nothing. b comes right after p when it is the only block
cached under that key. -/
theorem C19_gap_parking_release {Ledger : Type} (y : node_collaborators Ledger)
    (s later : processor Ledger) (b p : block) (k now later_now n : Nat)
    (i : gap_information)
    (hkey : gap_key (y.process_return s.ledger b) b = some k)
    (hnew : s.gap_cache.find_hash b.hash = none)
    (hclock : ∀ j ∈ s.gap_cache.blocks, j.arrival ≤ now)
    (hmax : 0 < s.gap_cache.max)
    (hp : gap_key (y.process_return later.ledger p) p = none)
    (hi : i ∈ later.gap_cache.blocks) (hreq : i.required = p.hash) (hb : i.block = b) :
    ((y.process_return s.ledger b).code = .gap_previous → k = b.previous) ∧
    ((y.process_return s.ledger b).code = .gap_source → k = b.source) ∧
    (∃ j ∈ (process_receive_one y s b now).2.gap_cache.blocks,
      j.hash = b.hash ∧ j.required = k ∧ j.block = b ∧ j.arrival = now) ∧
    republished (process_receive_one y s b now).1 b = [] ∧
    (process_receive_many y later_now (n + 1) later p).1.head? =
      some (y.process_return later.ledger p, p) ∧
    (b ∈ (process_receive_many y later_now (n + 1) later p).1.tail.map Prod.snd ∨
      b ∈ (process_receive_many y later_now (n + 1) later p).2.1) ∧
    (∀ fuel, (process_receive_many y later_now fuel later p).2.1 = [] →
      b ∈ (process_receive_many y later_now fuel later p).1.tail.map Prod.snd) ∧
    ((∀ c ∈ (process_receive_many y later_now (1 + later.gap_cache.blocks.length)
        later p).1, gap_key c.1 c.2 = none) →
      (process_receive_many y later_now (1 + later.gap_cache.blocks.length) later p).2.1 =
        [] ∧
      b ∈ (process_receive_many y later_now (1 + later.gap_cache.blocks.length)
        later p).1.tail.map Prod.snd ∧
      ∀ more, process_receive_many y later_now (1 + later.gap_cache.blocks.length + more)
          later p =
        process_receive_many y later_now (1 + later.gap_cache.blocks.length) later p) ∧
    (later.gap_cache.blocks.filter (fun j => j.required == p.hash) = [i] →
      ((process_receive_many y later_now (n + 2) later p).1.map Prod.snd).take 2 = [p, b]) := by
  have hone := process_receive_one_cache y s b now
  rw [hkey] at hone
  have hlater := process_receive_one_cache y later p later_now
  rw [hp] at hlater
  have hmany : ∀ m, process_receive_many y later_now (m + 1) later p =
      (((process_receive_one y later p later_now).1, p) ::
        (process_receive_many_rounds y later_now m (round_released y later_now later p)
          (round_node y later_now later p)).1,
       (process_receive_many_rounds y later_now m (round_released y later_now later p)
          (round_node y later_now later p)).2) := by
    intro m
    have h := rounds_snoc y later_now m [] p later
    simp only [List.nil_append] at h
    simp only [process_receive_many, h]
  have hrel : (round_released y later_now later p).Perm
      ((later.gap_cache.blocks.filter (fun j => j.required == p.hash)).map
        (fun j => j.block)) := by
    simp only [round_released, hlater.2]
    exact gap_get_released _ _
  have hsafe : ∀ m,
      b ∈ (process_receive_many y later_now (m + 1) later p).1.tail.map Prod.snd ∨
      b ∈ (process_receive_many y later_now (m + 1) later p).2.1 := by
    intro m
    rw [hmany m]
    have hmem : b ∈ round_released y later_now later p := by
      rw [hrel.mem_iff]
      exact List.mem_map.mpr ⟨i, List.mem_filter.mpr ⟨hi, by simp [hreq]⟩, hb⟩
    exact rounds_keeps y later_now m _ _ b hmem
  have hended : ∀ fuel, (process_receive_many y later_now fuel later p).2.1 = [] →
      b ∈ (process_receive_many y later_now fuel later p).1.tail.map Prod.snd := by
    intro fuel hend
    cases fuel with
    | zero => simp [process_receive_many, process_receive_many_rounds] at hend
    | succ m =>
      rcases hsafe m with h | h
      · exact h
      · rw [hend] at h
        simp at h
  refine ⟨?_, ?_, ?_, ?_, ?_, hsafe n, hended, ?_, ?_⟩
  · intro hc
    simp only [gap_key, hc, Option.some.injEq] at hkey
    exact hkey.symm
  · intro hc
    simp only [gap_key, hc, Option.some.injEq] at hkey
    exact hkey.symm
  · rw [hone.2]
    exact ⟨_, gap_add_new y.tocollaborators s.gap_cache b k now hnew hclock hmax,
      rfl, rfl, rfl, rfl⟩
  · rw [hone.1]
    unfold gap_key at hkey
    unfold republished
    split at hkey <;> simp_all
  · rw [hmany n, hlater.1]
    rfl
  · intro hquiet
    have hend : (process_receive_many y later_now (1 + later.gap_cache.blocks.length)
        later p).2.1 = [] :=
      rounds_end y later_now _ [p] later (by simp) hquiet
    exact ⟨hend, hended _ hend, rounds_more y later_now _ [p] later hend⟩
  · intro honly
    rw [honly] at hrel
    have hsingle : round_released y later_now later p = [b] := by
      have := List.perm_singleton.mp hrel
      simpa [hb] using this
    rw [hmany (n + 1), hsingle]
    have h := rounds_snoc y later_now n [] b (round_node y later_now later p)
    simp only [List.nil_append] at h
    rw [h]
    rfl

/-- The toy node parks block 3 under key 2 at time 1; receiving block 2 afterwards
processes block 2, then block 3. When block 5 is parked under key 2 as well, receiving
block 2 ends after 3 rounds with an empty work stack and block 3 processed. -/
theorem C19_gap_parking_release_witness :
    (∃ j ∈ (process_receive_one toy_node_collaborators toy_processor
        (toy_block 3 2) 1).2.gap_cache.blocks,
      j.hash = (toy_block 3 2).hash ∧ j.required = 2 ∧ j.block = toy_block 3 2 ∧
        j.arrival = 1) ∧
    ((process_receive_many toy_node_collaborators 2 5
        (process_receive_one toy_node_collaborators toy_processor (toy_block 3 2) 1).2
        (toy_block 2 1)).1.map Prod.snd).take 2 = [toy_block 2 1, toy_block 3 2] ∧
    (process_receive_many toy_node_collaborators 3
      (1 + toy_two_waiting.gap_cache.blocks.length) toy_two_waiting (toy_block 2 1)).2.1 =
      [] ∧
    toy_block 3 2 ∈ (process_receive_many toy_node_collaborators 3
      (1 + toy_two_waiting.gap_cache.blocks.length) toy_two_waiting
      (toy_block 2 1)).1.tail.map Prod.snd :=
  have h := C19_gap_parking_release toy_node_collaborators toy_processor
    (process_receive_one toy_node_collaborators toy_processor (toy_block 3 2) 1).2
    (toy_block 3 2) (toy_block 2 1) 2 1 2 3
    { arrival := 1, required := 2, hash := 3,
      votes := toy_node_collaborators.votes_new (toy_block 3 2), block := toy_block 3 2 }
    (by decide) (by decide) (by decide) (by decide) (by decide) (by decide) (by decide)
    (by decide)
  have h2 := (C19_gap_parking_release toy_node_collaborators toy_processor
    toy_two_waiting (toy_block 3 2) (toy_block 2 1) 2 1 3 0
    { arrival := 1, required := 2, hash := 3,
      votes := toy_node_collaborators.votes_new (toy_block 3 2), block := toy_block 3 2 }
    (by decide) (by decide) (by decide) (by decide) (by decide) (by decide) (by decide)
    (by decide)).2.2.2.2.2.2.2.1 (by decide)
  ⟨h.2.2.1, h.2.2.2.2.2.2.2.2 (by decide), h2.1, h2.2.1⟩

/-! ### Republication -/

/-- The peers of `list_a` that do not know the block of hash `hash`. -/
theorem confirm_inner_fold (p : peer_container) (key : Nat × Nat) (block_a : block)
    (sequence_a rebroadcast_a : Nat) (list_a : List peer_information) :
    ∀ (state : Bool × List send_call),
      list_a.foldl
        (fun state j =>
          if !p.knows_about j.endpoint block_a.hash then
            (true, state.2 ++
              [confirm_block key.2 key.1 block_a sequence_a j.endpoint rebroadcast_a])
          else state)
        state =
      (state.1 || !(list_a.filter (fun j => !p.knows_about j.endpoint block_a.hash)).isEmpty,
       state.2 ++ (list_a.filter (fun j => !p.knows_about j.endpoint block_a.hash)).map
         (fun j => confirm_block key.2 key.1 block_a sequence_a j.endpoint rebroadcast_a)) := by
  induction list_a with
  | nil => intro state; simp
  | cons a rest ih =>
    intro state
    rw [List.foldl_cons, ih]
    by_cases h : p.knows_about a.endpoint block_a.hash = true
    · simp [h]
    · simp [h]

theorem confirm_broadcast_eq (p : peer_container) (representatives : List (Nat × Nat))
    (list_a : List peer_information) (block_a : block) (sequence_a rebroadcast_a : Nat) :
    confirm_broadcast p representatives list_a block_a sequence_a rebroadcast_a =
      (!representatives.isEmpty &&
        !(list_a.filter (fun j => !p.knows_about j.endpoint block_a.hash)).isEmpty,
       representatives.flatMap (fun key =>
        (list_a.filter (fun j => !p.knows_about j.endpoint block_a.hash)).map
          (fun j => confirm_block key.2 key.1 block_a sequence_a j.endpoint rebroadcast_a))) := by
  unfold confirm_broadcast
  have h : ∀ (state : Bool × List send_call),
      representatives.foldl
        (fun state key =>
          list_a.foldl
            (fun state j =>
              if !p.knows_about j.endpoint block_a.hash then
                (true, state.2 ++
                  [confirm_block key.2 key.1 block_a sequence_a j.endpoint rebroadcast_a])
              else state)
            state)
        state =
      (state.1 || (!representatives.isEmpty &&
          !(list_a.filter (fun j => !p.knows_about j.endpoint block_a.hash)).isEmpty),
       state.2 ++ representatives.flatMap (fun key =>
        (list_a.filter (fun j => !p.knows_about j.endpoint block_a.hash)).map
          (fun j => confirm_block key.2 key.1 block_a sequence_a j.endpoint rebroadcast_a))) := by
    induction representatives with
    | nil => intro state; simp
    | cons key rest ih =>
      intro state
      rw [List.foldl_cons, confirm_inner_fold, ih]
      cases hs : state.1 <;> cases hr : rest.isEmpty <;>
        cases hu : (list_a.filter (fun j => !p.knows_about j.endpoint block_a.hash)).isEmpty <;>
        simp [hs, hr, hu]
  simpa using h (false, [])

theorem publish_fold (p : peer_container) (block : block) (rebroadcast_a : Nat)
    (list : List peer_information) :
    ∀ (sent : List send_call),
      list.foldl
        (fun sent i =>
          if !p.knows_about i.endpoint block.hash then
            sent ++ [{ data := .publish block, endpoint := i.endpoint,
                       rebroadcast := rebroadcast_a }]
          else sent)
        sent =
      sent ++ (list.filter (fun j => !p.knows_about j.endpoint block.hash)).map
        (fun i => { data := .publish block, endpoint := i.endpoint,
                    rebroadcast := rebroadcast_a }) := by
  induction list with
  | nil => intro sent; simp
  | cons a rest ih =>
    intro sent
    rw [List.foldl_cons, ih]
    by_cases h : p.knows_about a.endpoint block.hash = true
    · simp [h]
    · simp [h]

/-- What `republish_block` sends: with no representative, a publish to every peer that
does not know the block; otherwise, for each representative in turn, a confirm_ack to
every such peer. -/
theorem republish_block_eq (p : peer_container) (representatives : List (Nat × Nat))
    (block : block) (rebroadcast_a : Nat) :
    republish_block p representatives block rebroadcast_a =
      if representatives = [] then
        (p.list.filter (fun j => !p.knows_about j.endpoint block.hash)).map
          (fun i => { data := .publish block, endpoint := i.endpoint,
                      rebroadcast := rebroadcast_a })
      else
        representatives.flatMap (fun key =>
          (p.list.filter (fun j => !p.knows_about j.endpoint block.hash)).map
            (fun j => confirm_block key.2 key.1 block 0 j.endpoint rebroadcast_a)) := by
  simp only [republish_block, confirm_broadcast_eq, publish_fold]
  by_cases hr : representatives = []
  · subst hr
    simp
  · simp only [hr, if_false]
    cases hu : (p.list.filter (fun j => !p.knows_about j.endpoint block.hash)) with
    | nil => simp
    | cons a rest =>
      have : representatives.isEmpty = false := by
        cases representatives with
        | nil => exact absurd rfl hr
        | cons _ _ => rfl
      simp [this]

/-- In a table without a repeated endpoint, the records with the endpoint of a stored
record are that record alone. -/
theorem filter_endpoint_single (l : List peer_information)
    (hnd : (l.map (fun i => i.endpoint)).Nodup) (i : peer_information) (hi : i ∈ l) :
    l.filter (fun j => j.endpoint == i.endpoint) = [i] := by
  induction l with
  | nil => simp at hi
  | cons a rest ih =>
    have hnd2 : a.endpoint ∉ rest.map (fun i => i.endpoint) ∧
        (rest.map (fun i => i.endpoint)).Nodup := List.nodup_cons.mp hnd
    rcases List.mem_cons.mp hi with rfl | hi
    · have hnone : rest.filter (fun j => j.endpoint == i.endpoint) = [] := by
        rw [List.filter_eq_nil_iff]
        intro j hj hje
        exact hnd2.1 (List.mem_map.mpr ⟨j, hj, by simpa using hje⟩)
      simp [List.filter_cons, hnone]
    · have hne : a.endpoint ≠ i.endpoint := by
        intro h
        exact hnd2.1 (List.mem_map.mpr ⟨i, hi, h.symm⟩)
      simp [List.filter_cons, hne, ih hnd2.2 hi]

theorem filter_map_endpoint (f : peer_information → send_call)
    (hf : ∀ j, (f j).endpoint = j.endpoint) (l : List peer_information) (e : endpoint) :
    (l.map f).filter (fun m => m.endpoint == e) =
      (l.filter (fun j => j.endpoint == e)).map f := by
  rw [List.filter_map]
  congr 1
  apply List.filter_congr
  intro j _
  simp [hf]

/-- C20: the republication policy. Every message republish_block sends for a block goes
to the endpoint of a stored peer for which knows_about is false, and is a publish of the
block or a confirm_ack of it by one of the node's representatives. In a table without a
repeated endpoint, the messages to a peer for which knows_about is false are exactly: with
no representative key, one publish (with the rebroadcast count asked for); otherwise one
confirm_ack per representative, in their order, with sequence 0 and rebroadcast count 0,
and no publish. -/
theorem C20_republication_policy (p : peer_container) (representatives : List (Nat × Nat))
    (b : block) (rebroadcast_a : Nat) (hnd : (endpoints p).Nodup) :
    (∀ m ∈ republish_block p representatives b rebroadcast_a,
      m.endpoint ∈ endpoints p ∧ p.knows_about m.endpoint b.hash = false ∧
      (m.data = .publish b ∨ ∃ key ∈ representatives, m.data = .confirm_ack key.1 key.2 0 b)) ∧
    (∀ i ∈ p.list, p.knows_about i.endpoint b.hash = false →
      (republish_block p representatives b rebroadcast_a).filter
          (fun m => m.endpoint == i.endpoint) =
        if representatives = [] then
          [{ data := .publish b, endpoint := i.endpoint, rebroadcast := rebroadcast_a }]
        else
          representatives.map (fun key =>
            { data := .confirm_ack key.1 key.2 0 b, endpoint := i.endpoint,
              rebroadcast := 0 })) := by
  rw [republish_block_eq]
  constructor
  · intro m hm
    split at hm
    · obtain ⟨j, hj, rfl⟩ := List.mem_map.mp hm
      have hj2 := List.mem_filter.mp hj
      exact ⟨List.mem_map.mpr ⟨j, hj2.1, rfl⟩, by simpa using hj2.2, Or.inl rfl⟩
    · obtain ⟨key, hkey, hm⟩ := List.mem_flatMap.mp hm
      obtain ⟨j, hj, rfl⟩ := List.mem_map.mp hm
      have hj2 := List.mem_filter.mp hj
      exact ⟨List.mem_map.mpr ⟨j, hj2.1, rfl⟩, by simpa using hj2.2,
        Or.inr ⟨key, hkey, rfl⟩⟩
  · intro i hi hk
    have hsingle : (p.list.filter (fun j => !p.knows_about j.endpoint b.hash)).filter
        (fun j => j.endpoint == i.endpoint) = [i] := by
      rw [List.filter_filter]
      have h := filter_endpoint_single p.list hnd i hi
      have h2 : p.list.filter (fun a => (a.endpoint == i.endpoint) &&
          !p.knows_about a.endpoint b.hash) =
          (p.list.filter (fun j => j.endpoint == i.endpoint)).filter
            (fun a => !p.knows_about a.endpoint b.hash) := by
        rw [List.filter_filter]
        congr 1
        funext a
        exact Bool.and_comm _ _
      rw [h2, h]
      simp [hk]
    split
    · rw [filter_map_endpoint _ (fun _ => rfl), hsingle]
      rfl
    · rw [List.filter_flatMap]
      have hc : ∀ key : Nat × Nat,
          ((p.list.filter (fun j => !p.knows_about j.endpoint b.hash)).map
            (fun j => confirm_block key.2 key.1 b 0 j.endpoint rebroadcast_a)).filter
              (fun m => m.endpoint == i.endpoint) =
          [confirm_block key.2 key.1 b 0 i.endpoint rebroadcast_a] := by
        intro key
        rw [filter_map_endpoint _ (fun _ => rfl), hsingle]
        rfl
      simp only [hc]
      have hmap : ∀ l : List (Nat × Nat),
          l.flatMap (fun key => [confirm_block key.2 key.1 b 0 i.endpoint rebroadcast_a]) =
            l.map (fun key => confirm_block key.2 key.1 b 0 i.endpoint rebroadcast_a) := by
        intro l
        induction l with
        | nil => rfl
        | cons key rest ih => simp [List.flatMap_cons, ih]
      rw [hmap]
      rfl

/-- In the table where only the first peer knows the block of hash 3, the node with the
representative keys (7, 8) and (9, 10) sends the second peer two confirm_acks. -/
theorem C20_republication_policy_witness :
    (endpoints informed_table).Nodup ∧
    (republish_block informed_table [(7, 8), (9, 10)] (toy_block 3 2) 4).filter
        (fun m => m.endpoint == peer_late.endpoint) =
      [{ data := .confirm_ack 7 8 0 (toy_block 3 2), endpoint := peer_late.endpoint,
         rebroadcast := 0 },
       { data := .confirm_ack 9 10 0 (toy_block 3 2), endpoint := peer_late.endpoint,
         rebroadcast := 0 }] :=
  ⟨by decide,
   (C20_republication_policy informed_table [(7, 8), (9, 10)] (toy_block 3 2) 4
      (by decide)).2 peer_late (by decide) (by decide)⟩

/-! ### Sending packets -/

theorem get_split {α : Type} (l : List α) : ∀ (k : Nat) (t : α), l.get? k = some t →
    ∃ a b, l = a ++ t :: b ∧ l.eraseIdx k = a ++ b := by
  induction l with
  | nil => intro k t h; simp at h
  | cons x rest ih =>
    intro k t h
    cases k with
    | zero =>
      simp only [List.get?_cons_zero, Option.some.injEq] at h
      subst h
      exact ⟨[], rest, rfl, rfl⟩
    | succ k =>
      simp only [List.get?_cons_succ] at h
      obtain ⟨a, b, h1, h2⟩ := ih k t h
      exact ⟨x :: a, b, by simp [h1], by simp [List.eraseIdx_cons_succ, h2]⟩

theorem step_completed_none (s : send_state) (k ec size : Nat)
    (hk : s.handlers.get? k = none) : s.step (.completed k ec size) = none := by
  simp only [send_state.step, hk]

theorem step_completed_some (s : send_state) (k ec size : Nat) (f : send_info)
    (hk : s.handlers.get? k = some f) :
    s.step (.completed k ec size) =
      send_handler { s with handlers := s.handlers.eraseIdx k } f ec size := by
  simp only [send_state.step, hk]

theorem step_alarm_none (s : send_state) (k : Nat) (hk : s.alarm.get? k = none) :
    s.step (.alarm k) = none := by
  simp only [send_state.step, hk]

theorem step_alarm_some (s : send_state) (k : Nat) (t : send_task)
    (hk : s.alarm.get? k = some t) :
    s.step (.alarm k) = run_task { s with alarm := s.alarm.eraseIdx k } t := by
  simp only [send_state.step, hk]

theorem send_buffer_idle (s : send_state) (x : send_info) (h : s.sends = []) :
    send_buffer s x.data x.size x.endpoint x.rebroadcast x.callback =
      some { sends := [x], handlers := s.handlers ++ [x], alarm := s.alarm,
             log := s.log ++ [.async_send_to x] } := by
  simp [send_buffer, initiate_send, h]

theorem send_buffer_busy (s : send_state) (x : send_info) (h : s.sends ≠ []) :
    send_buffer s x.data x.size x.endpoint x.rebroadcast x.callback =
      some { s with sends := s.sends ++ [x] } := by
  simp [send_buffer, h]

theorem send_handler_eq (s : send_state) (f g : send_info) (rest : List send_info)
    (ec size_a : Nat) (h : s.sends = g :: rest) :
    send_handler s f ec size_a =
      some { sends := rest, handlers := s.handlers,
             alarm := s.alarm ++ (if 0 < f.rebroadcast then [.resend f] else []) ++
               (if rest = [] then [] else [.initiate]),
             log := s.log ++ [.completion f ec size_a] ++
               (if 0 < f.rebroadcast then [] else [.callback g.callback ec size_a]) } := by
  by_cases hf : 0 < f.rebroadcast <;> by_cases hr : rest = [] <;>
    simp [send_handler, send_complete, h, hf, hr]

theorem packet_trace_snoc (report : Nat × Nat) :
    ∀ (reports : List (Nat × Nat)) (info : send_info), reports.length ≤ info.rebroadcast →
      packet_trace info (reports ++ [report]) =
        packet_trace info reports ++
          (.async_send_to (info.stage (info.rebroadcast - reports.length)) ::
           .completion (info.stage (info.rebroadcast - reports.length)) report.1 report.2 ::
           (if info.rebroadcast - reports.length = 0 then
              [.callback info.callback report.1 report.2] else [])) := by
  intro reports
  induction reports with
  | nil =>
    intro info _
    simp [packet_trace, send_info.stage]
  | cons a rest ih =>
    intro info h
    simp only [List.length_cons] at h
    have h0 : info.rebroadcast ≠ 0 := by omega
    have h1 : rest.length ≤ (info.stage (info.rebroadcast - 1)).rebroadcast := by
      simp only [send_info.stage]
      omega
    have := ih (info.stage (info.rebroadcast - 1)) h1
    have h2 : info.rebroadcast - 1 - rest.length = info.rebroadcast - (rest.length + 1) := by
      omega
    simp only [send_info.stage, h2] at this
    rw [List.cons_append]
    simp only [packet_trace, h0, if_false, this, List.length_cons, send_info.stage,
      List.cons_append]

theorem send_buffer_invariant (s s1 : send_state) (x : send_info) (hG : send_invariant s)
    (h : send_buffer s x.data x.size x.endpoint x.rebroadcast x.callback = some s1) :
    send_invariant s1 := by
  by_cases he : s.sends = []
  · rw [send_buffer_idle s x he] at h
    simp only [Option.some.injEq] at h
    subst h
    rcases hG with ⟨_, hh, ha⟩ | ⟨f, rest, hs, _, _⟩ | ⟨hs, _, _⟩
    · exact Or.inr (Or.inl ⟨x, [], rfl, by simp [hh], ha⟩)
    · rw [he] at hs
      cases hs
    · exact absurd he hs
  · rw [send_buffer_busy s x he] at h
    simp only [Option.some.injEq] at h
    subst h
    rcases hG with ⟨hs, _, _⟩ | ⟨f, rest, hs, hh, ha⟩ | ⟨hs, hh, ha⟩
    · exact absurd hs he
    · exact Or.inr (Or.inl ⟨f, rest ++ [x], by simp [hs], hh, ha⟩)
    · exact Or.inr (Or.inr ⟨by simp, hh, ha⟩)

theorem filter_split_single {α : Type} (p : α → Bool) (a b : List α) (t : α)
    (hp : p t = true) (h : (a ++ t :: b).filter p = [t]) :
    a.filter p = [] ∧ b.filter p = [] := by
  simp only [List.filter_append, List.filter_cons, hp, if_true] at h
  have hlen := congrArg List.length h
  simp only [List.length_append, List.length_cons, List.length_singleton,
    List.length_nil] at hlen
  exact ⟨List.length_eq_zero.mp (by omega), List.length_eq_zero.mp (by omega)⟩

theorem filter_split_other {α : Type} (p : α → Bool) (a b : List α) (t : α)
    (hp : p t = false) : (a ++ t :: b).filter p = (a ++ b).filter p := by
  simp [List.filter_append, List.filter_cons, hp]

/-- The invariant of the sending side holds after every event. -/
theorem step_invariant (s s1 : send_state) (event : send_event) (hG : send_invariant s)
    (h : s.step event = some s1) : send_invariant s1 := by
  cases event with
  | send_buffer d z e r c =>
    exact send_buffer_invariant s s1 ⟨d, z, e, r, c⟩ hG h
  | completed k ec size =>
    cases hk : s.handlers.get? k with
    | none => rw [step_completed_none s k ec size hk] at h; cases h
    | some f =>
      rw [step_completed_some s k ec size f hk] at h
      rcases hG with ⟨_, hh, _⟩ | ⟨g, rest, hs, hh, ha⟩ | ⟨_, hh, _⟩
      · simp [hh] at hk
      · rw [send_handler_eq { s with handlers := s.handlers.eraseIdx k } f g rest ec size hs] at h
        simp only [Option.some.injEq] at h
        subst h
        have hk0 : k = 0 := by
          cases k with
          | zero => rfl
          | succ k => simp [hh] at hk
        subst hk0
        by_cases hr : rest = []
        · left
          refine ⟨hr, by simp [hh], ?_⟩
          by_cases hf : 0 < f.rebroadcast <;>
            simp [hf, hr, ha, List.filter_append, send_task.is_initiate]
        · right; right
          refine ⟨hr, by simp [hh], ?_⟩
          by_cases hf : 0 < f.rebroadcast <;>
            simp [hf, hr, ha, List.filter_append, send_task.is_initiate]
      · simp [hh] at hk
  | alarm k =>
    cases hk : s.alarm.get? k with
    | none => rw [step_alarm_none s k hk] at h; cases h
    | some t =>
      rw [step_alarm_some s k t hk] at h
      obtain ⟨a, b, hab, herase⟩ := get_split s.alarm k t hk
      rw [herase] at h
      cases t with
      | initiate =>
        simp only [run_task, initiate_send] at h
        rcases hG with ⟨_, _, ha⟩ | ⟨g, rest, _, _, ha⟩ | ⟨hs, hh, ha⟩
        · simp [hab, List.filter_append, send_task.is_initiate] at ha
        · simp [hab, List.filter_append, send_task.is_initiate] at ha
        · cases hsends : s.sends with
          | nil => exact absurd hsends hs
          | cons g rest =>
            simp only [hsends, Option.some.injEq] at h
            subst h
            rw [hab] at ha
            have hsplit := filter_split_single send_task.is_initiate a b .initiate rfl ha
            exact Or.inr (Or.inl ⟨g, rest, rfl, by simp [hh],
              by simp [List.filter_append, hsplit.1, hsplit.2]⟩)
      | resend f =>
        simp only [run_task] at h
        have hG1 : send_invariant { s with alarm := a ++ b } := by
          have hf2 : (a ++ b).filter send_task.is_initiate =
              s.alarm.filter send_task.is_initiate := by
            rw [hab]
            exact (filter_split_other send_task.is_initiate a b (.resend f) rfl).symm
          rcases hG with ⟨hs, hh, ha⟩ | ⟨g, rest, hs, hh, ha⟩ | ⟨hs, hh, ha⟩
          · exact Or.inl ⟨hs, hh, by rw [hf2]; exact ha⟩
          · exact Or.inr (Or.inl ⟨g, rest, hs, hh, by rw [hf2]; exact ha⟩)
          · exact Or.inr (Or.inr ⟨hs, hh, by rw [hf2]; exact ha⟩)
        exact send_buffer_invariant _ s1 (f.stage (f.rebroadcast - 1)) hG1 h

theorem push_view_other (cb : Nat) (s s1 : send_state) (x : send_info)
    (hx : x.callback ≠ cb)
    (h : send_buffer s x.data x.size x.endpoint x.rebroadcast x.callback = some s1) :
    packet_view cb s1 = packet_view cb s := by
  by_cases he : s.sends = []
  · rw [send_buffer_idle s x he] at h
    simp only [Option.some.injEq] at h
    subst h
    simp [packet_view, List.filter_append, wire_event.about, hx, he]
  · rw [send_buffer_busy s x he] at h
    simp only [Option.some.injEq] at h
    subst h
    simp [packet_view, List.filter_append, hx]

theorem push_view_mine (s s1 : send_state) (x : send_info) (hG : send_invariant s)
    (h : send_buffer s x.data x.size x.endpoint x.rebroadcast x.callback = some s1) :
    ((packet_view x.callback s).sends = [] ∧ (packet_view x.callback s).handlers = [] ∧
      packet_view x.callback s1 =
        { sends := [x], handlers := [x], alarm := (packet_view x.callback s).alarm,
          log := (packet_view x.callback s).log ++ [.async_send_to x] }) ∨
    (packet_view x.callback s1 =
        { sends := (packet_view x.callback s).sends ++ [x],
          handlers := (packet_view x.callback s).handlers,
          alarm := (packet_view x.callback s).alarm,
          log := (packet_view x.callback s).log }) := by
  by_cases he : s.sends = []
  · rw [send_buffer_idle s x he] at h
    simp only [Option.some.injEq] at h
    subst h
    have hh : s.handlers = [] := by
      rcases hG with ⟨_, hh, _⟩ | ⟨f, rest, hs, _, _⟩ | ⟨hs, _, _⟩
      · exact hh
      · rw [he] at hs
        cases hs
      · exact absurd he hs
    left
    simp [packet_view, List.filter_append, wire_event.about, he, hh]
  · rw [send_buffer_busy s x he] at h
    simp only [Option.some.injEq] at h
    subst h
    right
    simp [packet_view, List.filter_append]

/-- What an event that is not a call of `send_buffer` with the callback `cb` does to what
the node holds about `cb`: nothing; or the transmission of a packet with that callback
completes, and with a positive count its re-send is scheduled, with count 0 its callback
is called; or the packet at the front of the queue is handed to the socket; or the alarm
runs the re-send, which puts the packet with its count less one at the back of the queue
(and hands it to the socket if the queue was empty). -/
theorem step_view (cb : Nat) (s s1 : send_state) (event : send_event)
    (hG : send_invariant s) (hev : event.calls cb = false) (h : s.step event = some s1) :
    packet_view cb s1 = packet_view cb s ∨
    (∃ f rest ec size, f.callback = cb ∧ (packet_view cb s).sends = f :: rest ∧
      (packet_view cb s).handlers = [f] ∧
      packet_view cb s1 =
        { sends := rest, handlers := [],
          alarm := (packet_view cb s).alarm ++ (if 0 < f.rebroadcast then [.resend f] else []),
          log := (packet_view cb s).log ++ .completion f ec size ::
            (if 0 < f.rebroadcast then [] else [.callback cb ec size]) }) ∨
    (∃ f rest, f.callback = cb ∧ (packet_view cb s).sends = f :: rest ∧
      (packet_view cb s).handlers = [] ∧
      packet_view cb s1 =
        { sends := f :: rest, handlers := [f], alarm := (packet_view cb s).alarm,
          log := (packet_view cb s).log ++ [.async_send_to f] }) ∨
    (∃ f a b, f.callback = cb ∧ (packet_view cb s).alarm = a ++ .resend f :: b ∧
      (((packet_view cb s).sends = [] ∧ (packet_view cb s).handlers = [] ∧
        packet_view cb s1 =
          { sends := [f.stage (f.rebroadcast - 1)], handlers := [f.stage (f.rebroadcast - 1)],
            alarm := a ++ b,
            log := (packet_view cb s).log ++ [.async_send_to (f.stage (f.rebroadcast - 1))] }) ∨
       packet_view cb s1 =
          { sends := (packet_view cb s).sends ++ [f.stage (f.rebroadcast - 1)],
            handlers := (packet_view cb s).handlers, alarm := a ++ b,
            log := (packet_view cb s).log })) := by
  cases event with
  | send_buffer d z e r c =>
    left
    have hc : c ≠ cb := by simpa [send_event.calls] using hev
    exact push_view_other cb s s1 ⟨d, z, e, r, c⟩ hc h
  | completed k ec size =>
    cases hk : s.handlers.get? k with
    | none => rw [step_completed_none s k ec size hk] at h; cases h
    | some f =>
      rw [step_completed_some s k ec size f hk] at h
      rcases hG with ⟨_, hh, _⟩ | ⟨g, rest, hs, hh, ha⟩ | ⟨_, hh, _⟩
      · simp [hh] at hk
      · rw [send_handler_eq { s with handlers := s.handlers.eraseIdx k } f g rest ec size hs] at h
        simp only [Option.some.injEq] at h
        subst h
        have hk0 : k = 0 := by
          cases k with
          | zero => rfl
          | succ k => simp [hh] at hk
        subst hk0
        have hfg : f = g := by simpa [hh] using hk.symm
        subst hfg
        by_cases hm : f.callback = cb
        · right; left
          refine ⟨f, rest.filter (fun x => x.callback == cb), ec, size, hm, ?_, ?_, ?_⟩
          · simp [packet_view, hs, hm]
          · simp [packet_view, hh, hm]
          · by_cases hf : 0 < f.rebroadcast <;> by_cases hr : rest = [] <;>
              simp [packet_view, hh, hm, hf, hr, List.filter_append, send_task.about,
                wire_event.about]
        · left
          by_cases hf : 0 < f.rebroadcast <;> by_cases hr : rest = [] <;>
            simp [packet_view, hh, hs, hm, hf, hr, List.filter_append, send_task.about,
              wire_event.about]
      · simp [hh] at hk
  | alarm k =>
    cases hk : s.alarm.get? k with
    | none => rw [step_alarm_none s k hk] at h; cases h
    | some t =>
      rw [step_alarm_some s k t hk] at h
      obtain ⟨a, b, hab, herase⟩ := get_split s.alarm k t hk
      rw [herase] at h
      cases t with
      | initiate =>
        simp only [run_task, initiate_send] at h
        rcases hG with ⟨_, _, ha⟩ | ⟨g, rest, _, _, ha⟩ | ⟨hs, hh, ha⟩
        · simp [hab, List.filter_append, send_task.is_initiate] at ha
        · simp [hab, List.filter_append, send_task.is_initiate] at ha
        · cases hsends : s.sends with
          | nil => exact absurd hsends hs
          | cons g rest =>
            simp only [hsends, Option.some.injEq] at h
            subst h
            by_cases hm : g.callback = cb
            · right; right; left
              refine ⟨g, rest.filter (fun x => x.callback == cb), hm, ?_, ?_, ?_⟩
              · simp [packet_view, hsends, hm]
              · simp [packet_view, hh]
              · simp [packet_view, hh, hm, hab, List.filter_append, send_task.about,
                  wire_event.about]
            · left
              simp [packet_view, hh, hm, hab, hsends, List.filter_append, send_task.about,
                wire_event.about]
      | resend f =>
        simp only [run_task] at h
        have hG1 : send_invariant { s with alarm := a ++ b } := by
          have hf2 : (a ++ b).filter send_task.is_initiate =
              s.alarm.filter send_task.is_initiate := by
            rw [hab]
            exact (filter_split_other send_task.is_initiate a b (.resend f) rfl).symm
          rcases hG with ⟨hs, hh, ha⟩ | ⟨g, rest, hs, hh, ha⟩ | ⟨hs, hh, ha⟩
          · exact Or.inl ⟨hs, hh, by rw [hf2]; exact ha⟩
          · exact Or.inr (Or.inl ⟨g, rest, hs, hh, by rw [hf2]; exact ha⟩)
          · exact Or.inr (Or.inr ⟨hs, hh, by rw [hf2]; exact ha⟩)
        by_cases hm : f.callback = cb
        · right; right; right
          refine ⟨f, a.filter (send_task.about cb), b.filter (send_task.about cb), hm, ?_, ?_⟩
          · simp [packet_view, hab, List.filter_append, send_task.about, hm]
          · have hp := push_view_mine _ s1 (f.stage (f.rebroadcast - 1)) hG1 h
            have hcb : (f.stage (f.rebroadcast - 1)).callback = cb := hm
            rw [hcb] at hp
            rcases hp with ⟨h1, h2, h3⟩ | h3
            · left
              refine ⟨h1, h2, ?_⟩
              rw [h3]
              simp [packet_view, List.filter_append]
            · right
              rw [h3]
              simp [packet_view, List.filter_append]
        · left
          have hp := push_view_other cb _ s1 (f.stage (f.rebroadcast - 1)) hm h
          rw [hp]
          simp [packet_view, hab, List.filter_append, send_task.about, hm]

theorem append_cons_singleton {α : Type} (a b : List α) (t x : α)
    (h : a ++ t :: b = [x]) : a = [] ∧ t = x ∧ b = [] := by
  cases a with
  | nil =>
    simp only [List.nil_append, List.cons.injEq] at h
    exact ⟨rfl, h.1, h.2⟩
  | cons y rest =>
    simp at h

theorem stage_stage (info : send_info) (k j : Nat) : (info.stage k).stage j = info.stage j :=
  rfl

/-- Every event that is not a call with the packet's callback takes the packet from where
it stands to where it stands next, with the same reports or one more. -/
theorem phase_step (info : send_info) (s s1 : send_state) (event : send_event)
    (reports : List (Nat × Nat)) (hG : send_invariant s)
    (hev : event.calls info.callback = false) (h : s.step event = some s1)
    (hph : packet_phase info (packet_view info.callback s) reports) :
    ∃ more, packet_phase info (packet_view info.callback s1) (reports ++ more) := by
  obtain ⟨hlog, hplace⟩ := hph
  rcases step_view info.callback s s1 event hG hev h with hv | ⟨f, rest, ec, size, hm, hs, hh, hv⟩ |
    ⟨f, rest, hm, hs, hh, hv⟩ | ⟨f, a, b, hm, ha, hv⟩
  · refine ⟨[], ?_⟩
    rw [List.append_nil, hv]
    exact ⟨hlog, hplace⟩
  · rcases hplace with ⟨hn, hsends, halarm, hhand⟩ | ⟨_, _, _, hhand, _⟩ | ⟨_, _, hhand, _⟩
    · rcases hhand with hhand | hhand
      · rw [hhand] at hh
        cases hh
      · rw [hhand] at hh
        simp only [List.cons.injEq, and_true] at hh
        subst hh
        rw [hsends] at hs
        simp only [List.cons.injEq, true_and] at hs
        subst hs
        refine ⟨[(ec, size)], ?_⟩
        rw [hv, halarm, hlog, hhand]
        unfold packet_phase
        rw [packet_trace_snoc (ec, size) reports info hn]
        simp only [send_info.stage, List.length_append, List.length_singleton]
        by_cases hk : 0 < info.rebroadcast - reports.length
        · have hk2 : info.rebroadcast - reports.length ≠ 0 := by omega
          have hk3 : info.rebroadcast - (reports.length + 1) + 1 =
              info.rebroadcast - reports.length := by omega
          refine ⟨by simp [hk, hk2], Or.inr (Or.inl ⟨by omega, by simp, trivial, trivial, ?_⟩)⟩
          simp [hk, hk3]
        · have hk2 : info.rebroadcast - reports.length = 0 := by omega
          refine ⟨by simp [hk2], Or.inr (Or.inr ⟨by omega, trivial, trivial, ?_⟩)⟩
          simp [hk2]
    · rw [hhand] at hh
      cases hh
    · rw [hhand] at hh
      cases hh
  · rcases hplace with ⟨hn, hsends, halarm, hhand⟩ | ⟨_, _, hsends, _, _⟩ | ⟨_, hsends, _, _⟩
    · rw [hsends] at hs
      simp only [List.cons.injEq] at hs
      obtain ⟨hs1, hs2⟩ := hs
      subst hs1
      subst hs2
      refine ⟨[], ?_⟩
      rw [List.append_nil, hv, halarm, hlog, hh]
      exact ⟨by simp, Or.inl ⟨hn, rfl, rfl, Or.inr rfl⟩⟩
    · rw [hsends] at hs
      cases hs
    · rw [hsends] at hs
      cases hs
  · rcases hplace with ⟨_, _, halarm, _⟩ | ⟨hn, hne, hsends, hhand, halarm⟩ | ⟨_, _, _, halarm⟩
    · rw [halarm] at ha
      simp at ha
    · rw [halarm] at ha
      obtain ⟨ha1, ha2, ha3⟩ := append_cons_singleton a b _ _ ha.symm
      subst ha1
      subst ha3
      simp only [send_task.resend.injEq] at ha2
      subst ha2
      have hlen : 0 < reports.length := List.length_pos.mpr hne
      have hst : (info.stage (info.rebroadcast - reports.length + 1)).stage
          ((info.stage (info.rebroadcast - reports.length + 1)).rebroadcast - 1) =
          info.stage (info.rebroadcast - reports.length) := by
        simp [send_info.stage]
      rw [hst] at hv
      refine ⟨[], ?_⟩
      rw [List.append_nil]
      rcases hv with ⟨_, _, hv⟩ | hv
      · rw [hv, hlog, hhand]
        exact ⟨by simp, Or.inl ⟨hn, rfl, rfl, Or.inr rfl⟩⟩
      · rw [hv, hlog, hhand, hsends]
        exact ⟨by simp, Or.inl ⟨hn, rfl, rfl, Or.inl rfl⟩⟩
    · rw [halarm] at ha
      simp at ha

theorem run_append (events more : List send_event) :
    ∀ (s s2 : send_state), s.run (events ++ more) = some s2 →
      ∃ s1, s.run events = some s1 ∧ s1.run more = some s2 := by
  induction events with
  | nil => intro s s2 h; exact ⟨s, rfl, h⟩
  | cons event rest ih =>
    intro s s2 h
    simp only [List.cons_append, send_state.run] at h ⊢
    cases hstep : s.step event with
    | none => simp [hstep] at h
    | some s1 =>
      simp only [hstep] at h ⊢
      exact ih s1 s2 h

theorem run_invariant (events : List send_event) :
    ∀ (s s1 : send_state), send_invariant s → s.run events = some s1 → send_invariant s1 := by
  induction events with
  | nil =>
    intro s s1 hG h
    simp only [send_state.run, Option.some.injEq] at h
    exact h ▸ hG
  | cons event rest ih =>
    intro s s1 hG h
    simp only [send_state.run] at h
    cases hstep : s.step event with
    | none => simp [hstep] at h
    | some s2 =>
      simp only [hstep] at h
      exact ih s2 s1 (step_invariant s s2 event hG hstep) h

/-- While nothing is queued, outstanding or pending for the callback `cb`, events other
than a call with `cb` leave what the node holds about `cb` as it is. -/
theorem run_absent (cb : Nat) (events : List send_event) :
    ∀ (s s1 : send_state), send_invariant s → (∀ event ∈ events, event.calls cb = false) →
      (packet_view cb s).sends = [] → (packet_view cb s).handlers = [] →
      (packet_view cb s).alarm = [] → s.run events = some s1 →
      packet_view cb s1 = packet_view cb s := by
  induction events with
  | nil =>
    intro s s1 _ _ _ _ _ h
    simp only [send_state.run, Option.some.injEq] at h
    rw [h]
  | cons event rest ih =>
    intro s s1 hG hev h1 h2 h3 h
    simp only [send_state.run] at h
    cases hstep : s.step event with
    | none => simp [hstep] at h
    | some s2 =>
      simp only [hstep] at h
      have hview : packet_view cb s2 = packet_view cb s := by
        rcases step_view cb s s2 event hG (hev event (List.mem_cons_self _ _)) hstep with
          hv | ⟨f, r, _, _, _, _, hh, _⟩ | ⟨f, r, _, hs, _, _⟩ | ⟨f, a, b, _, ha, _⟩
        · exact hv
        · rw [h2] at hh
          cases hh
        · rw [h1] at hs
          cases hs
        · rw [h3] at ha
          simp at ha
      rw [← hview]
      exact ih s2 s1 (step_invariant s s2 event hG hstep)
        (fun e he => hev e (List.mem_cons_of_mem _ he))
        (by rw [hview]; exact h1) (by rw [hview]; exact h2) (by rw [hview]; exact h3) h

theorem run_phase (info : send_info) (events : List send_event) :
    ∀ (s s1 : send_state) (reports : List (Nat × Nat)), send_invariant s →
      (∀ event ∈ events, event.calls info.callback = false) →
      packet_phase info (packet_view info.callback s) reports → s.run events = some s1 →
      ∃ more, packet_phase info (packet_view info.callback s1) (reports ++ more) := by
  induction events with
  | nil =>
    intro s s1 reports _ _ hph h
    simp only [send_state.run, Option.some.injEq] at h
    exact ⟨[], by rw [List.append_nil, ← h]; exact hph⟩
  | cons event rest ih =>
    intro s s1 reports hG hev hph h
    simp only [send_state.run] at h
    cases hstep : s.step event with
    | none => simp [hstep] at h
    | some s2 =>
      simp only [hstep] at h
      obtain ⟨m1, h1⟩ := phase_step info s s2 event reports hG
        (hev event (List.mem_cons_self _ _)) hstep hph
      obtain ⟨m2, h2⟩ := ih s2 s1 (reports ++ m1) (step_invariant s s2 event hG hstep)
        (fun e he => hev e (List.mem_cons_of_mem _ he)) h1 h
      exact ⟨m1 ++ m2, by rw [← List.append_assoc]; exact h2⟩

theorem new_invariant : send_invariant send_state.new :=
  Or.inl ⟨rfl, rfl, rfl⟩

/-- The life of a packet up to its last transmission: no callback yet, and the counts of
the transmissions go down from the count asked for, one by one. -/
theorem packet_trace_early (info : send_info) (reports : List (Nat × Nat)) :
    reports.length ≤ info.rebroadcast →
      (packet_trace info reports).filter wire_event.is_callback = [] ∧
      (packet_trace info reports).filterMap wire_event.transmitted =
        (List.range reports.length).map (fun i => info.stage (info.rebroadcast - i)) := by
  induction reports using List.reverseRecOn with
  | nil => intro _; exact ⟨rfl, rfl⟩
  | append_singleton init last ih =>
    intro h
    simp only [List.length_append, List.length_singleton] at h
    have hi : init.length ≤ info.rebroadcast := by omega
    have hk : info.rebroadcast - init.length ≠ 0 := by omega
    obtain ⟨ih1, ih2⟩ := ih hi
    rw [packet_trace_snoc last init info hi]
    constructor
    · simp [List.filter_append, ih1, wire_event.is_callback, hk]
    · simp [List.filterMap_append, ih2, wire_event.transmitted, hk, List.range_succ]

/-- In a reachable state every event that names an outstanding send or a pending operation
happens: no assertion of the sending code fails. -/
theorem step_enabled (s : send_state) (event : send_event) (hG : send_invariant s)
    (hk : match event with
      | .send_buffer _ _ _ _ _ => True
      | .completed k _ _ => k < s.handlers.length
      | .alarm k => k < s.alarm.length) :
    ∃ s1, s.step event = some s1 := by
  cases event with
  | send_buffer d z e r c =>
    by_cases he : s.sends = []
    · exact ⟨_, send_buffer_idle s ⟨d, z, e, r, c⟩ he⟩
    · exact ⟨_, send_buffer_busy s ⟨d, z, e, r, c⟩ he⟩
  | completed k ec size =>
    simp only at hk
    rcases hG with ⟨_, hh, _⟩ | ⟨g, rest, hs, hh, ha⟩ | ⟨_, hh, _⟩
    · simp [hh] at hk
    · have hget : s.handlers.get? k = some (s.handlers.get ⟨k, hk⟩) := List.get?_eq_get hk
      rw [step_completed_some s k ec size _ hget]
      exact ⟨_, send_handler_eq _ _ g rest ec size hs⟩
    · simp [hh] at hk
  | alarm k =>
    simp only at hk
    have hget : s.alarm.get? k = some (s.alarm.get ⟨k, hk⟩) := List.get?_eq_get hk
    rw [step_alarm_some s k _ hget]
    obtain ⟨a, b, hab, _⟩ := get_split s.alarm k _ hget
    cases ht : s.alarm.get ⟨k, hk⟩ with
    | resend f =>
      simp only [run_task]
      by_cases he : s.sends = []
      · exact ⟨_, send_buffer_idle _ (f.stage (f.rebroadcast - 1)) he⟩
      · exact ⟨_, send_buffer_busy _ (f.stage (f.rebroadcast - 1)) he⟩
    | initiate =>
      rw [ht] at hab
      rcases hG with ⟨_, _, ha⟩ | ⟨g, rest, _, _, ha⟩ | ⟨hs, hh, ha⟩
      · simp [hab, List.filter_append, send_task.is_initiate] at ha
      · simp [hab, List.filter_append, send_task.is_initiate] at ha
      · cases hsends : s.sends with
        | nil => exact absurd hsends hs
        | cons g rest => simp [run_task, initiate_send, hsends]

/-- C16: the contract of send_buffer. Take any run of the sending side from the start:
calls of send_buffer by any threads, completions of outstanding sends with any error codes
and sizes, and pending alarm operations run in any order. If the run has one call
send_buffer (data, size, endpoint, r, cb) with the callback cb, and at the end no record
with cb is queued and no re-send with cb is pending (all the transmissions of the packet
have completed and the re-sends have run), then the log entries about cb are the life of
the packet: r + 1 transmissions, each followed by its completion, with the counts r,
r - 1, ..., 0 (each re-send is queued with the count less one), and then one invocation of
cb, which is the last entry, comes right after the completion of the transmission with
count 0 and carries the error code and the size of that completion. No callback is
invoked before. -/
theorem C16_send_buffer_contract (pre post : List send_event) (info : send_info)
    (s : send_state)
    (hpre : ∀ event ∈ pre, event.calls info.callback = false)
    (hpost : ∀ event ∈ post, event.calls info.callback = false)
    (hrun : send_state.new.run (pre ++ .send_buffer info.data info.size info.endpoint
      info.rebroadcast info.callback :: post) = some s)
    (hsends : ∀ x ∈ s.sends, x.callback ≠ info.callback)
    (halarm : ∀ task ∈ s.alarm, task.about info.callback = false) :
    ∃ (reports : List (Nat × Nat)) (earlier : List wire_event) (ec size : Nat),
      reports.length = info.rebroadcast + 1 ∧
      s.log.filter (wire_event.about info.callback) = packet_trace info reports ∧
      s.log.filter (wire_event.about info.callback) =
        earlier ++ [.async_send_to (info.stage 0), .completion (info.stage 0) ec size,
          .callback info.callback ec size] ∧
      earlier.filter wire_event.is_callback = [] ∧
      (s.log.filter (wire_event.about info.callback)).filterMap wire_event.transmitted =
        (List.range (info.rebroadcast + 1)).map (fun i => info.stage (info.rebroadcast - i)) := by
  obtain ⟨s1, hrun1, hrest⟩ := run_append pre _ send_state.new s hrun
  simp only [send_state.run] at hrest
  cases hstep : s1.step (.send_buffer info.data info.size info.endpoint info.rebroadcast
      info.callback) with
  | none => simp [hstep] at hrest
  | some s2 =>
    simp only [hstep] at hrest
    have hG1 := run_invariant pre _ s1 new_invariant hrun1
    have hG2 := step_invariant s1 s2 _ hG1 hstep
    have hv1 := run_absent info.callback pre _ s1 new_invariant hpre rfl rfl rfl hrun1
    have hv1s : (packet_view info.callback s1).sends = [] := by rw [hv1]; rfl
    have hv1h : (packet_view info.callback s1).handlers = [] := by rw [hv1]; rfl
    have hv1a : (packet_view info.callback s1).alarm = [] := by rw [hv1]; rfl
    have hv1l : (packet_view info.callback s1).log = [] := by rw [hv1]; rfl
    have hph2 : packet_phase info (packet_view info.callback s2) [] := by
      rcases push_view_mine s1 s2 info hG1 hstep with ⟨_, _, hv⟩ | hv
      · rw [hv, hv1a, hv1l]
        exact ⟨rfl, Or.inl ⟨Nat.zero_le _, rfl, rfl, Or.inr rfl⟩⟩
      · rw [hv, hv1s, hv1h, hv1a, hv1l]
        exact ⟨rfl, Or.inl ⟨Nat.zero_le _, rfl, rfl, Or.inl rfl⟩⟩
    obtain ⟨reports, hlog, hplace⟩ := run_phase info post s2 s [] hG2 hpost hph2 hrest
    rw [List.nil_append] at hlog hplace
    have hs0 : (packet_view info.callback s).sends = [] := by
      simp only [packet_view, List.filter_eq_nil_iff]
      intro x hx
      simpa using hsends x hx
    have ha0 : (packet_view info.callback s).alarm = [] := by
      simp only [packet_view, List.filter_eq_nil_iff]
      intro t ht
      simpa using halarm t ht
    rcases hplace with ⟨_, hsx, _, _⟩ | ⟨_, _, _, _, hax⟩ | ⟨hlen, _, hhx, _⟩
    · rw [hs0] at hsx
      cases hsx
    · rw [ha0] at hax
      cases hax
    · rw [hhx, List.map_nil, List.append_nil] at hlog
      have hlog2 : s.log.filter (wire_event.about info.callback) = packet_trace info reports :=
        hlog
      rcases List.eq_nil_or_concat reports with hnil | ⟨init, last, hcat⟩
      · rw [hnil] at hlen
        simp at hlen
      · rw [List.concat_eq_append] at hcat
        have hinit : init.length = info.rebroadcast := by
          rw [hcat] at hlen
          simpa using hlen
        have hsnoc := packet_trace_snoc last init info (le_of_eq hinit)
        have hzero : info.rebroadcast - init.length = 0 := by omega
        simp only [hzero, if_true] at hsnoc
        obtain ⟨he1, he2⟩ := packet_trace_early info init (le_of_eq hinit)
        refine ⟨reports, packet_trace info init, last.1, last.2, hlen, hlog2, ?_, he1, ?_⟩
        · rw [hlog2, hcat, hsnoc]
        · rw [hlog2, hcat, hsnoc, List.filterMap_append, he2, hinit, List.range_succ,
            List.map_append]
          simp [wire_event.transmitted]

/-- The sample packet (count 2, callback 7) sent while another packet (callback 8) is
queued behind it, with the second transmission failing with error code 5: three
transmissions, then callback 7 once, with the error code 9 and the size 64 of the last
completion. -/
theorem C16_send_buffer_contract_witness :
    ∃ (reports : List (Nat × Nat)) (earlier : List wire_event) (ec size : Nat),
      reports.length = sample_send.rebroadcast + 1 ∧
      sample_send_end.log.filter (wire_event.about sample_send.callback) =
        packet_trace sample_send reports ∧
      sample_send_end.log.filter (wire_event.about sample_send.callback) =
        earlier ++ [.async_send_to (sample_send.stage 0),
          .completion (sample_send.stage 0) ec size, .callback sample_send.callback ec size] ∧
      earlier.filter wire_event.is_callback = [] ∧
      (sample_send_end.log.filter (wire_event.about sample_send.callback)).filterMap
          wire_event.transmitted =
        (List.range (sample_send.rebroadcast + 1)).map
          (fun i => sample_send.stage (sample_send.rebroadcast - i)) :=
  C16_send_buffer_contract [] sample_events sample_send sample_send_end
    (by decide) (by decide) (by decide) (by decide) (by decide)

/-! ### Known peers and purging -/

theorem find_of_nodup (l : List peer_information)
    (hnd : (l.map (fun i => i.endpoint)).Nodup) (i : peer_information) (hi : i ∈ l) :
    l.find? (fun j => j.endpoint == i.endpoint) = some i := by
  induction l with
  | nil => simp at hi
  | cons a rest ih =>
    have hnd2 : a.endpoint ∉ rest.map (fun i => i.endpoint) ∧
        (rest.map (fun i => i.endpoint)).Nodup := List.nodup_cons.mp hnd
    rcases List.mem_cons.mp hi with rfl | hi
    · simp
    · have hne : a.endpoint ≠ i.endpoint := by
        intro h
        exact hnd2.1 (List.mem_map.mpr ⟨i, hi, h.symm⟩)
      simp [List.find?_cons, hne, ih hnd2.2 hi]

/-- C24 (as stated, refuted): a peer at the exact boundary is neither inside the window
nor purged. With the clock at 300020 the cutoff handed to purge_list is 20; the peer last
heard from at time 20 does not have last_contact > 20, known_peer does not count it as
known, and it is still in the table after purge_list (20). -/
theorem C24_boundary_peer_is_kept :
    peer_late ∈ boundary_table.peers ∧
    ¬ (peer_late.last_contact > 300020 - node_cutoff) ∧
    boundary_table.known_peer peer_late.endpoint 300020 = false ∧
    (boundary_table.purge_list (300020 - node_cutoff) 300020).table.find peer_late.endpoint =
      some { peer_late with last_attempt := 300020 } := by
  decide

/-- C24 (amended): in a table that stores no endpoint twice, for every stored peer and
every cutoff c (the node passes now - 5min): a peer with last_contact < c is no longer in
the table after purge_list (c), and a peer with last_contact ≥ c, the one at the exact
boundary last_contact = c included, is still in the table, with only last_attempt
changed. So every stored peer has last_contact ≥ c or is removed. -/
theorem C24_purge_window (p : peer_container) (c now : Nat) (i : peer_information)
    (hnd : (endpoints p).Nodup) (hi : i ∈ p.peers) :
    (i.last_contact < c → (p.purge_list c now).table.find i.endpoint = none) ∧
    (c ≤ i.last_contact →
      (p.purge_list c now).table.find i.endpoint = some { i with last_attempt := now }) ∧
    (c ≤ i.last_contact ∨ i.endpoint ∉ endpoints (p.purge_list c now).table) := by
  have hpeers := purge_list_peers_eq p c now
  have hkept : ∀ e, e ∈ endpoints (p.purge_list c now).table →
      ∃ j ∈ p.peers, j.endpoint = e ∧ c ≤ j.last_contact := by
    intro e he
    simp only [endpoints, hpeers, List.map_map, List.mem_map, List.mem_filter] at he
    obtain ⟨j, ⟨hj, hc⟩, rfl⟩ := he
    exact ⟨j, hj, rfl, by simpa using hc⟩
  have hgone : i.last_contact < c → i.endpoint ∉ endpoints (p.purge_list c now).table := by
    intro hlt he
    obtain ⟨j, hj, hje, hc⟩ := hkept _ he
    have : j = i := List.inj_on_of_nodup_map hnd hj hi hje
    subst this
    omega
  refine ⟨?_, ?_, ?_⟩
  · intro hlt
    cases hf : (p.purge_list c now).table.find i.endpoint with
    | none => rfl
    | some x => exact absurd (find_some_mem _ _ x hf) (hgone hlt)
  · intro hge
    unfold peer_container.find
    rw [hpeers]
    have hnd2 : (((p.peers.filter (fun i => decide (c ≤ i.last_contact))).map
        (fun info => { info with last_attempt := now })).map (fun i => i.endpoint)).Nodup := by
      rw [List.map_map]
      exact (List.Nodup.sublist ((List.filter_sublist _).map _) hnd)
    have hmem : ({ i with last_attempt := now } : peer_information) ∈
        (p.peers.filter (fun i => decide (c ≤ i.last_contact))).map
          (fun info => { info with last_attempt := now }) :=
      List.mem_map.mpr ⟨i, List.mem_filter.mpr ⟨hi, by simpa using hge⟩, rfl⟩
    exact find_of_nodup _ hnd2 _ hmem
  · by_cases h : c ≤ i.last_contact
    · exact Or.inl h
    · exact Or.inr (hgone (by omega))

/-- In the two-peer table with cutoff 10, the peer last heard from at time 5 is gone
after purge_list and the peer last heard from at time 20 is kept. -/
theorem C24_purge_window_witness :
    (two_peer_table.purge_list 10 30).table.find peer_early.endpoint = none ∧
    (two_peer_table.purge_list 10 30).table.find peer_late.endpoint =
      some { peer_late with last_attempt := 30 } :=
  ⟨(C24_purge_window two_peer_table 10 30 peer_early (by decide) (by decide)).1 (by decide),
   (C24_purge_window two_peer_table 10 30 peer_late (by decide) (by decide)).2.1 (by decide)⟩

/-! ### Gap cache: the delayed bootstrap check -/

theorem find_hash_of_nodup (l : List gap_information)
    (hnd : (l.map (fun i => i.hash)).Nodup) (i : gap_information) (hi : i ∈ l) :
    l.find? (fun j => j.hash == i.hash) = some i := by
  induction l with
  | nil => simp at hi
  | cons a rest ih =>
    have hnd2 : a.hash ∉ rest.map (fun i => i.hash) ∧ (rest.map (fun i => i.hash)).Nodup :=
      List.nodup_cons.mp hnd
    rcases List.mem_cons.mp hi with rfl | hi
    · simp
    · have hne : a.hash ≠ i.hash := by
        intro h
        exact hnd2.1 (List.mem_map.mpr ⟨i, hi, h.symm⟩)
      simp [List.find?_cons, hne, ih hnd2.2 hi]

theorem modify_hash_eq_map (hash : Nat) (f : gap_information → gap_information)
    (l : List gap_information) (hnd : (l.map (fun i => i.hash)).Nodup) :
    modify_hash hash f l = l.map (fun i => if i.hash == hash then f i else i) := by
  induction l with
  | nil => rfl
  | cons i rest ih =>
    have hnd2 : i.hash ∉ rest.map (fun i => i.hash) ∧ (rest.map (fun i => i.hash)).Nodup :=
      List.nodup_cons.mp hnd
    unfold modify_hash
    by_cases h : i.hash = hash
    · have hrest : rest.map (fun i => if i.hash == hash then f i else i) = rest := by
        conv_rhs => rw [← List.map_id rest]
        apply List.map_congr_left
        intro j hj
        have : j.hash ≠ hash := by
          intro hjr
          exact hnd2.1 (List.mem_map.mpr ⟨j, hj, hjr.trans h.symm⟩)
        simp [this]
      rw [List.map_cons, hrest]
      simp [h]
    · rw [List.map_cons, ih hnd2.2]
      simp [h]

/-- C25: on a cache that satisfies its invariant (no block hash twice),
gap_cache::vote schedules the delayed bootstrap check exactly when a record of the cache
has the hash of the vote's block, applying the vote to the votes of that record reports
a change, and the weight of the winner of the changed votes is strictly greater than
floor (supply / 256) * bootstrap_fraction_numerator reduced modulo 2^128, which is the
bootstrap threshold (the product itself when it is below 2^128). A vote for a block
whose hash no record has leaves the cache as it is and schedules nothing; otherwise the
votes of the record with that hash, and of no other, are replaced by the votes after
the vote. When scheduled, the check is for that hash, 10 ms later on the test network
and 5 s later otherwise. -/
theorem C25_bootstrap_check {Ledger : Type} (x : collaborators Ledger) (g : gap_cache)
    (ledger : Ledger) (numerator : Nat) (test_network : Bool) (vote_a : vote) (now : Nat)
    (hg : gap_invariant g) :
    bootstrap_threshold x ledger numerator < 2 ^ 128 ∧
    (x.supply ledger / 256 * numerator < 2 ^ 128 →
      bootstrap_threshold x ledger numerator = x.supply ledger / 256 * numerator) ∧
    ((g.vote x ledger numerator test_network vote_a now).2.isSome = true ↔
      ∃ existing ∈ g.blocks, existing.hash = vote_a.block.hash ∧
        (x.votes_vote existing.votes vote_a).1 = true ∧
        (x.winner ledger (x.votes_vote existing.votes vote_a).2).1 >
          (x.supply ledger / 256 * numerator) % 2 ^ 128) ∧
    (vote_a.block.hash ∉ g.blocks.map (fun i => i.hash) →
      g.vote x ledger numerator test_network vote_a now = (g, none)) ∧
    (∀ existing ∈ g.blocks, existing.hash = vote_a.block.hash →
      (g.vote x ledger numerator test_network vote_a now).1.blocks =
        g.blocks.map (fun i =>
          if i.hash == vote_a.block.hash then
            { i with votes := (x.votes_vote existing.votes vote_a).2 }
          else i)) ∧
    (∀ scheduled, (g.vote x ledger numerator test_network vote_a now).2 = some scheduled →
      scheduled = (if test_network then now + 10 else now + 5000, vote_a.block.hash)) := by
  have hfind : ∀ existing ∈ g.blocks, existing.hash = vote_a.block.hash →
      g.find_hash vote_a.block.hash = some existing := by
    intro existing he hh
    rw [← hh]
    exact find_hash_of_nodup g.blocks hg.2 existing he
  have hmem : ∀ existing, g.find_hash vote_a.block.hash = some existing →
      existing ∈ g.blocks ∧ existing.hash = vote_a.block.hash := by
    intro existing hf
    unfold gap_cache.find_hash at hf
    exact ⟨List.mem_of_find?_eq_some hf, by simpa using List.find?_some hf⟩
  refine ⟨Nat.mod_lt _ (by norm_num), ?_, ?_, ?_, ?_, ?_⟩
  · intro hlt
    exact Nat.mod_eq_of_lt hlt
  · cases hf : g.find_hash vote_a.block.hash with
    | none =>
      have hno := find_hash_none_not_mem g _ hf
      simp only [gap_cache.vote, hf, Option.isSome_none, Bool.false_eq_true, false_iff]
      rintro ⟨existing, he, hh, -⟩
      exact hno (List.mem_map.mpr ⟨existing, he, hh⟩)
    | some existing =>
      obtain ⟨he, hh⟩ := hmem existing hf
      have huniq : ∀ other ∈ g.blocks, other.hash = vote_a.block.hash → other = existing := by
        intro other ho hoh
        have := hfind other ho hoh
        rw [hf] at this
        exact (Option.some.inj this).symm
      simp only [gap_cache.vote, hf, bootstrap_threshold]
      constructor
      · intro hs
        refine ⟨existing, he, hh, ?_⟩
        by_cases hv : (x.votes_vote existing.votes vote_a).1 = true
        · by_cases hw : (x.winner ledger (x.votes_vote existing.votes vote_a).2).1 >
              (x.supply ledger / 256 * numerator) % 2 ^ 128
          · exact ⟨hv, hw⟩
          · rw [if_pos hv, if_neg hw] at hs
            cases hs
        · rw [if_neg hv] at hs
          cases hs
      · rintro ⟨other, ho, hoh, hv, hw⟩
        rw [huniq other ho hoh] at hv hw
        rw [if_pos hv, if_pos hw]
        rfl
  · intro hno
    cases hf : g.find_hash vote_a.block.hash with
    | none => simp only [gap_cache.vote, hf]
    | some existing =>
      obtain ⟨he, hh⟩ := hmem existing hf
      exact absurd (List.mem_map.mpr ⟨existing, he, hh⟩) hno
  · intro existing he hh
    have hf := hfind existing he hh
    have hblocks : (g.vote x ledger numerator test_network vote_a now).1.blocks =
        modify_hash vote_a.block.hash
          (fun info => { info with votes := (x.votes_vote existing.votes vote_a).2 })
          g.blocks := by
      simp only [gap_cache.vote, hf]
      split
      · split <;> rfl
      · rfl
    rw [hblocks, modify_hash_eq_map _ _ _ hg.2]
  · intro scheduled hs
    cases hf : g.find_hash vote_a.block.hash with
    | none => simp [gap_cache.vote, hf] at hs
    | some existing =>
      simp only [gap_cache.vote, hf] at hs
      split at hs
      · split at hs
        · simp only [Option.some.injEq] at hs
          exact hs.symm
        · cases hs
      · cases hs

/-- Witness for C25, with a supply of 5120 (threshold 20) and representatives of weight
20: the cache holds block 5. The vote of account 1 gives the block the weight 20, equal
to the threshold, and schedules nothing; the vote of account 2 then gives 40 and
schedules the check for hash 5 at 5 s; the same vote again changes nothing and
schedules nothing, and so does a vote for block 6, which is not cached. With a supply of
2^127 and the numerator 512 the product is 2^128 and the threshold is 0. -/
theorem C25_bootstrap_check_witness :
    gap_invariant one_gap_cache_voted ∧
    (one_gap_cache.vote threshold_collaborators [] 1 false
      (sample_vote 1 (sample_block 5 4)) 2).2 = none ∧
    (one_gap_cache_voted.vote threshold_collaborators [] 1 false
      (sample_vote 2 (sample_block 5 4)) 3).2 = some (5003, 5) ∧
    ((one_gap_cache_voted.vote threshold_collaborators [] 1 false
      (sample_vote 2 (sample_block 5 4)) 3).1.vote threshold_collaborators [] 1 false
      (sample_vote 2 (sample_block 5 4)) 4).2 = none ∧
    (one_gap_cache_voted.vote threshold_collaborators [] 1 false
      (sample_vote 2 (sample_block 6 4)) 3) = (one_gap_cache_voted, none) ∧
    bootstrap_threshold (spec_collaborators three_reps_weight (2 ^ 127) 0) [] 512 = 0 ∧
    ∃ existing ∈ one_gap_cache_voted.blocks,
      existing.hash = (sample_vote 2 (sample_block 5 4)).block.hash ∧
      (threshold_collaborators.votes_vote existing.votes
        (sample_vote 2 (sample_block 5 4))).1 = true ∧
      (threshold_collaborators.winner []
        (threshold_collaborators.votes_vote existing.votes
          (sample_vote 2 (sample_block 5 4))).2).1 > (5120 / 256 * 1) % 2 ^ 128 :=
  ⟨by unfold gap_invariant; decide, by decide, by decide, by decide, by decide, by decide,
   (C25_bootstrap_check threshold_collaborators one_gap_cache_voted [] 1 false
     (sample_vote 2 (sample_block 5 4)) 3 (by unfold gap_invariant; decide)).2.2.1.mp
     (by decide)⟩

/-! ### Handling a publish message -/

theorem not_a_peer_of_acceptable (p : peer_container) (e : endpoint)
    (h : acceptable p.self e) : p.not_a_peer e = some false := by
  obtain ⟨a, ha, hu, hr, hs⟩ := h
  unfold peer_container.not_a_peer
  simp [ha, address.to_v6, hu, hr, hs]

theorem find_modify_endpoint (e : endpoint) (f : peer_information → peer_information)
    (hf : ∀ i, (f i).endpoint = i.endpoint) :
    ∀ (l : List peer_information) (x : peer_information),
      l.find? (fun i => i.endpoint == e) = some x →
      (modify_endpoint e f l).find? (fun i => i.endpoint == e) = some (f x) := by
  intro l
  induction l with
  | nil => intro x h; simp at h
  | cons a rest ih =>
    intro x h
    by_cases ha : a.endpoint = e
    · simp only [List.find?_cons, ha, beq_self_eq_true, Option.some.injEq] at h
      subst h
      simp [modify_endpoint, ha, List.find?_cons, hf]
    · simp only [List.find?_cons, ha, beq_iff_eq, if_false] at h
      have hb : (a.endpoint == e) = false := by simpa using ha
      simp only [hb] at h
      simp [modify_endpoint, ha, List.find?_cons, ih x h]

/-- After `insert (e, hash)` on a table that satisfies the invariant, a stored `e` has
`hash` as its most recent block. -/
theorem insert_knows_about (p : peer_container) (e : endpoint) (hash now : Nat)
    (o : insert_outcome) (hp : peer_invariant p) (ho : p.insert e hash now = some o)
    (he : e ∈ endpoints o.table) : o.table.knows_about e hash = true := by
  unfold peer_container.insert at ho
  cases hn : p.not_a_peer e with
  | none => simp [hn] at ho
  | some b =>
    cases b with
    | true =>
      simp only [hn, Option.some.injEq] at ho
      subst ho
      have := not_a_peer_of_acceptable p e (hp.1 e he)
      rw [hn] at this
      cases this
    | false =>
      simp only [hn] at ho
      cases hf : p.find e with
      | some x =>
        simp only [hf, Option.some.injEq] at ho
        subst ho
        unfold peer_container.find at hf
        have := find_modify_endpoint e
          (fun info => { info with last_contact := now, most_recent := hash })
          (fun _ => rfl) p.peers x hf
        simp [peer_container.knows_about, peer_container.find, this]
      | none =>
        simp only [hf, Option.some.injEq] at ho
        subst ho
        unfold peer_container.find at hf
        simp [peer_container.knows_about, peer_container.find, List.find?_append, hf]

/-- Every message `republish_block` sends carries the block and goes to an endpoint for
which `knows_about` is false. -/
theorem republish_block_unknowing (p : peer_container) (representatives : List (Nat × Nat))
    (b : block) (rebroadcast_a : Nat) :
    ∀ m ∈ republish_block p representatives b rebroadcast_a,
      m.data.carried = b ∧ p.knows_about m.endpoint b.hash = false := by
  intro m hm
  rw [republish_block_eq] at hm
  split at hm
  · obtain ⟨j, hj, rfl⟩ := List.mem_map.mp hm
    exact ⟨rfl, by simpa using (List.mem_filter.mp hj).2⟩
  · obtain ⟨key, _, hm⟩ := List.mem_flatMap.mp hm
    obtain ⟨j, hj, rfl⟩ := List.mem_map.mp hm
    exact ⟨rfl, by simpa using (List.mem_filter.mp hj).2⟩

/-- C28: a publish is not echoed to its sender. When network_message_visitor::publish
has handled a publish from sender s carrying block b, starting from a peer table that
satisfies the invariant of the table, and s is stored in the table afterwards, then
knows_about (s, hash (b)) holds, and no message sent by the republication that this
message triggers (neither a publish nor a confirm_ack) that carries a block with the hash
of b goes to s. -/
theorem C28_publish_not_echoed {Ledger : Type} (y : node_collaborators Ledger)
    (representatives : List (Nat × Nat)) (n : network) (p : peer_container)
    (s : processor Ledger) (sender : endpoint) (b : block) (now fuel : Nat)
    (o : publish_outcome Ledger) (hp : peer_invariant p)
    (ho : visitor_publish y representatives n p s sender b now fuel = some o)
    (hs : sender ∈ endpoints o.peers) :
    o.peers.knows_about sender b.hash = true ∧
    (∀ m ∈ o.republish.sent, m.data.carried.hash = b.hash → m.endpoint ≠ sender) ∧
    o.network.publish_count = n.publish_count + 1 := by
  unfold visitor_publish at ho
  cases hc : p.contacted sender now with
  | none => simp [hc] at ho
  | some contacted =>
    simp only [hc] at ho
    cases hi : contacted.table.insert sender b.hash now with
    | none => simp [hi] at ho
    | some inserted =>
      simp only [hi, Option.some.injEq] at ho
      subst ho
      have hp1 : peer_invariant contacted.table :=
        (insert_preserves p _ 0 now contacted hc hp).1
      have hk := insert_knows_about contacted.table sender b.hash now inserted hp1 hi hs
      refine ⟨hk, ?_, rfl⟩
      intro m hm hhash hend
      simp only [process_receive_republish, List.mem_flatMap] at hm
      obtain ⟨c, _, blk, _, hm⟩ := hm
      obtain ⟨hcar, hknow⟩ := republish_block_unknowing _ _ _ _ m hm
      rw [hcar] at hhash
      rw [hend, hhash] at hknow
      simp only at hk
      rw [hk] at hknow
      cases hknow

theorem two_peer_table_invariant : peer_invariant two_peer_table := by
  constructor
  · intro e he
    simp only [endpoints, two_peer_table, List.map_cons, List.map_nil, List.mem_cons,
      List.mem_singleton, List.not_mem_nil, or_false] at he
    rcases he with rfl | rfl
    · exact ⟨_, rfl, by decide, by decide, by decide⟩
    · exact ⟨_, rfl, by decide, by decide, by decide⟩
  · decide

/-- In the example the sender ::ffff:10.0.0.3 is stored afterwards with block 2 as its
most recent block, block 2 is accepted and published to the two other peers, and nothing
goes back to the sender. -/
theorem C28_publish_not_echoed_witness :
    ∃ o, sample_publish = some o ∧
      o.peers.knows_about (sample_peer 3).endpoint (toy_block 2 1).hash = true ∧
      (∀ m ∈ o.republish.sent, m.data.carried.hash = (toy_block 2 1).hash →
        m.endpoint ≠ (sample_peer 3).endpoint) ∧
      o.republish.sent.map (fun m => m.endpoint) = [peer_early.endpoint, peer_late.endpoint] := by
  have hstored : sample_publish.map
      (fun o => decide ((sample_peer 3).endpoint ∈ endpoints o.peers)) = some true := by
    decide
  have hsent : sample_publish.map (fun o => o.republish.sent.map (fun m => m.endpoint)) =
      some [peer_early.endpoint, peer_late.endpoint] := by
    decide
  cases h : sample_publish with
  | none =>
    rw [h] at hstored
    cases hstored
  | some o =>
    rw [h] at hstored hsent
    simp only [Option.map_some', Option.some.injEq, decide_eq_true_eq] at hstored hsent
    have hthm := C28_publish_not_echoed toy_node_collaborators [] sample_node.network
      two_peer_table toy_processor (sample_peer 3).endpoint (toy_block 2 1) 50 10 o
      two_peer_table_invariant h hstored
    exact ⟨o, rfl, hthm.1, hthm.2.1, hsent⟩

/-! ### Parsing ports and addresses -/

/-- C30 (code bug): parse_port compares the number of characters processed, not the
value, with 65535. For the text 70000 it reports no error and stores 70000 mod 65536 =
4464 in the port; for 65536 it stores 0. parse_address_port does the same for
::1:70000 when the address parses. What holds: the flag of parse_port is the test
"not all characters processed or more than 65535 characters processed" and the port is
the value modulo 65536; when parse_address_port reports an error, the address and the port
of the caller are as before. -/
theorem C30_parse_port_ignores_value (from_string : String → Option address_v6)
    (string : String) (address_a : address) (port_a : Nat) :
    parse_port "70000" = some (false, 4464) ∧
    parse_port "65536" = some (false, 0) ∧
    parse_port "65535" = some (false, 65535) ∧
    parse_address_port from_string "::1:70000" address_a port_a =
      (match from_string "::1" with
       | some address => (false, .v6 address, 4464)
       | none => (true, address_a, port_a)) ∧
    (∀ flag port, parse_port string = some (flag, port) →
      ∃ value converted, stoul string = some (value, converted) ∧ port = value % 65536 ∧
        (flag = true ↔ converted ≠ string.length ∨ converted > 65535)) ∧
    ((parse_address_port from_string string address_a port_a).1 = true →
      (parse_address_port from_string string address_a port_a).2 = (address_a, port_a)) := by
  refine ⟨by decide, by decide, by decide, ?_, ?_, ?_⟩
  · have h1 : rfind "::1:70000" ':' = some 3 := by decide
    have h2 : parse_port (String.mk ("::1:70000".toList.drop (3 + 1))) = some (false, 4464) := by
      decide
    have h3 : String.mk ("::1:70000".toList.take 3) = "::1" := by decide
    simp only [parse_address_port, h1, h2, h3]
    simp
  · intro flag port h
    unfold parse_port at h
    cases hs : stoul string with
    | none => simp [hs] at h
    | some r =>
      obtain ⟨value, converted⟩ := r
      simp only [hs, Option.some.injEq, Prod.mk.injEq] at h
      refine ⟨value, converted, rfl, h.2.symm, ?_⟩
      rw [← h.1]
      simp
  · intro h
    cases hr : rfind string ':' with
    | none => simp [parse_address_port, hr]
    | some pos =>
      by_cases hpos : pos > 0
      · cases hp : parse_port (String.mk (string.data.drop (pos + 1))) with
        | none => simp [parse_address_port, hr, hpos, hp]
        | some r =>
          obtain ⟨flag, port⟩ := r
          cases flag with
          | true => simp [parse_address_port, hr, hpos, hp]
          | false =>
            cases hf : from_string (String.mk (string.data.take pos)) with
            | none => simp [parse_address_port, hr, hpos, hp, hf]
            | some a => simp [parse_address_port, hr, hpos, hp, hf] at h
      · simp [parse_address_port, hr, hpos]

/-! ### Distributed work -/

/-- What a valid reply does: `set_once` with its nonce, then `stop`. -/
theorem work_step_valid (x : work_collaborators) (w : distributed_work) (ev : work_outcome)
    (work : Nat) (hv : ev.valid x w.root = some work) :
    w.step x ev =
      { root := w.root, outstanding := [], completed := true,
        promise := if w.completed then w.promise else w.promise ++ [work],
        posted := w.posted ++
          (w.outstanding.erase ev.address).map (fun i => .work_cancel i w.root) } := by
  cases ev with
  | failure address => simp [work_outcome.valid] at hv
  | callback address body ec =>
    cases ec with
    | true => simp [work_outcome.valid] at hv
    | false =>
      simp only [work_outcome.valid, Bool.false_eq_true, if_false] at hv
      cases hr : x.read_work body with
      | none => simp [hr] at hv
      | some text =>
        simp only [hr] at hv
        cases hh : x.from_string_hex text with
        | none => simp [hh] at hv
        | some nonce =>
          simp only [hh] at hv
          by_cases hval : x.work_validate w.root nonce = true
          · simp only [hval, if_true, Option.some.injEq] at hv
            subst hv
            cases hc : w.completed <;>
              simp [distributed_work.step, distributed_work.callback, distributed_work.success,
                hr, hh, hval, distributed_work.remove, distributed_work.set_once,
                distributed_work.stop, work_outcome.address, hc]
          · simp [hval] at hv

/-- What any other outcome does: `remove`, then `handle_failure`. -/
theorem work_step_invalid (x : work_collaborators) (w : distributed_work) (ev : work_outcome)
    (hv : ev.valid x w.root = none) :
    w.step x ev =
      ({ w with outstanding := w.outstanding.erase ev.address }).handle_failure x
        (w.outstanding.erase ev.address).isEmpty := by
  cases ev with
  | failure address =>
    simp [distributed_work.step, distributed_work.failure, distributed_work.remove,
      work_outcome.address]
  | callback address body ec =>
    cases ec with
    | true =>
      simp [distributed_work.step, distributed_work.callback, distributed_work.failure,
        distributed_work.remove, work_outcome.address]
    | false =>
      simp only [work_outcome.valid, Bool.false_eq_true, if_false] at hv
      cases hr : x.read_work body with
      | none =>
        simp [distributed_work.step, distributed_work.callback, distributed_work.success,
          distributed_work.remove, work_outcome.address, hr]
      | some text =>
        simp only [hr] at hv
        cases hh : x.from_string_hex text with
        | none =>
          simp [distributed_work.step, distributed_work.callback, distributed_work.success,
            distributed_work.remove, work_outcome.address, hr, hh]
        | some nonce =>
          simp only [hh] at hv
          by_cases hval : x.work_validate w.root nonce = true
          · simp [hval] at hv
          · simp [distributed_work.step, distributed_work.callback, distributed_work.success,
              distributed_work.remove, work_outcome.address, hr, hh, hval]

theorem handle_failure_fields (x : work_collaborators) (w : distributed_work) (last : Bool) :
    (w.handle_failure x last).root = w.root ∧
    (w.handle_failure x last).outstanding = w.outstanding ∧
    (w.handle_failure x last).posted = w.posted ∧
    (w.handle_failure x last).completed = (w.completed || last) ∧
    (w.handle_failure x last).promise =
      (if last && !w.completed then w.promise ++ [x.generate w.root] else w.promise) := by
  cases last <;> cases hc : w.completed <;> simp [distributed_work.handle_failure, hc]

theorem work_step_root (x : work_collaborators) (w : distributed_work) (ev : work_outcome) :
    (w.step x ev).root = w.root := by
  cases hv : ev.valid x w.root with
  | some work => rw [work_step_valid x w ev work hv]
  | none =>
    rw [work_step_invalid x w ev hv]
    exact (handle_failure_fields x _ _).1

theorem work_run_root (x : work_collaborators) (outcomes : List work_outcome) :
    ∀ w : distributed_work, (w.run x outcomes).root = w.root := by
  induction outcomes with
  | nil => intro w; rfl
  | cons ev rest ih =>
    intro w
    simp only [distributed_work.run, List.foldl_cons] at ih ⊢
    rw [ih, work_step_root]

theorem work_step_invariant (x : work_collaborators) (w : distributed_work)
    (ev : work_outcome) (hI : work_invariant w) : work_invariant (w.step x ev) := by
  obtain ⟨h1, h2, h3⟩ := hI
  cases hv : ev.valid x w.root with
  | some work =>
    rw [work_step_valid x w ev work hv]
    refine ⟨by simp, ?_, by simp⟩
    intro _
    cases hc : w.completed with
    | false => simp [h1 hc]
    | true => simp [(h2 hc).1]
  | none =>
    rw [work_step_invalid x w ev hv]
    obtain ⟨_, f2, _, f4, f5⟩ := handle_failure_fields x
      { w with outstanding := w.outstanding.erase ev.address }
      (w.outstanding.erase ev.address).isEmpty
    refine ⟨?_, ?_, ?_⟩
    · intro hc
      rw [f4] at hc
      simp only [Bool.or_eq_false_iff] at hc
      rw [f5]
      simp [hc.1, hc.2, h1 hc.1]
    · intro hc
      rw [f4] at hc
      rw [f5, f2]
      cases hcw : w.completed with
      | true =>
        have := h2 hcw
        simp [hcw, this.1, this.2]
      | false =>
        simp only [hcw, Bool.false_or] at hc
        simp [hc, h1 hcw, List.isEmpty_iff.mp hc]
    · rw [f2]
      exact h3.erase _

theorem insert_fold_spec (work_peers : List String) :
    ∀ set : List String, set.Nodup →
      (work_peers.foldl (fun set i => if i ∈ set then set else set ++ [i]) set).Nodup ∧
      ∀ a, a ∈ work_peers.foldl (fun set i => if i ∈ set then set else set ++ [i]) set ↔
        a ∈ set ∨ a ∈ work_peers := by
  induction work_peers with
  | nil => intro set h; simp [h]
  | cons i rest ih =>
    intro set h
    simp only [List.foldl_cons]
    by_cases hi : i ∈ set
    · simp only [hi, if_true]
      refine ⟨(ih set h).1, ?_⟩
      intro a
      rw [(ih set h).2 a]
      simp only [List.mem_cons]
      constructor
      · rintro (h1 | h1)
        · exact Or.inl h1
        · exact Or.inr (Or.inr h1)
      · rintro (h1 | h1 | h1)
        · exact Or.inl h1
        · exact Or.inl (h1 ▸ hi)
        · exact Or.inr h1
    · simp only [hi, if_false]
      have hnd : (set ++ [i]).Nodup := by
        rw [List.nodup_append]
        exact ⟨h, by simp, by simpa using hi⟩
      refine ⟨(ih _ hnd).1, ?_⟩
      intro a
      rw [(ih _ hnd).2 a]
      simp only [List.mem_append, List.mem_singleton, List.mem_cons]
      tauto

theorem work_start_invariant (x : work_collaborators) (root : Nat) (work_peers : List String) :
    work_invariant ((distributed_work.new root work_peers).start x) := by
  have hnd := (insert_fold_spec work_peers [] List.nodup_nil).1
  unfold distributed_work.start
  split
  · exact ⟨fun _ => rfl, fun h => by simp [distributed_work.new] at h, hnd⟩
  · rename_i he
    have he2 : (distributed_work.new root work_peers).outstanding = [] := by
      simpa using he
    refine ⟨?_, ?_, ?_⟩
    · intro h
      simp [distributed_work.handle_failure, distributed_work.new] at h
    · intro _
      simp [distributed_work.handle_failure, he2]
      simp [distributed_work.new]
    · simp [distributed_work.handle_failure, he2]
      simp [distributed_work.new]

theorem work_run_invariant (x : work_collaborators) (outcomes : List work_outcome) :
    ∀ w : distributed_work, work_invariant w → work_invariant (w.run x outcomes) := by
  induction outcomes with
  | nil => intro w h; exact h
  | cons ev rest ih =>
    intro w h
    simp only [distributed_work.run, List.foldl_cons] at ih ⊢
    exact ih _ (work_step_invariant x w ev h)

theorem work_run_append (x : work_collaborators) (w : distributed_work)
    (pre post : List work_outcome) :
    w.run x (pre ++ post) = (w.run x pre).run x post := by
  simp [distributed_work.run, List.foldl_append]

theorem work_run_cons (x : work_collaborators) (w : distributed_work)
    (ev : work_outcome) (post : List work_outcome) :
    w.run x (ev :: post) = (w.step x ev).run x post := rfl

/-- Once `completed` is set, no outcome changes the promise or posts a request. -/
theorem work_run_completed (x : work_collaborators) (outcomes : List work_outcome) :
    ∀ w : distributed_work, work_invariant w → w.completed = true →
      (w.run x outcomes).promise = w.promise ∧ (w.run x outcomes).posted = w.posted ∧
      (w.run x outcomes).outstanding = [] := by
  induction outcomes with
  | nil => intro w hI hc; exact ⟨rfl, rfl, (hI.2.1 hc).2⟩
  | cons ev rest ih =>
    intro w hI hc
    have hI2 := work_step_invariant x w ev hI
    have hout := (hI.2.1 hc).2
    have hstep : (w.step x ev).completed = true ∧ (w.step x ev).promise = w.promise ∧
        (w.step x ev).posted = w.posted := by
      cases hv : ev.valid x w.root with
      | some work =>
        rw [work_step_valid x w ev work hv]
        simp [hc, hout]
      | none =>
        rw [work_step_invalid x w ev hv]
        obtain ⟨_, _, f3, f4, f5⟩ := handle_failure_fields x
          { w with outstanding := w.outstanding.erase ev.address }
          (w.outstanding.erase ev.address).isEmpty
        rw [f3, f4, f5]
        simp [hc]
    rw [work_run_cons]
    obtain ⟨r1, r2, r3⟩ := ih _ hI2 hstep.1
    exact ⟨r1.trans hstep.2.1, r2.trans hstep.2.2, r3⟩

/-- Outcomes that are not valid replies only take their addresses out of `outstanding`;
they post nothing, and the promise, if they set it, holds the local generator's result. -/
theorem work_run_invalid (x : work_collaborators) (outcomes : List work_outcome) :
    ∀ w : distributed_work, work_invariant w →
      (∀ ev ∈ outcomes, ev.valid x w.root = none) →
      (w.run x outcomes).outstanding =
        w.outstanding.filter (fun a => decide (a ∉ outcomes.map work_outcome.address)) ∧
      (w.run x outcomes).posted = w.posted ∧
      ((w.run x outcomes).promise = w.promise ∨
        (w.completed = false ∧ (w.run x outcomes).promise = [x.generate w.root])) := by
  induction outcomes with
  | nil => intro w _ _; simp [distributed_work.run]
  | cons ev rest ih =>
    intro w hI hv
    have hev := hv ev (List.mem_cons_self _ _)
    have hI2 := work_step_invariant x w ev hI
    have hroot := work_step_root x w ev
    rw [work_run_cons]
    obtain ⟨r1, r2, r3⟩ := ih _ hI2 (fun e he => by
      rw [hroot]
      exact hv e (List.mem_cons_of_mem _ he))
    have hstep := work_step_invalid x w ev hev
    obtain ⟨_, f2, f3, f4, f5⟩ := handle_failure_fields x
      { w with outstanding := w.outstanding.erase ev.address }
      (w.outstanding.erase ev.address).isEmpty
    rw [← hstep] at f2 f3 f4 f5
    simp only at f2 f3 f4 f5
    refine ⟨?_, r2.trans f3, ?_⟩
    · rw [r1, f2, hI.2.2.erase_eq_filter, List.filter_filter]
      apply List.filter_congr
      intro a _
      by_cases h1 : a = ev.address <;>
        by_cases h2 : a ∈ List.map work_outcome.address rest <;> simp [h1, h2]
    · cases hc : w.completed with
      | true =>
        left
        rcases r3 with r3 | ⟨r3, _⟩
        · rw [r3, f5]
          simp [hc]
        · rw [f4, hc] at r3
          simp at r3
      | false =>
        rcases r3 with r3 | ⟨_, r3⟩
        · rw [r3, f5]
          by_cases hl : (w.outstanding.erase ev.address).isEmpty = true
          · right
            simp [hl, hc, hI.1 hc]
          · left
            simp [hl]
        · right
          rw [hroot] at r3
          exact ⟨rfl, r3⟩

theorem work_start_fields (x : work_collaborators) (root : Nat) (work_peers : List String) :
    ((distributed_work.new root work_peers).start x).root = root ∧
    ((distributed_work.new root work_peers).start x).outstanding =
      (distributed_work.new root work_peers).outstanding ∧
    ((distributed_work.new root work_peers).start x).posted.filter work_request.is_cancel = [] ∧
    (((distributed_work.new root work_peers).start x).promise = [] ∨
      ((distributed_work.new root work_peers).start x).promise = [x.generate root]) ∧
    (∀ a, a ∈ (distributed_work.new root work_peers).outstanding ↔ a ∈ work_peers) := by
  have hmem := (insert_fold_spec work_peers [] List.nodup_nil).2
  refine ⟨?_, ?_, ?_, ?_, ?_⟩
  · unfold distributed_work.start
    split
    · rfl
    · exact (handle_failure_fields x _ _).1
  · unfold distributed_work.start
    split
    · rfl
    · exact (handle_failure_fields x _ _).2.1
  · unfold distributed_work.start
    split
    · simp [distributed_work.new, List.filter_map, work_request.is_cancel,
        List.filter_eq_nil_iff]
    · rw [(handle_failure_fields x _ _).2.2.1]
      rfl
  · unfold distributed_work.start
    split
    · exact Or.inl rfl
    · right
      rw [(handle_failure_fields x _ _).2.2.2.2]
      simp [distributed_work.new]
  · intro a
    have := hmem a
    simpa [distributed_work.new] using this

/-- C22: cancellation of the work race. Take a sequence of outcomes in which the first
valid reply comes from the peer P with the nonce work. Then, whatever comes later, the
work_cancel requests posted are exactly one for the root to each configured peer that was
still outstanding at that moment: the configured peers other than P that had no outcome
before. No cancel goes to P or to a peer that already failed, no peer gets two, and no
cancel is posted afterwards, because outstanding is empty from then on. If some configured
peer had no outcome before the valid reply, the value of the promise is the nonce of P. -/
theorem C22_work_cancel (x : work_collaborators) (root : Nat) (work_peers : List String)
    (pre post : List work_outcome) (P body : String) (work : Nat)
    (hpre : ∀ e ∈ pre, e.valid x root = none)
    (hvalid : (work_outcome.callback P body false).valid x root = some work) :
    (((distributed_work.new root work_peers).start x).run x
        (pre ++ .callback P body false :: post)).posted.filter work_request.is_cancel =
      ((distributed_work.new root work_peers).outstanding.filter
        (fun a => decide (a ∉ pre.map work_outcome.address ∧ a ≠ P))).map
        (fun a => .work_cancel a root) ∧
    ((distributed_work.new root work_peers).outstanding.filter
        (fun a => decide (a ∉ pre.map work_outcome.address ∧ a ≠ P))).Nodup ∧
    (∀ a, a ∈ (distributed_work.new root work_peers).outstanding ↔ a ∈ work_peers) ∧
    (((distributed_work.new root work_peers).start x).run x
        (pre ++ .callback P body false :: post)).outstanding = [] ∧
    ((∃ a ∈ work_peers, a ∉ pre.map work_outcome.address) →
      (((distributed_work.new root work_peers).start x).run x
        (pre ++ .callback P body false :: post)).promise = [work]) := by
  have hI0 := work_start_invariant x root work_peers
  obtain ⟨hroot0, hout0, hcancel0, _, hmem0⟩ := work_start_fields x root work_peers
  have hI1 := work_run_invariant x pre _ hI0
  have hroot1 : (((distributed_work.new root work_peers).start x).run x pre).root = root := by
    rw [work_run_root, hroot0]
  obtain ⟨r1, r2, _⟩ := work_run_invalid x pre _ hI0 (fun e he => by
    rw [hroot0]
    exact hpre e he)
  have hstep := work_step_valid x (((distributed_work.new root work_peers).start x).run x pre)
    (.callback P body false) work (by rw [hroot1]; exact hvalid)
  have hI2 := work_step_invariant x _ (.callback P body false) hI1
  have hc2 : ((((distributed_work.new root work_peers).start x).run x pre).step x
      (.callback P body false)).completed = true := by
    rw [hstep]
  obtain ⟨c1, c2, c3⟩ := work_run_completed x post _ hI2 hc2
  rw [work_run_append, work_run_cons]
  have hnd0 : (distributed_work.new root work_peers).outstanding.Nodup := by
    rw [← hout0]
    exact hI0.2.2
  refine ⟨?_, hnd0.filter _, hmem0, c3, ?_⟩
  · rw [c2, hstep]
    simp only [work_outcome.address, List.filter_append, r2, hcancel0, List.nil_append,
      hroot1]
    rw [List.filter_map]
    have hall : (List.filter (work_request.is_cancel ∘ fun i => work_request.work_cancel i root)
        ((((distributed_work.new root work_peers).start x).run x pre).outstanding.erase P)) =
        ((((distributed_work.new root work_peers).start x).run x pre).outstanding.erase P) := by
      rw [List.filter_eq_self]
      intro a _
      rfl
    rw [hall, hI1.2.2.erase_eq_filter, r1, hout0, List.filter_filter]
    congr 1
    apply List.filter_congr
    intro a _
    by_cases h1 : a = P <;>
      by_cases h2 : a ∈ List.map work_outcome.address pre <;> simp [h1, h2]
  · rintro ⟨a, ha, hna⟩
    rw [c1, hstep]
    have hmem : a ∈ (((distributed_work.new root work_peers).start x).run x pre).outstanding := by
      rw [r1, hout0, List.mem_filter]
      exact ⟨(hmem0 a).mpr ha, by simpa using hna⟩
    cases hc : (((distributed_work.new root work_peers).start x).run x pre).completed with
    | true =>
      rw [(hI1.2.1 hc).2] at hmem
      simp at hmem
    | false => simp [hI1.1 hc]

/-- With the peers P1 (valid first, nonce 42) and P2 (slow), the result is the nonce of P1
and P2 gets exactly one work_cancel, also when P2 replies or fails later. -/
theorem C22_work_cancel_witness :
    (((distributed_work.new 5 ["P1", "P2"]).start toy_work).run toy_work
        ([] ++ .callback "P1" "42" false ::
          [.callback "P2" "44" false, .failure "P2"])).posted.filter work_request.is_cancel =
      [.work_cancel "P2" 5] ∧
    (((distributed_work.new 5 ["P1", "P2"]).start toy_work).run toy_work
        ([] ++ .callback "P1" "42" false ::
          [.callback "P2" "44" false, .failure "P2"])).promise = [42] :=
  have h := C22_work_cancel toy_work 5 ["P1", "P2"] []
    [.callback "P2" "44" false, .failure "P2"] "P1" "42" 42 (by decide) (by decide)
  ⟨h.1.trans (by decide), h.2.2.2.2 ⟨"P1", by decide, by decide⟩⟩

/-! ### Decimal text -/

/-- The ten decimal digits. -/
theorem digitChar_mem (k : Nat) (hk : k < 10) :
    Nat.digitChar k ∈ decimal_digits := by
  interval_cases k <;> decide

theorem digitChar_value (k : Nat) (hk : k < 10) : (Nat.digitChar k).toNat - 48 = k := by
  interval_cases k <;> decide

theorem toDigitsCore_digits (fuel : Nat) :
    ∀ (n : Nat) (ds : List Char),
      (∀ c ∈ ds, c ∈ decimal_digits) →
      ∀ c ∈ Nat.toDigitsCore 10 fuel n ds,
        c ∈ decimal_digits := by
  induction fuel with
  | zero => intro n ds h; simpa [Nat.toDigitsCore] using h
  | succ fuel ih =>
    intro n ds h
    have hd := digitChar_mem (n % 10) (Nat.mod_lt _ (by decide))
    have hds : ∀ c ∈ Nat.digitChar (n % 10) :: ds,
        c ∈ decimal_digits := by
      intro c hc
      rcases List.mem_cons.mp hc with rfl | hc
      · exact hd
      · exact h c hc
    simp only [Nat.toDigitsCore]
    split
    · exact hds
    · exact ih _ _ hds

theorem toDigitsCore_value (fuel : Nat) :
    ∀ (n : Nat) (ds : List Char), n < fuel →
      (Nat.toDigitsCore 10 fuel n ds).foldl (fun acc c => acc * 10 + (c.toNat - 48)) 0 =
        ds.foldl (fun acc c => acc * 10 + (c.toNat - 48)) n := by
  induction fuel with
  | zero => intro n ds h; omega
  | succ fuel ih =>
    intro n ds h
    have hv := digitChar_value (n % 10) (Nat.mod_lt _ (by decide))
    simp only [Nat.toDigitsCore]
    split
    · rename_i h0
      have hn : n % 10 = n := by omega
      rw [List.foldl_cons, Nat.zero_mul, Nat.zero_add, hv, hn]
    · rename_i h0
      have hlt : n / 10 < fuel := by omega
      rw [ih _ _ hlt]
      simp only [List.foldl_cons, hv]
      have : n / 10 * 10 + n % 10 = n := by omega
      rw [this]

theorem toDigitsCore_ne_nil (fuel : Nat) (n : Nat) (ds : List Char) :
    Nat.toDigitsCore 10 (fuel + 1) n ds ≠ [] := by
  induction fuel generalizing n ds with
  | zero =>
    rw [Nat.toDigitsCore]
    split
    · simp
    · simp [Nat.toDigitsCore]
  | succ fuel ih =>
    rw [Nat.toDigitsCore]
    split
    · simp
    · exact ih _ _

/-- The text `std::to_string` writes for a value below 2^64 is read back by `std::stoul`
as that value, with every character processed. -/
theorem stoul_to_string (n : Nat) (hn : n < 2 ^ 64) :
    stoul (to_string n) = some (n, (to_string n).length) := by
  have hdig : ∀ c ∈ Nat.toDigits 10 n, c ∈ decimal_digits :=
    toDigitsCore_digits _ _ _ (by simp)
  have hval : (Nat.toDigits 10 n).foldl (fun acc c => acc * 10 + (c.toNat - 48)) 0 = n := by
    have := toDigitsCore_value (n + 1) n [] (Nat.lt_succ_self n)
    simpa [Nat.toDigits] using this
  have hne : Nat.toDigits 10 n ≠ [] := toDigitsCore_ne_nil n n []
  have hspace : ∀ c ∈ decimal_digits,
      isspace c = false ∧ c.isDigit = true ∧ c ≠ '-' ∧ c ≠ '+' := by decide
  have hlist : (to_string n).toList = Nat.toDigits 10 n := rfl
  cases hL : Nat.toDigits 10 n with
  | nil => exact absurd hL hne
  | cons d tl =>
    rw [hL] at hdig hval
    have hd := hspace d (hdig d (List.mem_cons_self _ _))
    have htake : (d :: tl).takeWhile Char.isDigit = d :: tl := by
      rw [List.takeWhile_eq_self_iff]
      intro c hc
      exact (hspace c (hdig c hc)).2.1
    have hlen : (to_string n).length = (d :: tl).length := by
      rw [String.length, ← hL]
      rfl
    unfold stoul
    rw [hlist, hL, hlen]
    have h1 : (d :: tl).takeWhile isspace = [] := by simp [List.takeWhile, hd.1]
    have h2 : (d :: tl).dropWhile isspace = d :: tl := by simp [List.dropWhile, hd.1]
    simp only [h1, h2, List.head?_cons]
    have h3 : (some d == some '-') = false := by simpa using hd.2.2.1
    have h4 : (some d == some '+') = false := by simpa using hd.2.2.2
    simp only [h3, h4, Bool.or_self, Bool.false_eq_true, if_false, htake, hval]
    simp
    omega

theorem stoul_value_to_string (n : Nat) (hn : n < 2 ^ 64) :
    stoul_value (to_string n) = some n := by
  simp [stoul_value, stoul_to_string n hn]

/-! ### Configuration: writing and reading -/

theorem push_back_fold {α : Type} (f : α → String) (l : List α) :
    ∀ t : ptree, l.foldl (fun t i => t.push_back "" (ptree.leaf (f i))) t =
      .mk t.data (t.children ++ l.map (fun i => ("", ptree.leaf (f i)))) := by
  induction l with
  | nil => intro t; cases t; simp [ptree.data, ptree.children]
  | cons a rest ih =>
    intro t
    rw [List.foldl_cons, ih]
    simp [ptree.push_back, ptree.data, ptree.children]

/-- The tree `logging::serialize_json` writes into an empty tree. -/
theorem logging_serialize_empty (x : config_collaborators) (l : logging) :
    l.serialize_json x ptree.empty =
      .mk "" [("ledger", ptree.leaf (x.put_bool l.ledger_logging_value)),
        ("ledger_duplicate", ptree.leaf (x.put_bool l.ledger_duplicate_logging_value)),
        ("network", ptree.leaf (x.put_bool l.network_logging_value)),
        ("network_message", ptree.leaf (x.put_bool l.network_message_logging_value)),
        ("network_publish", ptree.leaf (x.put_bool l.network_publish_logging_value)),
        ("network_packet", ptree.leaf (x.put_bool l.network_packet_logging_value)),
        ("network_keepalive", ptree.leaf (x.put_bool l.network_keepalive_logging_value)),
        ("node_lifetime_tracing", ptree.leaf (x.put_bool l.node_lifetime_tracing_value)),
        ("insufficient_work", ptree.leaf (x.put_bool l.insufficient_work_logging_value)),
        ("log_rpc", ptree.leaf (x.put_bool l.log_rpc_value)),
        ("bulk_pull", ptree.leaf (x.put_bool l.bulk_pull_logging_value)),
        ("work_generation_time", ptree.leaf (x.put_bool l.work_generation_time_value)),
        ("log_to_cerr", ptree.leaf (x.put_bool l.log_to_cerr_value)),
        ("max_size", ptree.leaf (x.put_uintmax l.max_size))] := by
  simp [logging.serialize_json, ptree.put, ptree.get_child, ptree.empty, ptree.children,
    ptree.data]

/-- The tree `node_config::serialize_json` writes into an empty tree. -/
theorem serialize_empty (x : config_collaborators) (c : node_config) :
    c.serialize_json x ptree.empty =
      .mk "" [("version", ptree.leaf "3"),
        ("peering_port", ptree.leaf (to_string c.peering_port)),
        ("packet_delay_microseconds", ptree.leaf (to_string c.packet_delay_microseconds)),
        ("bootstrap_fraction_numerator", ptree.leaf (to_string c.bootstrap_fraction_numerator)),
        ("creation_rebroadcast", ptree.leaf (to_string c.creation_rebroadcast)),
        ("rebroadcast_delay", ptree.leaf (to_string c.rebroadcast_delay)),
        ("receive_minimum", ptree.leaf (x.to_string_dec c.receive_minimum)),
        ("logging", c.logging.serialize_json x ptree.empty),
        ("work_peers", .mk "" (c.work_peers.map (fun i =>
          ("", ptree.leaf (x.address_to_string i.1 ++ ":" ++ to_string i.2))))),
        ("preconfigured_peers", .mk "" (c.preconfigured_peers.map (fun i =>
          ("", ptree.leaf i)))),
        ("preconfigured_representatives", .mk "" (c.preconfigured_representatives.map (fun i =>
          ("", ptree.leaf (x.to_account i))))),
        ("inactive_supply", ptree.leaf (x.to_string_dec c.inactive_supply)),
        ("password_fanout", ptree.leaf (to_string c.password_fanout)),
        ("io_threads", ptree.leaf (to_string c.io_threads)),
        ("work_threads", ptree.leaf (to_string c.work_threads))] := by
  simp [node_config.serialize_json, push_back_fold, ptree.put, ptree.add_child,
    ptree.get_child, ptree.empty, ptree.children, ptree.data]

theorem logging_round_trip (x : config_collaborators) (l l0 : logging)
    (ht : x.get_bool (x.put_bool true) = some true)
    (hf : x.get_bool (x.put_bool false) = some false)
    (hm : x.get_uintmax (x.put_uintmax l.max_size) = some l.max_size) :
    l0.deserialize_json x (l.serialize_json x ptree.empty) = (false, l) := by
  have hb : ∀ b, x.get_bool (x.put_bool b) = some b := by
    intro b
    cases b
    · exact hf
    · exact ht
  rw [logging_serialize_empty]
  simp [logging.deserialize_json, assign_all, ptree.get_bool, ptree.get, ptree.get_child,
    ptree.children, ptree.data, ptree.leaf, hb, hm]

theorem rfind_chars_none (c : Char) (l : List Char) (h : c ∉ l) : rfind_chars c l = none := by
  induction l with
  | nil => rfl
  | cons a rest ih =>
    have h1 : a ≠ c := fun e => h (e ▸ List.mem_cons_self _ _)
    have h2 : c ∉ rest := fun e => h (List.mem_cons_of_mem _ e)
    simp [rfind_chars, ih h2, h1]

theorem rfind_chars_last (c : Char) (tail : List Char) (h : c ∉ tail) :
    ∀ head : List Char, rfind_chars c (head ++ c :: tail) = some head.length := by
  intro head
  induction head with
  | nil => simp [rfind_chars, rfind_chars_none c tail h]
  | cons a rest ih => simp [rfind_chars, ih]

theorem to_string_digits (n : Nat) :
    ∀ c ∈ (to_string n).toList, c ∈ decimal_digits :=
  toDigitsCore_digits _ _ _ (by simp)

theorem parse_port_to_string (p : Nat) (hp : p < 2 ^ 16) :
    parse_port (to_string p) = some (false, p) := by
  have hlen : (to_string p).length ≤ 5 := Nat.repr_length p 5 (by decide) (by omega)
  have hs := stoul_to_string p (by omega)
  simp only [parse_port, hs]
  have h1 : p % 2 ^ 16 = p := Nat.mod_eq_of_lt hp
  simp only [h1, bne_self_eq_false, Bool.false_or, Option.some.injEq, Prod.mk.injEq,
    decide_eq_false_iff_not, and_true]
  omega

/-- The text `address:port` written for a work peer with an IPv6 address is parsed back
to the address and the port. -/
theorem parse_address_port_text (from_string : String → Option address_v6) (text : String)
    (a : address_v6) (p : Nat) (a0 : address) (p0 : Nat) (hp : p < 2 ^ 16)
    (hne : text.toList ≠ []) (hfrom : from_string text = some a) :
    parse_address_port from_string (text ++ ":" ++ to_string p) a0 p0 = (false, .v6 a, p) := by
  have hcolon : ':' ∉ (to_string p).toList := by
    intro h
    have := to_string_digits p ':' h
    revert this
    decide
  have hlist : (text ++ ":" ++ to_string p).toList =
      (text.toList ++ [':']) ++ (to_string p).toList := by
    simp [String.toList, String.data_append]
  have hpos : 0 < text.toList.length := List.length_pos.mpr hne
  have hr : rfind (text ++ ":" ++ to_string p) ':' = some text.toList.length := by
    unfold rfind
    rw [hlist, List.append_assoc]
    exact rfind_chars_last ':' _ hcolon _
  have hdrop : String.mk ((text ++ ":" ++ to_string p).toList.drop (text.toList.length + 1)) =
      to_string p := by
    rw [hlist, List.drop_left' (by simp)]
    rfl
  have htake : String.mk ((text ++ ":" ++ to_string p).toList.take text.toList.length) =
      text := by
    rw [hlist, List.append_assoc, List.take_left' rfl]
    rfl
  simp only [parse_address_port, hr, hpos, if_true, hdrop, htake, parse_port_to_string p hp,
    hfrom]

theorem read_work_peers_cons (x : config_collaborators) (e : String × ptree)
    (rest : List (String × ptree)) (state : Bool × List (address × Nat)) :
    read_work_peers x (e :: rest) state =
      read_work_peers x rest
        (if !(state.1 || (parse_address_port x.from_string e.2.data (.v4 0) 0).1) then
          (state.1 || (parse_address_port x.from_string e.2.data (.v4 0) 0).1,
            state.2 ++ [((parse_address_port x.from_string e.2.data (.v4 0) 0).2.1,
              (parse_address_port x.from_string e.2.data (.v4 0) 0).2.2)])
        else (state.1 || (parse_address_port x.from_string e.2.data (.v4 0) 0).1, state.2)) :=
  rfl

theorem read_representatives_cons (x : config_collaborators) (e : String × ptree)
    (rest : List (String × ptree)) (state : Bool × List Nat) :
    read_representatives x (e :: rest) state =
      read_representatives x rest
        (if state.1 then (true, state.2 ++ [0])
         else ((x.decode_account e.2.data).1, state.2 ++ [(x.decode_account e.2.data).2])) :=
  rfl

theorem read_work_peers_round_trip (x : config_collaborators) (peers : List (address × Nat))
    (hpeers : ∀ i ∈ peers,
      ((x.from_string (x.address_to_string i.1)).map address.v6 = some i.1 ∧
        (x.address_to_string i.1).toList ≠ []) ∧ i.2 < 2 ^ 16) :
    ∀ acc : List (address × Nat),
      read_work_peers x
        (peers.map (fun i => ("", ptree.leaf (x.address_to_string i.1 ++ ":" ++ to_string i.2))))
        (false, acc) = (false, acc ++ peers) := by
  induction peers with
  | nil => intro acc; simp [read_work_peers]
  | cons i rest ih =>
    intro acc
    obtain ⟨⟨hfrom, hne⟩, hp⟩ := hpeers i (List.mem_cons_self _ _)
    cases hf : x.from_string (x.address_to_string i.1) with
    | none => simp [hf] at hfrom
    | some a =>
      simp only [hf, Option.map_some', Option.some.injEq] at hfrom
      have hparse := parse_address_port_text x.from_string (x.address_to_string i.1) a i.2
        (.v4 0) 0 hp hne hf
      have hi : (address.v6 a, i.2) = i := by rw [hfrom]
      rw [List.map_cons, read_work_peers_cons]
      simp only [ptree.leaf, ptree.data, hparse, Bool.or_self, Bool.not_false, if_true, hi]
      have hrest := ih (fun j hj => hpeers j (List.mem_cons_of_mem _ hj)) (acc ++ [i])
      simp only [ptree.leaf] at hrest
      rw [hrest]
      simp

theorem read_representatives_round_trip (x : config_collaborators) (reps : List Nat)
    (hreps : ∀ i ∈ reps, x.decode_account (x.to_account i) = (false, i)) :
    ∀ acc : List Nat,
      read_representatives x (reps.map (fun i => ("", ptree.leaf (x.to_account i))))
        (false, acc) = (false, acc ++ reps) := by
  induction reps with
  | nil => intro acc; simp [read_representatives]
  | cons i rest ih =>
    intro acc
    have hi := hreps i (List.mem_cons_self _ _)
    rw [List.map_cons, read_representatives_cons]
    simp only [ptree.leaf, ptree.data, hi, Bool.false_eq_true, if_false]
    have hrest := ih (fun j hj => hreps j (List.mem_cons_of_mem _ hj)) (acc ++ [i])
    simp only [ptree.leaf] at hrest
    rw [hrest]
    simp

theorem assign_numbers_round_trip (c c4 : node_config) (hw : fits_widths c) :
    assign_numbers (to_string c.peering_port) (to_string c.packet_delay_microseconds)
      (to_string c.bootstrap_fraction_numerator) (to_string c.creation_rebroadcast)
      (to_string c.rebroadcast_delay) (to_string c.password_fanout) (to_string c.io_threads)
      (to_string c.work_threads) c4 =
      (false, { c4 with peering_port := c.peering_port,
                        packet_delay_microseconds := c.packet_delay_microseconds,
                        bootstrap_fraction_numerator := c.bootstrap_fraction_numerator,
                        creation_rebroadcast := c.creation_rebroadcast,
                        rebroadcast_delay := c.rebroadcast_delay,
                        password_fanout := c.password_fanout,
                        io_threads := c.io_threads,
                        work_threads := c.work_threads }) := by
  obtain ⟨h1, h2, h3, h4, h5, h6, h7, h8, _⟩ := hw
  simp only [assign_numbers, assign_all,
    stoul_value_to_string c.peering_port (by omega),
    stoul_value_to_string c.packet_delay_microseconds (by omega),
    stoul_value_to_string c.bootstrap_fraction_numerator (by omega),
    stoul_value_to_string c.creation_rebroadcast (by omega),
    stoul_value_to_string c.rebroadcast_delay (by omega),
    stoul_value_to_string c.password_fanout (by omega),
    stoul_value_to_string c.io_threads (by omega),
    stoul_value_to_string c.work_threads (by omega),
    Option.map_some', Nat.mod_eq_of_lt h1, Nat.mod_eq_of_lt h2, Nat.mod_eq_of_lt h3,
    Nat.mod_eq_of_lt h4, Nat.mod_eq_of_lt h5, Nat.mod_eq_of_lt h6, Nat.mod_eq_of_lt h7,
    Nat.mod_eq_of_lt h8]

/-- Reading back the tree that `serialize_json` wrote: the object read is the object
written, `upgraded_a` is as before, and the error flag is set exactly when the list of
representatives is empty or a count is outside its bounds. -/
theorem deserialize_serialize (x : config_collaborators) (c c0 : node_config)
    (upgraded_a : Bool) (hr : reads_back x c) (hw : fits_widths c) :
    (c0.deserialize_json x upgraded_a (c.serialize_json x ptree.empty)).map
        (fun o => (o.result, o.upgraded, o.config)) =
      some (c.preconfigured_representatives.isEmpty || out_of_bounds c, upgraded_a, c) := by
  obtain ⟨ht, hf, hm, hrm, his, hreps, hpeers⟩ := hr
  have hwp : ∀ i ∈ c.work_peers,
      ((x.from_string (x.address_to_string i.1)).map address.v6 = some i.1 ∧
        (x.address_to_string i.1).toList ≠ []) ∧ i.2 < 2 ^ 16 :=
    fun i hi => ⟨hpeers i hi, hw.2.2.2.2.2.2.2.2 i hi⟩
  have hpeers2 := read_work_peers_round_trip x c.work_peers hwp []
  have hreps2 := read_representatives_round_trip x c.preconfigured_representatives hreps []
  simp only [ptree.leaf, List.nil_append] at hpeers2 hreps2
  have hlog := fun l0 => logging_round_trip x c.logging l0 ht hf hm
  have hv : stoul_value "3" = some 3 := by decide
  have hport : ¬ c.peering_port > 2 ^ 16 - 1 := by
    have := hw.1
    omega
  rw [serialize_empty]
  simp only [node_config.deserialize_json, mark_version, ptree.get, ptree.get_child,
    ptree.children, List.find?_cons, List.find?_nil, beq_self_eq_true, Option.map_some',
    ptree.data, ptree.leaf, Option.getD_some, hv, node_config.upgrade_json]
  simp only [String.reduceBEq, Bool.false_eq_true, if_false, Option.map_some', ptree.data,
    ptree.children, List.map_map, Function.comp_def, List.map_id', hpeers2, hreps2,
    List.nil_append, Nat.reduceMod, Bool.false_or, Bool.or_false]
  rw [assign_numbers_round_trip c _ hw]
  simp only [Bool.false_eq_true, if_false, Option.map_some', check_values, hlog, hrm, his,
    Option.some.injEq, Prod.mk.injEq, out_of_bounds, hport, decide_False, Bool.or_false,
    Bool.or_assoc, true_and, and_true, hpeers2, hreps2, Bool.false_or]

theorem check_values_bounds (x : config_collaborators) (logging_l : ptree)
    (receive_minimum_l inactive_supply_l : String) (result : Bool) (c : node_config)
    (h : out_of_bounds
      (check_values x logging_l receive_minimum_l inactive_supply_l result c).2 = true) :
    (check_values x logging_l receive_minimum_l inactive_supply_l result c).1 = true := by
  simp only [check_values, out_of_bounds, Bool.or_eq_true, decide_eq_true_eq] at h ⊢
  tauto

/-- Whenever `deserialize_json` returns with a count outside its bounds in the object, it
returns the error flag. -/
theorem deserialize_bounds (x : config_collaborators) (c0 : node_config) (upgraded_a : Bool)
    (tree_a : ptree) (o : deserialize_outcome)
    (h : c0.deserialize_json x upgraded_a tree_a = some o)
    (hb : out_of_bounds o.config = true) : o.result = true := by
  unfold node_config.deserialize_json at h
  simp only at h
  split at h
  · cases h
  · split at h
    · simp only [Option.some.injEq] at h
      subst h
      rfl
    · split at h
      · split at h
        · simp only [Option.some.injEq] at h
          subst h
          rfl
        · split at h
          · simp only [Option.some.injEq] at h
            subst h
            rfl
          · split at h
            · simp only [Option.some.injEq] at h
              subst h
              rfl
            · split at h
              · split at h
                · simp only [Option.some.injEq] at h
                  subst h
                  rfl
                · simp only [Option.some.injEq] at h
                  subst h
                  exact check_values_bounds _ _ _ _ _ _ hb
              · simp only [Option.some.injEq] at h
                subst h
                rfl
      · simp only [Option.some.injEq] at h
        subst h
        rfl

theorem assign_numbers_values (p1 p2 p3 p4 p5 p6 p7 p8 : String) (c c1 : node_config)
    (h : assign_numbers p1 p2 p3 p4 p5 p6 p7 p8 c = (false, c1)) :
    (stoul_value p4).map (fun v => v % 2 ^ 32) = some c1.creation_rebroadcast ∧
    (stoul_value p5).map (fun v => v % 2 ^ 32) = some c1.rebroadcast_delay ∧
    (stoul_value p6).map (fun v => v % 2 ^ 32) = some c1.password_fanout ∧
    (stoul_value p7).map (fun v => v % 2 ^ 32) = some c1.io_threads ∧
    (stoul_value p8).map (fun v => v % 2 ^ 32) = some c1.work_threads := by
  unfold assign_numbers at h
  cases h1 : stoul_value p1 with
  | none => simp [assign_all, h1] at h
  | some v1 =>
  cases h2 : stoul_value p2 with
  | none => simp [assign_all, h1, h2] at h
  | some v2 =>
  cases h3 : stoul_value p3 with
  | none => simp [assign_all, h1, h2, h3] at h
  | some v3 =>
  cases h4 : stoul_value p4 with
  | none => simp [assign_all, h1, h2, h3, h4] at h
  | some v4 =>
  cases h5 : stoul_value p5 with
  | none => simp [assign_all, h1, h2, h3, h4, h5] at h
  | some v5 =>
  cases h6 : stoul_value p6 with
  | none => simp [assign_all, h1, h2, h3, h4, h5, h6] at h
  | some v6 =>
  cases h7 : stoul_value p7 with
  | none => simp [assign_all, h1, h2, h3, h4, h5, h6, h7] at h
  | some v7 =>
  cases h8 : stoul_value p8 with
  | none => simp [assign_all, h1, h2, h3, h4, h5, h6, h7, h8] at h
  | some v8 =>
    simp only [assign_all, h1, h2, h3, h4, h5, h6, h7, h8, Option.map_some', Prod.mk.injEq,
      true_and] at h
    subst h
    exact ⟨rfl, rfl, rfl, rfl, rfl⟩

/-- On a tree of version 3, `deserialize_json` returns, and it returns the error flag or an
object whose counts are those stored in the tree. -/
theorem deserialize_version_3 (x : config_collaborators) (c0 : node_config) (upgraded_a : Bool)
    (tree_a : ptree) (hv : tree_a.get "version" = some "3") :
    ∃ o, c0.deserialize_json x upgraded_a tree_a = some o ∧
      (o.result = true ∨
        (read_count tree_a "creation_rebroadcast" = some o.config.creation_rebroadcast ∧
         read_count tree_a "rebroadcast_delay" = some o.config.rebroadcast_delay ∧
         read_count tree_a "password_fanout" = some o.config.password_fanout ∧
         read_count tree_a "io_threads" = some o.config.io_threads ∧
         read_count tree_a "work_threads" = some o.config.work_threads)) := by
  have h3 : stoul_value "3" = some 3 := by decide
  unfold node_config.deserialize_json
  simp only [mark_version, hv, Option.getD_some, h3, Nat.reduceMod, node_config.upgrade_json]
  cases g1 : tree_a.get "peering_port" with
  | none => exact ⟨_, rfl, Or.inl rfl⟩
  | some v1 =>
  cases g2 : tree_a.get "packet_delay_microseconds" with
  | none => exact ⟨_, rfl, Or.inl rfl⟩
  | some v2 =>
  cases g3 : tree_a.get "bootstrap_fraction_numerator" with
  | none => exact ⟨_, rfl, Or.inl rfl⟩
  | some v3 =>
  cases g4 : tree_a.get "creation_rebroadcast" with
  | none => exact ⟨_, rfl, Or.inl rfl⟩
  | some v4 =>
  cases g5 : tree_a.get "rebroadcast_delay" with
  | none => exact ⟨_, rfl, Or.inl rfl⟩
  | some v5 =>
  cases g6 : tree_a.get "receive_minimum" with
  | none => exact ⟨_, rfl, Or.inl rfl⟩
  | some v6 =>
  cases g7 : tree_a.get_child "logging" with
  | none => exact ⟨_, rfl, Or.inl rfl⟩
  | some v7 =>
  cases g8 : tree_a.get_child "work_peers" with
  | none => exact ⟨_, rfl, Or.inl rfl⟩
  | some v8 =>
  cases g9 : tree_a.get_child "preconfigured_peers" with
  | none => exact ⟨_, rfl, Or.inl rfl⟩
  | some v9 =>
  cases g10 : tree_a.get_child "preconfigured_representatives" with
  | none => exact ⟨_, rfl, Or.inl rfl⟩
  | some v10 =>
  cases g11 : tree_a.get "inactive_supply" with
  | none => exact ⟨_, rfl, Or.inl rfl⟩
  | some v11 =>
  cases g12 : tree_a.get "password_fanout" with
  | none => exact ⟨_, rfl, Or.inl rfl⟩
  | some v12 =>
  cases g13 : tree_a.get "io_threads" with
  | none => exact ⟨_, rfl, Or.inl rfl⟩
  | some v13 =>
  cases g14 : tree_a.get "work_threads" with
  | none => exact ⟨_, rfl, Or.inl rfl⟩
  | some v14 =>
  simp only
  split
  · exact ⟨_, rfl, Or.inl rfl⟩
  · rename_i hn
    refine ⟨_, rfl, Or.inr ?_⟩
    have hnum := assign_numbers_values v1 v2 v3 v4 v5 v12 v13 v14 _ _
      (Prod.ext (by simpa using hn) rfl)
    simp only [read_count, g4, g5, g12, g13, g14, Option.some_bind, check_values]
    exact hnum

theorem sample_reads_back : reads_back toy_config_text sample_config := by
  unfold reads_back
  decide

theorem boundary_reads_back : reads_back toy_config_text boundary_config := by
  unfold reads_back
  decide

/-- C23: validation of the counts by deserialize_json, which assigns every count to its
field of 32 bits before it tests the bounds. Whenever deserialize_json returns with
creation_rebroadcast > 10, rebroadcast_delay > 300, password_fanout < 16,
password_fanout > 1048576, io_threads = 0 or work_threads = 0 in the object, it returns
the error flag; on a tree of version 3 it always returns, with the error flag when one of
these counts, read as the value of std::stoul on the text of the tree reduced modulo 2^32,
is outside its bounds. For the tree serialize_json writes for a configuration with a
representative whose counts sit exactly on the bounds (10, 300, 16 or 1048576, 1, 1),
whose values fit their fields and are read back by the translators outside node.cpp, it
returns false. The bounds are not tested on the values of the tree: a tree of version 3
that stores creation_rebroadcast 4294967301 is read without the error flag, with the
count 5 in the object, and one that stores password_fanout 4294968320 with the count
1024. -/
theorem C23_config_validation (x : config_collaborators) (c c0 : node_config)
    (upgraded_a : Bool) (hr : reads_back x c) (hw : fits_widths c)
    (hreps : c.preconfigured_representatives ≠ [])
    (h1 : c.creation_rebroadcast = 10) (h2 : c.rebroadcast_delay = 300)
    (h3 : c.password_fanout = 16 ∨ c.password_fanout = 1048576)
    (h4 : c.io_threads = 1) (h5 : c.work_threads = 1) :
    (∀ tree_a o, c0.deserialize_json x upgraded_a tree_a = some o →
      (o.config.creation_rebroadcast > 10 ∨ o.config.rebroadcast_delay > 300 ∨
        o.config.password_fanout < 16 ∨ o.config.password_fanout > 1048576 ∨
        o.config.io_threads = 0 ∨ o.config.work_threads = 0) → o.result = true) ∧
    (∀ tree_a, tree_a.get "version" = some "3" →
      ∃ o, c0.deserialize_json x upgraded_a tree_a = some o ∧
        (((∃ n, read_count tree_a "creation_rebroadcast" = some n ∧ n > 10) ∨
          (∃ n, read_count tree_a "rebroadcast_delay" = some n ∧ n > 300) ∨
          (∃ n, read_count tree_a "password_fanout" = some n ∧ (n < 16 ∨ n > 1048576)) ∨
          read_count tree_a "io_threads" = some 0 ∨
          read_count tree_a "work_threads" = some 0) → o.result = true)) ∧
    (∀ tree_a key n, (tree_a.get key).bind stoul_value = some n →
      read_count tree_a key = some (n % 2 ^ 32)) ∧
    (c0.deserialize_json x upgraded_a (c.serialize_json x ptree.empty)).map
      (fun o => o.result) = some false ∧
    ((wide_rebroadcast_tree.get "creation_rebroadcast").bind stoul_value = some 4294967301 ∧
      wide_rebroadcast_tree.get "version" = some "3" ∧
      (blank_config.deserialize_json toy_config_text false wide_rebroadcast_tree).map
        (fun o => (o.result, o.config.creation_rebroadcast)) = some (false, 5)) ∧
    ((wide_fanout_tree.get "password_fanout").bind stoul_value = some 4294968320 ∧
      wide_fanout_tree.get "version" = some "3" ∧
      (blank_config.deserialize_json toy_config_text false wide_fanout_tree).map
        (fun o => (o.result, o.config.password_fanout)) = some (false, 1024)) := by
  have hbound : ∀ tree_a o, c0.deserialize_json x upgraded_a tree_a = some o →
      (o.config.creation_rebroadcast > 10 ∨ o.config.rebroadcast_delay > 300 ∨
        o.config.password_fanout < 16 ∨ o.config.password_fanout > 1048576 ∨
        o.config.io_threads = 0 ∨ o.config.work_threads = 0) → o.result = true := by
    intro tree_a o ho hb
    apply deserialize_bounds x c0 upgraded_a tree_a o ho
    simp only [out_of_bounds, Bool.or_eq_true, decide_eq_true_eq]
    tauto
  refine ⟨hbound, ?_, ?_, ?_, by decide, by decide⟩
  · intro tree_a hv
    obtain ⟨o, ho, hcase⟩ := deserialize_version_3 x c0 upgraded_a tree_a hv
    refine ⟨o, ho, ?_⟩
    intro htext
    rcases hcase with hres | ⟨e1, e2, e3, e4, e5⟩
    · exact hres
    · apply hbound tree_a o ho
      rw [e1, e2, e3, e4, e5] at htext
      simp only [Option.some.injEq, exists_eq_left'] at htext
      tauto
  · intro tree_a key n hn
    simp only [read_count, hn, Option.map_some']
  · have h := deserialize_serialize x c c0 upgraded_a hr hw
    have hb : out_of_bounds c = false := by
      simp only [out_of_bounds, h1, h2, h4, h5]
      rcases h3 with h3 | h3 <;> simp [h3]
    have he : c.preconfigured_representatives.isEmpty = false := by
      cases hc : c.preconfigured_representatives with
      | nil => exact absurd hc hreps
      | cons _ _ => rfl
    rw [hb, he] at h
    cases hd : c0.deserialize_json x upgraded_a (c.serialize_json x ptree.empty) with
    | none => simp [hd] at h
    | some o =>
      simp only [hd, Option.map_some', Option.some.injEq, Prod.mk.injEq] at h ⊢
      simpa using h.1

/-- The tree written for the toy configuration on the bounds is read back without the
error flag, and reading the tree that stores a fanout of 8 gives the error flag. -/
theorem C23_config_validation_witness :
    (blank_config.deserialize_json toy_config_text false
      (boundary_config.serialize_json toy_config_text ptree.empty)).map
      (fun o => o.result) = some false ∧
    ∃ o, blank_config.deserialize_json toy_config_text false
        ((boundary_config.serialize_json toy_config_text ptree.empty).put
          "password_fanout" "8") = some o ∧ o.result = true :=
  have h := C23_config_validation toy_config_text boundary_config blank_config false
    boundary_reads_back (by unfold fits_widths; decide) (by decide) (by decide) (by decide)
    (Or.inl (by decide)) (by decide) (by decide)
  ⟨h.2.2.2.1,
   match h.2.1 ((boundary_config.serialize_json toy_config_text ptree.empty).put
      "password_fanout" "8") (by decide) with
   | ⟨o, ho, hres⟩ => ⟨o, ho, hres (Or.inr (Or.inr (Or.inl ⟨8, by decide, Or.inl (by decide)⟩)))⟩⟩

/-- C29: the round trip of the configuration. For every node_config c with a
representative, whose counts are inside the accepted bounds, whose values fit their
fields, whose work peers have IPv6 addresses, and whose values are read back by the
translators outside node.cpp (booleans, max_size, amounts, accounts, addresses),
deserialize_json applied, on any object, to the tree serialize_json writes into an empty
tree returns no error, leaves upgraded as false, and yields an object equal to c. -/
theorem C29_config_round_trip (x : config_collaborators) (c c0 : node_config)
    (hr : reads_back x c) (hw : fits_widths c)
    (hreps : c.preconfigured_representatives ≠ [])
    (h1 : c.creation_rebroadcast ≤ 10) (h2 : c.rebroadcast_delay ≤ 300)
    (h3 : 16 ≤ c.password_fanout) (h4 : c.password_fanout ≤ 1048576)
    (h5 : 1 ≤ c.io_threads) (h6 : 1 ≤ c.work_threads) :
    (c0.deserialize_json x false (c.serialize_json x ptree.empty)).map
      (fun o => (o.result, o.upgraded, o.config)) = some (false, false, c) := by
  have h := deserialize_serialize x c c0 false hr hw
  have hb : out_of_bounds c = false := by
    simp only [out_of_bounds, Bool.or_eq_false_iff, decide_eq_false_iff_not]
    omega
  have he : c.preconfigured_representatives.isEmpty = false := by
    cases hc : c.preconfigured_representatives with
    | nil => exact absurd hc hreps
    | cons _ _ => rfl
  rw [hb, he] at h
  exact h

/-- The toy sample configuration is read back as written. -/
theorem C29_config_round_trip_witness :
    (blank_config.deserialize_json toy_config_text false
      (sample_config.serialize_json toy_config_text ptree.empty)).map
      (fun o => (o.result, o.upgraded, o.config)) = some (false, false, sample_config) :=
  C29_config_round_trip toy_config_text sample_config blank_config sample_reads_back
    (by unfold fits_widths; decide) (by decide) (by decide) (by decide) (by decide)
    (by decide) (by decide) (by decide)

/-! ### Configuration: upgrades -/

theorem put_first_filter (keep : String → Bool) (k v : String) (hk : keep k = false) :
    ∀ l : List (String × ptree),
      (put_first k v l).filter (fun i => keep i.1) = l.filter (fun i => keep i.1) := by
  intro l
  induction l with
  | nil => rfl
  | cons a rest ih =>
    by_cases ha : a.1 = k
    · simp [put_first, ha, hk, List.filter_cons]
    · simp [put_first, ha, List.filter_cons, ih]

/-- The call `put (k, v)` leaves the children with other keys as they are, in order. -/
theorem put_filter (keep : String → Bool) (t : ptree) (k v : String) (hk : keep k = false) :
    (t.put k v).children.filter (fun i => keep i.1) = t.children.filter (fun i => keep i.1) := by
  cases t with
  | mk d l =>
    unfold ptree.put
    split
    · simp [ptree.children, put_first_filter keep k v hk]
    · simp [ptree.children, List.filter_append, hk]

theorem erase_filter (keep : String → Bool) (t : ptree) (k : String) (hk : keep k = false) :
    (t.erase k).children.filter (fun i => keep i.1) = t.children.filter (fun i => keep i.1) := by
  cases t
  simp only [ptree.erase, ptree.children, List.filter_filter]
  apply List.filter_congr
  intro i _
  by_cases hi : i.1 = k
  · simp [hi, hk]
  · simp [hi]

theorem add_child_filter (keep : String → Bool) (t : ptree) (k : String) (child : ptree)
    (hk : keep k = false) :
    (t.add_child k child).children.filter (fun i => keep i.1) =
      t.children.filter (fun i => keep i.1) := by
  cases t
  simp [ptree.add_child, ptree.children, List.filter_append, hk]

theorem find_put_first (k v : String) :
    ∀ (l : List (String × ptree)) (e : String × ptree),
      l.find? (fun i => i.1 == k) = some e →
      (put_first k v l).find? (fun i => i.1 == k) = some (e.1, .mk v e.2.children) := by
  intro l
  induction l with
  | nil => intro e h; simp at h
  | cons a rest ih =>
    intro e h
    by_cases ha : a.1 = k
    · simp only [List.find?_cons, ha, beq_self_eq_true, Option.some.injEq] at h
      subst h
      simp [put_first, ha, List.find?_cons]
    · have hb : (a.1 == k) = false := by simpa using ha
      simp only [List.find?_cons, hb] at h
      simp [put_first, ha, List.find?_cons, hb, ih e h]

theorem find_put_first_ne (k k2 v : String) (h : k2 ≠ k) :
    ∀ l : List (String × ptree),
      (put_first k v l).find? (fun i => i.1 == k2) = l.find? (fun i => i.1 == k2) := by
  intro l
  induction l with
  | nil => rfl
  | cons a rest ih =>
    by_cases ha : a.1 = k
    · have hb : (k == k2) = false := by simpa using fun e => h e.symm
      simp [put_first, ha, List.find?_cons, hb]
    · by_cases ha2 : a.1 = k2
      · simp [put_first, ha, List.find?_cons, ha2]
        simp [← ha2, ha, List.find?_cons]
      · simp [put_first, ha, List.find?_cons, ha2, ih]

/-- After `put (k, v)`, `get (k)` gives `v`. -/
theorem get_put (t : ptree) (k v : String) : (t.put k v).get k = some v := by
  cases t with
  | mk d l =>
    unfold ptree.put
    cases hg : (ptree.mk d l).get_child k with
    | none =>
      simp only [ptree.get_child, ptree.children, Option.map_eq_none'] at hg
      simp [ptree.get, ptree.get_child, ptree.children, List.find?_append, hg, ptree.leaf,
        ptree.data]
    | some child =>
      simp only [ptree.get_child, ptree.children, Option.map_eq_some'] at hg
      obtain ⟨e, he, _⟩ := hg
      simp [ptree.get, ptree.get_child, ptree.children, find_put_first k v _ e he, ptree.data]

/-- The call `put (k, v)` does not change what `get_child` gives for another key. -/
theorem get_child_put_ne (t : ptree) (k k2 v : String) (h : k2 ≠ k) :
    (t.put k v).get_child k2 = t.get_child k2 := by
  have hb : (k == k2) = false := by simpa using fun e => h e.symm
  cases t with
  | mk d l =>
    unfold ptree.put
    split
    · simp [ptree.get_child, ptree.children, find_put_first_ne k k2 v h]
    · simp [ptree.get_child, ptree.children, List.find?_append, hb]

theorem get_put_ne (t : ptree) (k k2 v : String) (h : k2 ≠ k) :
    (t.put k v).get k2 = t.get k2 := by
  simp [ptree.get, get_child_put_ne t k k2 v h]

theorem get_child_erase_ne (t : ptree) (k k2 : String) (h : k2 ≠ k) :
    (t.erase k).get_child k2 = t.get_child k2 := by
  cases t with
  | mk d l =>
    simp only [ptree.get_child, ptree.erase, ptree.children]
    congr 1
    induction l with
    | nil => rfl
    | cons a rest ih =>
      by_cases ha : a.1 = k
      · have hb : (a.1 == k2) = false := by
          rw [ha]
          simpa using fun e => h e.symm
        simp only [List.filter_cons, ha, bne_self_eq_false, Bool.false_eq_true, if_false,
          List.find?_cons]
        rw [ha] at hb
        simp only [hb]
        exact ih
      · by_cases ha2 : a.1 = k2
        · simp [List.filter_cons, ha, List.find?_cons, ha2]
          simp [← ha2, ha, List.find?_cons]
        · simp [List.filter_cons, ha, List.find?_cons, ha2, ih]

theorem get_erase_ne (t : ptree) (k k2 : String) (h : k2 ≠ k) :
    (t.erase k).get k2 = t.get k2 := by
  simp [ptree.get, get_child_erase_ne t k k2 h]

theorem put_data (t : ptree) (k v : String) : (t.put k v).data = t.data := by
  cases t with
  | mk d l =>
    unfold ptree.put
    split <;> rfl

theorem erase_data (t : ptree) (k : String) : (t.erase k).data = t.data := by
  cases t
  rfl

/-- What the block of case 2 leaves in the tree. -/
theorem upgrade_case_2_spec (x : config_collaborators) (c : node_config) (t : ptree) :
    (upgrade_case_2 x c t).get "version" = some "3" ∧
    (upgrade_case_2 x c t).get "inactive_supply" = some (x.to_string_dec 0) ∧
    (upgrade_case_2 x c t).get "password_fanout" = some "1024" ∧
    (upgrade_case_2 x c t).get "io_threads" = some (to_string c.io_threads) ∧
    (upgrade_case_2 x c t).get "work_threads" = some (to_string c.work_threads) ∧
    (upgrade_case_2 x c t).data = t.data ∧
    (upgrade_case_2 x c t).children.filter (fun i => !upgrade_keys.contains i.1) =
      t.children.filter (fun i => !upgrade_keys.contains i.1) := by
  have h1024 : to_string 1024 = "1024" := by decide
  refine ⟨?_, ?_, ?_, ?_, ?_, ?_, ?_⟩
  · simp only [upgrade_case_2, get_put]
  · simp only [upgrade_case_2]
    rw [get_put_ne _ _ _ _ (by decide), get_erase_ne _ _ _ (by decide),
      get_put_ne _ _ _ _ (by decide), get_put_ne _ _ _ _ (by decide),
      get_put_ne _ _ _ _ (by decide), get_put]
  · simp only [upgrade_case_2]
    rw [get_put_ne _ _ _ _ (by decide), get_erase_ne _ _ _ (by decide),
      get_put_ne _ _ _ _ (by decide), get_put_ne _ _ _ _ (by decide), get_put, h1024]
  · simp only [upgrade_case_2]
    rw [get_put_ne _ _ _ _ (by decide), get_erase_ne _ _ _ (by decide),
      get_put_ne _ _ _ _ (by decide), get_put]
  · simp only [upgrade_case_2]
    rw [get_put_ne _ _ _ _ (by decide), get_erase_ne _ _ _ (by decide), get_put]
  · simp only [upgrade_case_2, put_data, erase_data]
  · simp only [upgrade_case_2]
    rw [put_filter (fun k => !upgrade_keys.contains k) _ _ _ (by decide),
      erase_filter (fun k => !upgrade_keys.contains k) _ _ (by decide),
      put_filter (fun k => !upgrade_keys.contains k) _ _ _ (by decide),
      put_filter (fun k => !upgrade_keys.contains k) _ _ _ (by decide),
      put_filter (fun k => !upgrade_keys.contains k) _ _ _ (by decide),
      put_filter (fun k => !upgrade_keys.contains k) _ _ _ (by decide)]

/-- C27 (as stated, refuted): the step from version 2 to version 3 overwrites a stored
inactive_supply and password_fanout. For the tree of version 2 that stores an inactive
supply of 5 and a fanout of 64, upgrade_json returns true and leaves the inactive supply
the text of 0 and the fanout 1024. -/
theorem C27_stored_values_overwritten :
    stored_v2_tree.get "version" = some "2" ∧
    stored_v2_tree.get "inactive_supply" = some "5" ∧
    stored_v2_tree.get "password_fanout" = some "64" ∧
    (blank_config.upgrade_json toy_config_text 2 stored_v2_tree).map
        (fun r => (r.1, r.2.get "inactive_supply", r.2.get "password_fanout")) =
      some (true, some "0", some "1024") := by
  decide

/-- C27 (amended): for every tree, the step from version 2 to version 3 of upgrade_json
returns true and writes five keys: inactive_supply (the text of 0), password_fanout
(1024), io_threads and work_threads (the values of the object) and version (3), whether or
not the tree already stored them; a stored inactive_supply or password_fanout is
overwritten. Every child with another key, and the data of the tree, is the same after the
upgrade as before, in the same order. -/
theorem C27_upgrade_frame (x : config_collaborators) (c : node_config) (t : ptree) :
    c.upgrade_json x 2 t = some (true, upgrade_case_2 x c t) ∧
    (upgrade_case_2 x c t).get "version" = some "3" ∧
    (upgrade_case_2 x c t).get "inactive_supply" = some (x.to_string_dec 0) ∧
    (upgrade_case_2 x c t).get "password_fanout" = some "1024" ∧
    (upgrade_case_2 x c t).get "io_threads" = some (to_string c.io_threads) ∧
    (upgrade_case_2 x c t).get "work_threads" = some (to_string c.work_threads) ∧
    (upgrade_case_2 x c t).data = t.data ∧
    (upgrade_case_2 x c t).children.filter (fun i => !upgrade_keys.contains i.1) =
      t.children.filter (fun i => !upgrade_keys.contains i.1) :=
  ⟨rfl, upgrade_case_2_spec x c t⟩

end rai
